import Mathlib

/-!
# Tx-block store and manager of `vm/tx_block_manager.go`

A shallow embedding of the in-memory tx-block store (`TxBlockMap`) and of the
sequential skeleton of the manager (`TxBlockManager`) built on it.

Conventions of the embedding:

* `ids.ID` and `ids.NodeID` are natural numbers; a `uint64` is a natural number
  and every addition the source performs on one is reduced modulo `2 ^ 64`.
* A Go map that the source only reads and writes by key (`items`, `heights`,
  `requests`, `outstanding`) is a function into `Option`.
* `*bucket` values are shared between the `heights` map and the heap entries,
  so bucket objects live in a memory `mem` indexed by address, `next` being the
  first address not yet allocated.
* `set.Set[ids.ID]` is a duplicate-free list; ranging over it visits the list
  in order.  Go leaves that order unspecified, so results are only ever
  compared by membership and multiplicity.
* A nil-pointer dereference is the result `none`.
* Block ids are content hashes, so two blocks with the same id have the same
  height.  Where a statement depends on this it says so through `Respects`: the
  blocks added have the height that a function `hgt` gives to their id.
* What other goroutines do while a fetch is suspended (register listeners, add
  blocks to the store, answer the request) is an argument of the fetch, one
  `Attempt` per round of its retry loop.
-/

namespace TxBlockManager

/-! ## Data model -/

/-- The size of the `uint64` range. -/
def u64 : Nat := 2 ^ 64

/-- The fields of `chain.StatelessTxBlock` the manager reads: the cached
identifier returned by `ID()`, the parent identifier, the height and the
transaction list. -/
structure TxBlock where
  id : Nat
  Prnt : Nat
  Hght : Nat
  Txs : List Nat
  deriving DecidableEq, Repr

/-- The struct `blkItem`: a block with its two atomic flags. -/
structure blkItem where
  blk : TxBlock
  verifying : Bool
  verified : Bool
  deriving DecidableEq, Repr

/-- The struct `bucket`: a height and the set of ids at that height. -/
structure bucket where
  h : Nat
  items : List Nat
  deriving DecidableEq, Repr

/-- A `heap.Entry[*bucket, uint64]`: the id of the block that created the
bucket, the height used as priority, and the address of the bucket.  The field
`Index` is the heap's own position bookkeeping and is not represented. -/
structure Entry where
  ID : Nat
  Val : Nat
  Item : Nat
  deriving DecidableEq, Repr

/-- The struct `TxBlockMap` (the lock is not represented: every operation below
runs under it from start to end). -/
structure TxBlockMap where
  mem : Nat → bucket
  next : Nat
  bh : List Entry
  items : Nat → Option blkItem
  heights : Nat → Option Nat

/-- Writing one key of a Go map. -/
def mapSet {V : Type} (m : Nat → Option V) (k : Nat) (v : V) : Nat → Option V :=
  fun x => if x = k then some v else m x

/-- The builtin `delete(m, k)`. -/
def mapDelete {V : Type} (m : Nat → Option V) (k : Nat) : Nat → Option V :=
  fun x => if x = k then none else m x

/-- Overwriting the bucket object stored at address `p`. -/
def memSet (mem : Nat → bucket) (p : Nat) (b : bucket) : Nat → bucket :=
  fun x => if x = p then b else mem x

/-- The method `Add` of `set.Set`. -/
def setAdd (s : List Nat) (x : Nat) : List Nat :=
  if x ∈ s then s else s ++ [x]

/-- The method `CompareAndSwap` of `atomic.Bool` applied to the `verifying`
flag of an item: the item afterwards and whether the swap happened. -/
def CompareAndSwap (it : blkItem) (old new : Bool) : blkItem × Bool :=
  if it.verifying = old then ({ it with verifying := new }, true) else (it, false)

/-! ## The eviction heap -/

/-- Modelled from the spec: package `heap` is not among the sources; the spec
describes `eviction_heap` as a min-heap keyed by height.  `First` is the entry
of least `Val` (the leftmost one among equals), `none` on an empty heap. -/
def heapFirst : List Entry → Option Entry
  | [] => none
  | e :: es =>
    match heapFirst es with
    | none => some e
    | some m => if e.Val ≤ m.Val then some e else some m

/-- Modelled from the spec: `Pop` of the min-heap removes the entry that
`First` returns. -/
def heapPop (es : List Entry) : List Entry :=
  match heapFirst es with
  | none => es
  | some m => es.erase m

/-- Modelled from the spec: `Push` of the min-heap adds one entry. -/
def heapPush (es : List Entry) (e : Entry) : List Entry := es ++ [e]

/-! ## The store `TxBlockMap` -/

/-- The function `NewTxBlockMap`. -/
def NewTxBlockMap : TxBlockMap :=
  { mem := fun _ => ⟨0, []⟩, next := 0, bh := [],
    items := fun _ => none, heights := fun _ => none }

/-- The first half of `Add` once the duplicate test has passed (source lines
91-110): register the fresh item, and put the id into the bucket of its height,
allocating the bucket and pushing its heap entry when there is none. -/
def addInsert (c : TxBlockMap) (txBlock : TxBlock) : TxBlockMap :=
  let item : blkItem := { blk := txBlock, verifying := false, verified := false }
  match c.heights txBlock.Hght with
  | some p =>
    { c with
      items := mapSet c.items txBlock.id item
      mem := memSet c.mem p { c.mem p with items := setAdd (c.mem p).items txBlock.id } }
  | none =>
    { c with
      items := mapSet c.items txBlock.id item
      mem := memSet c.mem c.next { h := txBlock.Hght, items := [txBlock.id] }
      next := c.next + 1
      heights := mapSet c.heights txBlock.Hght c.next
      bh := heapPush c.bh { ID := txBlock.id, Val := txBlock.Hght, Item := c.next } }

/-- The second half of `Add` (source lines 112-120): look the parent up, and
when it is present and verified claim the new item by compare-and-swap.
Returns the store and `should_verify`. -/
def addVerify (c : TxBlockMap) (txBlock : TxBlock) : TxBlockMap × Bool :=
  let item : blkItem := { blk := txBlock, verifying := false, verified := false }
  match c.items txBlock.Prnt with
  | none => (c, false)
  | some parent =>
    if !parent.verified then (c, false)
    else
      let r := CompareAndSwap item false true
      ({ c with items := mapSet c.items txBlock.id r.1 }, r.2)

/-- The method `TxBlockMap.Add`: the store afterwards, `added` and
`should_verify`. -/
def Add (c : TxBlockMap) (txBlock : TxBlock) : TxBlockMap × Bool × Bool :=
  match c.heights txBlock.Hght with
  | some p =>
    if txBlock.id ∈ (c.mem p).items then (c, false, false)
    else
      let r := addVerify (addInsert c txBlock) txBlock
      (r.1, true, r.2)
  | none =>
    let r := addVerify (addInsert c txBlock) txBlock
    (r.1, true, r.2)

/-- The loop of `Verfied` over the ids of the bucket one height up (source
lines 140-149): children of `blkID` whose `verifying` flag can be swapped from
false to true are claimed and collected.  An id of the bucket without an item
is a nil dereference. -/
def scanBucket (blkID : Nat) :
    List Nat → TxBlockMap → List Nat → Option (TxBlockMap × List Nat)
  | [], c, toVerify => some (c, toVerify)
  | cblkID :: rest, c, toVerify =>
    match c.items cblkID with
    | none => none
    | some cblk =>
      if cblk.blk.Prnt ≠ blkID then scanBucket blkID rest c toVerify
      else
        let r := CompareAndSwap cblk false true
        if !r.2 then scanBucket blkID rest c toVerify
        else
          scanBucket blkID rest { c with items := mapSet c.items cblkID r.1 }
            (toVerify ++ [cblkID])

/-- The part of `Verfied` before the scan (source lines 128-133): clear
`verifying`, and on success set `verified`.  `none` when `blkID` has no item. -/
def markItem (c : TxBlockMap) (blkID : Nat) (success : Bool) :
    Option (TxBlockMap × blkItem) :=
  match c.items blkID with
  | none => none
  | some blk =>
    let blk1 : blkItem := { blk with verifying := false }
    if !success then some ({ c with items := mapSet c.items blkID blk1 }, blk1)
    else
      let blk2 : blkItem := { blk1 with verified := true }
      some ({ c with items := mapSet c.items blkID blk2 }, blk2)

/-- The method `TxBlockMap.Verfied`: the store afterwards and the ids to
verify next; `none` when the call dereferences a missing item. -/
def Verfied (c : TxBlockMap) (blkID : Nat) (success : Bool) :
    Option (TxBlockMap × List Nat) :=
  match markItem c blkID success with
  | none => none
  | some (c1, blk) =>
    if !success then some (c1, [])
    else
      match c1.heights ((blk.blk.Hght + 1) % u64) with
      | none => some (c1, [])
      | some p => scanBucket blkID (c1.mem p).items c1 []

/-- The method `TxBlockMap.Get`. -/
def Get (c : TxBlockMap) (blkID : Nat) : Option TxBlock :=
  match c.items blkID with
  | none => none
  | some blk => some blk.blk

/-- The inner loop of `SetMin` (source lines 175-178): delete every id of the
popped bucket from `items` and append it to `evicted`. -/
def evictItems :
    List Nat → (Nat → Option blkItem) → List Nat → (Nat → Option blkItem) × List Nat
  | [], items, evicted => (items, evicted)
  | chunkID :: rest, items, evicted =>
    evictItems rest (mapDelete items chunkID) (evicted ++ [chunkID])

/-- The outer loop of `SetMin` (source lines 169-181).  Every round pops one
heap entry, so the number of entries in the heap bounds the number of rounds;
`fuel` counts the rounds still allowed. -/
def SetMinLoop : Nat → TxBlockMap → Nat → List Nat → TxBlockMap × List Nat
  | 0, c, _, evicted => (c, evicted)
  | fuel + 1, c, h, evicted =>
    match heapFirst c.bh with
    | none => (c, evicted)
    | some b =>
      if b.Val ≥ h then (c, evicted)
      else
        let r := evictItems (c.mem b.Item).items c.items evicted
        SetMinLoop fuel
          { c with bh := heapPop c.bh, items := r.1, heights := mapDelete c.heights b.Val }
          h r.2

/-- The method `TxBlockMap.SetMin`: the store afterwards and the evicted ids. -/
def SetMin (c : TxBlockMap) (h : Nat) : TxBlockMap × List Nat :=
  SetMinLoop c.bh.length c h []

/-! ## Verification cascade -/

/-- The method `TxBlockManager.Verify`.  `ChildState` and `blkVerify` stand for
the methods `ChildState` and `Verify` of `chain.StatelessTxBlock`, which return
an error as `Except.error` and `some e`.  The result is the `error` value that
`Verify` returns (`none` for `nil`); the outer `none` is the nil dereference of
`blk.Txs` when `blkID` is not in the store. -/
def Verify {S E : Type} (ChildState : TxBlock → Nat → Except E S)
    (blkVerify : TxBlock → S → Option E) (c : TxBlockMap) (blkID : Nat) :
    Option (Option E) :=
  let blk := Get c blkID
  let parent := Get c blkID
  match blk, parent with
  | some blk, some parent =>
    match ChildState parent (blk.Txs.length * 2) with
    | .error _ => some none
    | .ok state =>
      match blkVerify blk state with
      | some _ => some none
      | none => some none
  | _, _ => none

/-- The inner loop of `VerifyAll` (source lines 639-642): verify every id of
the frontier and append what `Verfied` hands out to the next frontier. -/
def verifyRound {S E : Type} (ChildState : TxBlock → Nat → Except E S)
    (blkVerify : TxBlock → S → Option E) :
    List Nat → TxBlockMap → List Nat → Option (TxBlockMap × List Nat)
  | [], c, nextRound => some (c, nextRound)
  | blkID :: rest, c, nextRound =>
    match Verify ChildState blkVerify c blkID with
    | none => none
    | some err =>
      match Verfied c blkID (err.isNone) with
      | none => none
      | some (c1, out) => verifyRound ChildState blkVerify rest c1 (nextRound ++ out)

/-- How a run of `VerifyAll` ends. -/
inductive CascadeEnd where
  | finished (c : TxBlockMap)
  | fault
  | outOfFuel

/-- The method `TxBlockManager.VerifyAll`, started on the frontier `next`;
`fuel` bounds the rounds of the outer loop. -/
def VerifyAllLoop {S E : Type} (ChildState : TxBlock → Nat → Except E S)
    (blkVerify : TxBlock → S → Option E) : Nat → TxBlockMap → List Nat → CascadeEnd
  | 0, c, next => if next.length > 0 then .outOfFuel else .finished c
  | fuel + 1, c, next =>
    if next.length > 0 then
      match verifyRound ChildState blkVerify next c [] with
      | none => .fault
      | some (c1, nextRound) => VerifyAllLoop ChildState blkVerify fuel c1 nextRound
    else .finished c

/-- The method `TxBlockManager.VerifyAll`. -/
def VerifyAll {S E : Type} (ChildState : TxBlock → Nat → Except E S)
    (blkVerify : TxBlock → S → Option E) (fuel : Nat) (c : TxBlockMap) (blkID : Nat) :
    CascadeEnd :=
  VerifyAllLoop ChildState blkVerify fuel c [blkID]

/-! ## Advertised ranges and their wire form -/

/-- The struct `NodeChunks`. -/
structure NodeChunks where
  Min : Nat
  Max : Nat
  deriving DecidableEq, Repr

/-- Modelled from the spec: package `codec` is not among the sources; the spec
gives the wire form of a `u64` as 8 bytes, big-endian. -/
def bigEndian64 (v : Nat) : List Nat :=
  [v / 2 ^ 56 % 256, v / 2 ^ 48 % 256, v / 2 ^ 40 % 256, v / 2 ^ 32 % 256,
   v / 2 ^ 24 % 256, v / 2 ^ 16 % 256, v / 2 ^ 8 % 256, v % 256]

/-- Modelled from the spec: the value of a big-endian byte string. -/
def fromBigEndian (bs : List Nat) : Nat :=
  bs.foldl (fun acc b => acc * 256 + b) 0

/-- Modelled from the spec: the writer of package `codec`, with the size
ceiling it was created with and whether it has recorded an error. -/
structure Writer where
  bytes : List Nat
  limit : Nat
  err : Bool
  deriving DecidableEq, Repr

/-- Modelled from the spec: `codec.NewWriter`. -/
def NewWriter (limit : Nat) : Writer := { bytes := [], limit := limit, err := false }

/-- Modelled from the spec: `PackUint64` of the writer appends the 8 big-endian
bytes, or records an error when the ceiling would be exceeded. -/
def PackUint64 (p : Writer) (v : Nat) : Writer :=
  if p.err then p
  else if p.bytes.length + 8 > p.limit then { p with err := true }
  else { p with bytes := p.bytes ++ bigEndian64 v }

/-- Modelled from the spec: the reader of package `codec`. -/
structure Reader where
  src : List Nat
  offset : Nat
  err : Bool
  deriving DecidableEq, Repr

/-- Modelled from the spec: `codec.NewReader`. -/
def NewReader (b : List Nat) : Reader := { src := b, offset := 0, err := false }

/-- Modelled from the spec: `UnpackUint64` of the reader consumes 8 bytes as a
big-endian value, records an error when fewer than 8 bytes are left, and with
`required` also when the value is zero. -/
def UnpackUint64 (p : Reader) (required : Bool) : Reader × Nat :=
  if p.err then (p, 0)
  else if p.src.length < p.offset + 8 then ({ p with err := true }, 0)
  else
    let v := fromBigEndian ((p.src.drop p.offset).take 8)
    ({ p with offset := p.offset + 8, err := required && decide (v = 0) }, v)

/-- The method `NodeChunks.Marshal`: the bytes and whether an error is
returned.  `limit` is the constant `consts.NetworkSizeLimit`. -/
def Marshal (limit : Nat) (n : NodeChunks) : List Nat × Bool :=
  let p := NewWriter limit
  let p := PackUint64 p n.Min
  let p := PackUint64 p n.Max
  (p.bytes, p.err)

/-- The function `UnmarshalNodeChunks`: the value and whether an error is
returned. -/
def UnmarshalNodeChunks (b : List Nat) : NodeChunks × Bool :=
  let p := NewReader b
  let r1 := UnpackUint64 p false
  let r2 := UnpackUint64 r1.1 false
  ({ Min := r1.2, Max := r2.2 }, r2.1.err)

/-- Writing one key of the map `nodeChunks`, which the manager also ranges
over and which is therefore an association list. -/
def peerSet (m : List (Nat × NodeChunks)) (k : Nat) (v : NodeChunks) :
    List (Nat × NodeChunks) :=
  match m with
  | [] => [(k, v)]
  | (k1, v1) :: rest => if k1 = k then (k, v) :: rest else (k1, v1) :: peerSet rest k v

/-- Reading one key of the map `nodeChunks`. -/
def peerGet (m : List (Nat × NodeChunks)) (k : Nat) : Option NodeChunks :=
  match m with
  | [] => none
  | (k1, v1) :: rest => if k1 = k then some v1 else peerGet rest k

/-- The message that one round of the loop of `Run` broadcasts (source lines
240-252) when it woke up with `msg`: `msg` itself when it is not empty,
otherwise the marshalled range; `none` when marshalling fails. -/
def runMessage (limit min max : Nat) (msg : List Nat) : Option (List Nat) :=
  if msg.length = 0 then
    let r := Marshal limit { Min := min, Max := max }
    if r.2 then none else some r.1
  else some msg

/-- The message that `HandleConnect` sends to the new peer (source lines
673-682); `none` when marshalling fails. -/
def connectMessage (limit min max : Nat) : Option (List Nat) :=
  let r := Marshal limit { Min := min, Max := max }
  if r.2 then none else some r.1

/-- Which branch of `HandleAppGossip` a message took. -/
inductive GossipBranch where
  | emptyMessage
  | rangeRecorded
  | rangeUnparsable
  | blockPayload (b : List Nat)
  | unexpectedType (t : Nat)
  deriving DecidableEq, Repr

/-- The method `HandleAppGossip` as far as the peer directory is concerned:
the map `nodeChunks` afterwards and the branch taken.  The branch of tag 1
(source lines 555-627) works on the store and leaves `nodeChunks` alone; its
payload is returned and not processed further here. -/
def HandleAppGossip (nodeChunks : List (Nat × NodeChunks)) (nodeID : Nat)
    (msg : List Nat) : List (Nat × NodeChunks) × GossipBranch :=
  match msg with
  | [] => (nodeChunks, .emptyMessage)
  | tag :: payload =>
    if tag = 0 then
      let r := UnmarshalNodeChunks payload
      if r.2 then (nodeChunks, .rangeUnparsable)
      else (peerSet nodeChunks nodeID r.1, .rangeRecorded)
    else if tag = 1 then (nodeChunks, .blockPayload payload)
    else (nodeChunks, .unexpectedType tag)

/-! ## Fetching a block -/

/-- The constant `maxChunkRetries`. -/
def maxChunkRetries : Nat := 20

/-- The value `ids.EmptyNodeID`. -/
def EmptyNodeID : Nat := 0

/-- The errors that travel through a fetch. -/
inductive FetchErr where
  | ctxErr
  | sendFailed
  | notFound
  | invalidChunk
  | exhaustedRetries
  deriving DecidableEq, Repr

/-- The struct `txBlockResult`. -/
structure txBlockResult where
  txBlock : Option TxBlock
  err : Option FetchErr
  deriving DecidableEq, Repr

/-- The fields of the struct `TxBlockManager` that the fetch path touches.
Channels are named by numbers; a nil channel is `none`. -/
structure Manager where
  requestID : Nat
  requests : Nat → Option Nat
  txBlocks : TxBlockMap
  nodeChunks : List (Nat × NodeChunks)
  outstanding : Nat → Option (List (Option Nat))

/-- The loop of `sendToOutstandingListeners` (source lines 333-338): one send
per listener that is not nil. -/
def notifyListeners (result : txBlockResult) : List (Option Nat) → List (Nat × txBlockResult)
  | [] => []
  | none :: rest => notifyListeners result rest
  | some listener :: rest => (listener, result) :: notifyListeners result rest

/-- The method `sendToOutstandingListeners`: the manager afterwards and the
sends it performed, in order. -/
def sendToOutstandingListeners (c : Manager) (txBlockID : Nat) (txBlock : Option TxBlock)
    (err : Option FetchErr) : Manager × List (Nat × txBlockResult) :=
  let c1 := { c with outstanding := mapDelete c.outstanding txBlockID }
  match c.outstanding txBlockID with
  | none => (c1, [])
  | some listeners => (c1, notifyListeners { txBlock := txBlock, err := err } listeners)

/-- How a call of a handler ends: it returns an error (`none` for `nil`), or it
never returns, because it stays in a send on a channel from which no goroutine
receives. -/
inductive Ending where
  | returned (err : Option FetchErr)
  | blocked
  deriving DecidableEq, Repr

/-- The method `HandleResponse`: the manager afterwards, the send that was
completed on the channel of the request, if any, and how the call ends.  The
channel of a request is made without a buffer (source line 450), so the send
`request <- msg` of line 523 is completed only when a goroutine receives from
that channel: `receiving request`.  The requester receives from it on line 468
unless it has returned, on a failed send (line 463) or because its context
ended (line 471).  With no receiver the call has removed the entry and stays
in the send. -/
def HandleResponse (c : Manager) (receiving : Nat → Bool) (requestID : Nat) (msg : List Nat) :
    Manager × Option (Nat × List Nat) × Ending :=
  match c.requests requestID with
  | none => (c, none, .returned none)
  | some request =>
    if receiving request then
      ({ c with requests := mapDelete c.requests requestID }, some (request, msg), .returned none)
    else ({ c with requests := mapDelete c.requests requestID }, none, .blocked)

/-- The method `HandleRequestFailed`: the manager afterwards, the send that was
completed on the channel of the request, if any, and how the call ends; the
send of line 537 is on the same channel without a buffer. -/
def HandleRequestFailed (c : Manager) (receiving : Nat → Bool) (requestID : Nat) :
    Manager × Option (Nat × List Nat) × Ending :=
  match c.requests requestID with
  | none => (c, none, .returned none)
  | some request =>
    if receiving request then
      ({ c with requests := mapDelete c.requests requestID }, some (request, []), .returned none)
    else ({ c with requests := mapDelete c.requests requestID }, none, .blocked)

/-- What the network does with one request of `requestChunkNodeID`: the send
fails, the context ends while waiting, or `HandleResponse` (or
`HandleRequestFailed`, with empty bytes) delivers `msg`. -/
inductive Reply where
  | sendFailed
  | cancelled
  | delivered (msg : List Nat)
  deriving DecidableEq, Repr

/-- The method `requestChunkNodeID`.  `ToID` is the block-id hash
`utils.ToID`, `rch` names the channel the call creates.  A response is
delivered while the call receives from `rch` on line 468. -/
def requestChunkNodeID (ToID : List Nat → Nat) (c : Manager) (chunkID rch : Nat)
    (reply : Reply) : Manager × Except FetchErr (List Nat) :=
  let requestID := c.requestID
  let c1 := { c with
    requestID := (c.requestID + 1) % 2 ^ 32
    requests := mapSet c.requests requestID rch }
  match reply with
  | .sendFailed => (c1, .error .sendFailed)
  | .cancelled => (c1, .error .ctxErr)
  | .delivered msg =>
    let c2 := (HandleResponse c1 (fun ch => decide (ch = rch)) requestID msg).1
    if msg.length = 0 then (c2, .error .notFound)
    else if chunkID ≠ ToID msg then (c2, .error .invalidChunk)
    else (c2, .ok msg)

/-- A sequence of calls of `requestChunkNodeID`, each with the block id it asks
for, the channel it creates and the fate of its request: the manager
afterwards. -/
def requestAll (ToID : List Nat → Nat) : Manager → List (Nat × Nat × Reply) → Manager
  | c, [] => c
  | c, (chunkID, rch, reply) :: rest =>
    requestAll ToID (requestChunkNodeID ToID c chunkID rch reply).1 rest

/-- The loop of `RequestChunk` over `nodeChunks` (source lines 392-398): the
last peer visited and the peers whose range covers `height`. -/
def scanPeers (height : Nat) :
    List (Nat × NodeChunks) → Nat → List Nat → Nat × List Nat
  | [], randomRecipient, possibleRecipients => (randomRecipient, possibleRecipients)
  | (nodeID, chunk) :: rest, _, possibleRecipients =>
    if height ≥ chunk.Min ∧ height ≤ chunk.Max then
      scanPeers height rest nodeID (possibleRecipients ++ [nodeID])
    else scanPeers height rest nodeID possibleRecipients

/-- Peer selection of `RequestChunk` on attempt `i` (source lines 384-414);
`draw` is the random number that `rand.Intn` reduces below its argument.  `none` when no request is sent on this
attempt. -/
def selectPeer (nodeChunks : List (Nat × NodeChunks)) (height hint i draw : Nat) :
    Option Nat :=
  if hint ≠ EmptyNodeID ∧ i ≤ 1 then some hint
  else
    let r := scanPeers height nodeChunks EmptyNodeID []
    if r.1 = EmptyNodeID then none
    else if r.2.length > 0 then some (r.2.getD (draw % r.2.length) r.1)
    else some r.1

/-- What happens around the manager during attempt `i` of a fetch.
`cancelled`: `ctx.Err()` is not nil at the top of the round.  `joined`: the
channels that other calls of `RequestChunk` for the same id registered in the
meantime.  `raced`: the blocks that other paths (the gossip handler, other
fetches) added to the store in the meantime.  `draw`: the value of
`rand.Intn`.  `rch`: the channel of the request.  `reply`: the fate of the
request. -/
structure Attempt where
  cancelled : Bool
  joined : List (Option Nat)
  raced : List TxBlock
  draw : Nat
  rch : Nat
  reply : Reply

/-- What a call of `RequestChunk` did: the manager afterwards, the sends on
result channels in order, the bytes and block of its call of `store.Add` if it
made one, and the id it started `VerifyAll` on if it did. -/
structure Fetch where
  mgr : Manager
  sent : List (Nat × txBlockResult)
  added : Option (List Nat × TxBlock)
  cascade : Option Nat

/-- The registration of `RequestChunk` (source lines 344-351), also what a
concurrent call for the same id does before it returns. -/
def registerListener (c : Manager) (chunkID : Nat) (ch : Option Nat) : Manager :=
  match c.outstanding chunkID with
  | some outstanding =>
    { c with outstanding := mapSet c.outstanding chunkID (outstanding ++ [ch]) }
  | none => { c with outstanding := mapSet c.outstanding chunkID [ch] }

/-- The effect of the surroundings during one attempt: the listeners in
`joined` register and the blocks in `raced` are added to the store. -/
def meanwhile (c : Manager) (chunkID : Nat) (a : Attempt) : Manager :=
  let c1 := a.joined.foldl (fun m ch => registerListener m chunkID ch) c
  { c1 with txBlocks := a.raced.foldl (fun s b => (Add s b).1) c1.txBlocks }

/-- The retry loop of `RequestChunk` (source lines 378-444).  `n` is the
number of rounds left and `i` the loop variable.  `UnmarshalTxBlock` and
`ParseTxBlock` are the functions of package `chain`, `none` being an error. -/
def fetchLoop (ToID : List Nat → Nat) (UnmarshalTxBlock : List Nat → Option TxBlock)
    (ParseTxBlock : TxBlock → List Nat → Option TxBlock)
    (height hint chunkID : Nat) (env : Nat → Attempt) : Nat → Nat → Manager → Fetch
  | 0, _, c =>
    let r := sendToOutstandingListeners c chunkID none (some .exhaustedRetries)
    { mgr := r.1, sent := r.2, added := none, cascade := none }
  | n + 1, i, c0 =>
    let a := env i
    let c := meanwhile c0 chunkID a
    if a.cancelled then
      let r := sendToOutstandingListeners c chunkID none (some .ctxErr)
      { mgr := r.1, sent := r.2, added := none, cascade := none }
    else
      match selectPeer c.nodeChunks height hint i a.draw with
      | none =>
        fetchLoop ToID UnmarshalTxBlock ParseTxBlock height hint chunkID env n (i + 1) c
      | some _ =>
        match requestChunkNodeID ToID c chunkID a.rch a.reply with
        | (c1, .error _) =>
          fetchLoop ToID UnmarshalTxBlock ParseTxBlock height hint chunkID env n (i + 1) c1
        | (c1, .ok msg) =>
          match UnmarshalTxBlock msg with
          | none =>
            fetchLoop ToID UnmarshalTxBlock ParseTxBlock height hint chunkID env n (i + 1) c1
          | some rtxBlk =>
            match ParseTxBlock rtxBlk msg with
            | none =>
              fetchLoop ToID UnmarshalTxBlock ParseTxBlock height hint chunkID env n (i + 1) c1
            | some txBlk =>
              let r := Add c1.txBlocks txBlk
              let c2 := { c1 with txBlocks := r.1 }
              if !r.2.1 then
                { mgr := c2, sent := [], added := some (msg, txBlk), cascade := none }
              else
                let s := sendToOutstandingListeners c2 chunkID (some txBlk) none
                { mgr := s.1, sent := s.2, added := some (msg, txBlk),
                  cascade := if r.2.2 then some txBlk.id else none }

/-- The method `RequestChunk`.  `env i` describes the surroundings of attempt
`i`. -/
def RequestChunk (ToID : List Nat → Nat) (UnmarshalTxBlock : List Nat → Option TxBlock)
    (ParseTxBlock : TxBlock → List Nat → Option TxBlock)
    (c : Manager) (height hint chunkID : Nat) (ch : Option Nat) (env : Nat → Attempt) :
    Fetch :=
  let ok := (c.outstanding chunkID).isSome
  let c1 := registerListener c chunkID ch
  if ok then { mgr := c1, sent := [], added := none, cascade := none }
  else
    match Get c1.txBlocks chunkID with
    | some txBlock =>
      let r := sendToOutstandingListeners c1 chunkID (some txBlock) none
      { mgr := r.1, sent := r.2, added := none, cascade := none }
    | none =>
      fetchLoop ToID UnmarshalTxBlock ParseTxBlock height hint chunkID env
        maxChunkRetries 0 c1

/-! ## Calls on the store, and the properties used to state the claims -/

/-- An id that the scan of `Verfied` for `blkID` can claim in the store `c`: it
has an item, its parent is `blkID` and its `verifying` flag is false. -/
def Claimable (c : TxBlockMap) (blkID x : Nat) : Prop :=
  ∃ it, c.items x = some it ∧ it.blk.Prnt = blkID ∧ it.verifying = false

/-- Every id in the bucket at height `k` has an item, and that item is a block
of height `k`. -/
def BucketSound (c : TxBlockMap) (k : Nat) : Prop :=
  ∀ p, c.heights k = some p →
    ∀ x ∈ (c.mem p).items, ∃ it, c.items x = some it ∧ it.blk.Hght = k

/-- A call of one of the three mutating methods of the store. -/
inductive Op where
  | add (b : TxBlock)
  | verfied (blkID : Nat) (success : Bool)
  | setMin (h : Nat)
  deriving DecidableEq, Repr

/-- One call on the store: the store afterwards and the ids the call hands out
for verification (the id of the block when `Add` returns `should_verify`, the
list `Verfied` returns, nothing for `SetMin`); `none` when the call faults. -/
def step (c : TxBlockMap) : Op → Option (TxBlockMap × List Nat)
  | .add b =>
    let r := Add c b
    some (r.1, if r.2.2 then [b.id] else [])
  | .verfied blkID success => Verfied c blkID success
  | .setMin h => some ((SetMin c h).1, [])

/-- A sequence of calls run from the store `c`, as long as no call faults and
the store after every call satisfies `keep`: the final store. -/
def runWhile (keep : TxBlockMap → Bool) : TxBlockMap → List Op → Option TxBlockMap
  | c, [] => some c
  | c, op :: ops =>
    match step c op with
    | none => none
    | some (c1, _) => if keep c1 then runWhile keep c1 ops else none

/-- A sequence of calls run from the store `c`: the final store, `none` when a
call faults. -/
def run (c : TxBlockMap) (ops : List Op) : Option TxBlockMap :=
  runWhile (fun _ => true) c ops

/-- The id `x` has an item in the store. -/
def holds (x : Nat) (c : TxBlockMap) : Bool := (c.items x).isSome

/-- Ids are content hashes, so two blocks with the same id have the same
height: every block that the calls `ops` add has the height `hgt` gives to its
id. -/
def Respects (hgt : Nat → Nat) (ops : List Op) : Prop :=
  ∀ b, Op.add b ∈ ops → b.Hght = hgt b.id

/-- Bucket consistency of a store whose blocks have the heights `hgt` gives to
their ids: items and buckets describe the same set of ids, buckets are live,
distinct and not empty, and the heap has exactly one entry per bucket. -/
structure Inv (hgt : Nat → Nat) (c : TxBlockMap) : Prop where
  item_bucket : ∀ id it, c.items id = some it →
    it.blk.id = id ∧ it.blk.Hght = hgt id ∧
      ∃ p, c.heights (hgt id) = some p ∧ id ∈ (c.mem p).items
  bucket_item : ∀ k p, c.heights k = some p →
    ∀ x ∈ (c.mem p).items, hgt x = k ∧ c.items x ≠ none
  bucket_shape : ∀ k p, c.heights k = some p →
    p < c.next ∧ (c.mem p).h = k ∧ (c.mem p).items.Nodup ∧ (c.mem p).items ≠ []
  heap_bucket : ∀ e ∈ c.bh, c.heights e.Val = some e.Item
  bucket_heap : ∀ k p, c.heights k = some p → ∃ e ∈ c.bh, e.Val = k
  heap_nodup : (c.bh.map Entry.Val).Nodup

/-! ## Further notions used in the statements, and example data -/

/-- The block `b` is in the bucket of its height. -/
def Present (c : TxBlockMap) (b : TxBlock) : Prop :=
  ∃ p, c.heights b.Hght = some p ∧ b.id ∈ (c.mem p).items

/-- The store after one round of the loop of `SetMin` that pops `b`. -/
def popped (c : TxBlockMap) (b : Entry) : TxBlockMap :=
  { c with
    bh := heapPop c.bh
    items := fun x => if x ∈ (c.mem b.Item).items then none else c.items x
    heights := mapDelete c.heights b.Val }

/-- The id `x` is being verified: its item has `verifying` set. -/
def InFlight (x : Nat) (c : TxBlockMap) : Prop :=
  ∃ it, c.items x = some it ∧ it.verifying = true

/-- A block of height 4. -/
def exP : TxBlock := ⟨1, 0, 4, []⟩

/-- A child of `exP`. -/
def exX : TxBlock := ⟨2, 1, 5, []⟩

/-- A child of `exX`. -/
def exY : TxBlock := ⟨3, 2, 6, []⟩

/-- The height that the id of an example block determines. -/
def exHgt (id : Nat) : Nat := id + 3

/-- The store a sequence of calls leads to from the empty store (the empty
store itself when a call faults). -/
def storeAfter (ops : List Op) : TxBlockMap :=
  match run NewTxBlockMap ops with
  | some c => c
  | none => NewTxBlockMap

/-- A decision procedure for `Respects`. -/
def respectsB (hgt : Nat → Nat) (ops : List Op) : Bool :=
  ops.all fun op =>
    match op with
    | .add b => decide (b.Hght = hgt b.id)
    | _ => true

/-- A manager with an empty store, one peer advertising the range 0 to 10, and
no fetch outstanding. -/
def exManager (store : TxBlockMap) : Manager :=
  { requestID := 0, requests := fun _ => none, txBlocks := store,
    nodeChunks := [(9, ⟨0, 10⟩)], outstanding := fun _ => none }

/-- Surroundings of a fetch in which every request is answered with the bytes
`[7]` while other paths add the blocks `raced` to the store. -/
def exEnv (raced : List TxBlock) : Nat → Attempt :=
  fun _ => { cancelled := false, joined := [], raced := raced, draw := 0, rch := 50,
             reply := .delivered [7] }

/-- A fetch of the block `exX` by its id 2, the result going to channel 100,
from a manager whose store is `store`, the bytes `[7]` decoding to `exX`. -/
def exFetch (store : TxBlockMap) (raced : List TxBlock) : Fetch :=
  RequestChunk (fun _ => 2) (fun _ => some exX) (fun b _ => some b)
    (exManager store) 5 EmptyNodeID 2 (some 100) (exEnv raced)

/-- A call that `Verify` makes on a block of package `chain`: `ChildState` on
`receiver` with a capacity, or `Verify` on `receiver` with a state. -/
inductive BlockCall (S : Type) where
  | childState (receiver : TxBlock) (capacity : Nat)
  | verify (receiver : TxBlock) (state : S)
  deriving DecidableEq, Repr

/-- The calls on blocks that the method `TxBlockManager.Verify` makes, in order
(source lines 648-664): what `Verify` does, seen from package `chain`.  `none`
is the nil dereference of `blk.Txs`. -/
def VerifyCalls {S E : Type} (ChildState : TxBlock → Nat → Except E S)
    (c : TxBlockMap) (blkID : Nat) : Option (List (BlockCall S)) :=
  let blk := Get c blkID
  let parent := Get c blkID
  match blk, parent with
  | some blk, some parent =>
    match ChildState parent (blk.Txs.length * 2) with
    | .error _ => some [.childState parent (blk.Txs.length * 2)]
    | .ok state => some [.childState parent (blk.Txs.length * 2), .verify blk state]
  | _, _ => none

/-- The store and the frontier of `VerifyAll` after `k` rounds of its outer
loop, started on the frontier `next`; `none` when a round faults.  (The loop
itself stops at the first empty frontier; a further round would leave store and
frontier as they are.) -/
def roundsFrom {S E : Type} (ChildState : TxBlock → Nat → Except E S)
    (blkVerify : TxBlock → S → Option E) :
    Nat → TxBlockMap → List Nat → Option (TxBlockMap × List Nat)
  | 0, c, next => some (c, next)
  | k + 1, c, next =>
    match verifyRound ChildState blkVerify next c [] with
    | none => none
    | some (c1, nextRound) => roundsFrom ChildState blkVerify k c1 nextRound

/-- Two stores with the same buckets, heap and blocks: they differ at most in
the flags of their items. -/
def SameBlocks (c c1 : TxBlockMap) : Prop :=
  c1.mem = c.mem ∧ c1.next = c.next ∧ c1.bh = c.bh ∧ c1.heights = c.heights ∧
    ∀ x, (c1.items x).map blkItem.blk = (c.items x).map blkItem.blk

/-- The height of a block whose parent is in the store is the height of the
parent plus one, without wrap-around. -/
def ChildAbove (c : TxBlockMap) : Prop :=
  ∀ x it itp, c.items x = some it → c.items it.blk.Prnt = some itp →
    it.blk.Hght = itp.blk.Hght + 1

/-- The id `x` is in the bucket at height `k`. -/
def InBucket (c : TxBlockMap) (x k : Nat) : Prop :=
  ∃ p, c.heights k = some p ∧ x ∈ (c.mem p).items

/-- A peer directory with two peers: peer 9 advertises the range 0 to 10, peer
8 the range 20 to 30. -/
def exPeers : List (Nat × NodeChunks) := [(9, ⟨0, 10⟩), (8, ⟨20, 30⟩)]

/-- A block of height 0 whose parent is not in any example store. -/
def exG : TxBlock := ⟨4, 0, 0, []⟩

/-- A manager whose request counter is about to wrap while the request 0 is
still pending on channel 7. -/
def exWrapped : Manager :=
  { requestID := 2 ^ 32 - 1, requests := mapSet (fun _ => none) 0 7,
    txBlocks := NewTxBlockMap, nodeChunks := [], outstanding := fun _ => none }

/-- The id `x` has an item in the store, a block of height `H`. -/
def AtHeight (c : TxBlockMap) (x H : Nat) : Prop :=
  ∃ it, c.items x = some it ∧ it.blk.Hght = H

/-- The blocks that a sequence of calls adds. -/
def addedBlocks : List Op → List TxBlock
  | [] => []
  | .add b :: ops => b :: addedBlocks ops
  | _ :: ops => addedBlocks ops

/-- The store that the example of the cascade starts from: `exP` verified,
`exX` handed out, `exY` waiting. -/
def exChain : TxBlockMap := storeAfter [.add exP, .verfied 1 true, .add exX, .add exY]

/-- The calls `ops` on the store `c` are made with discipline: every call
`Verfied(id, _)` is on an id that is in `handed`, the ids handed out so far, or
that an earlier call of `ops` hands out.  (Nothing is asked of the calls that
follow a call that faults.) -/
def Disciplined : TxBlockMap → List Nat → List Op → Prop
  | _, _, [] => True
  | c, handed, op :: ops =>
    (∀ blkID success, op = .verfied blkID success → blkID ∈ handed) ∧
    match step c op with
    | none => True
    | some (c1, out) => Disciplined c1 (handed ++ out) ops

/-- No item of the store has one of its two flags set. -/
def NoFlags (c : TxBlockMap) : Prop :=
  ∀ x it, c.items x = some it → it.verifying = false ∧ it.verified = false

end TxBlockManager

/-! ## Batch verification of signatures (`examples/morpheusvm/auth/ed25519.go`) -/

namespace Auth

/-- The fields `Signer` and `Signature` of the struct `ED25519`. -/
structure ED25519 where
  Signer : Nat
  Signature : Nat
  deriving DecidableEq, Repr

/-- A message with the signer and the signature that go with it: the three
arguments of one call of the method `Add` of an `ed25519.Batch`. -/
structure Signed where
  msg : List Nat
  signer : Nat
  signature : Nat
  deriving DecidableEq, Repr

/-- Modelled from the spec: package `crypto/ed25519` is not among the sources
and the spec leaves batch verification to the authentication layer, so nothing
is assumed of an `ed25519.Batch` but its identity: `Batch` objects live in a
memory indexed by address, each represented by the triples that were passed to
its method `Add`.  `NewBatch` allocates an object without triples. -/
def NewBatch (mem : List (List Signed)) : List (List Signed) × Nat :=
  (mem ++ [[]], mem.length)

/-- Modelled from the spec: the method `Add` of the `ed25519.Batch` at the
address `p` records one more triple. -/
def batchAdd : List (List Signed) → Nat → Signed → List (List Signed)
  | [], _, _ => []
  | b :: rest, 0, t => (b ++ [t]) :: rest
  | b :: rest, p + 1, t => b :: batchAdd rest p t

/-- The triples of the `ed25519.Batch` at the address `p`. -/
def batchAt (mem : List (List Signed)) (p : Nat) : List Signed := mem.getD p []

/-- The struct `ED25519Batch`; `batch` is the address of the current
`ed25519.Batch`, `none` for nil.  A Go `int` is an integer; no run adds enough
signatures for it to overflow. -/
structure ED25519Batch where
  batchSize : Int
  total : Int
  counter : Int
  totalCounter : Int
  batch : Option Nat
  deriving DecidableEq, Repr

/-- The 64-bit signed integer that an integer wraps to. -/
def wrapInt64 (x : Int) : Int := (x + 2 ^ 63) % 2 ^ 64 - 2 ^ 63

/-- The method `GetBatchVerifier`; `MinBatchSize` is the constant
`ed25519.MinBatchSize`.  `none` is the division by zero.  The quotient of two
values of type `int` (64 bits) is truncated towards zero and wraps, which
happens for the least integer divided by -1 only. -/
def GetBatchVerifier (MinBatchSize cores count : Int) : Option ED25519Batch :=
  if cores = 0 then none
  else
    some { batchSize := max (wrapInt64 (Int.tdiv count cores)) MinBatchSize, total := count,
           counter := 0, totalCounter := 0, batch := none }

/-- The method `ED25519Batch.Add`: the memory and the verifier afterwards, and
the function returned, `none` for nil; the function that `VerifyAsync` returns
is given by the address of the batch it verifies.  The argument is an `ED25519`,
as the type assertion of the source demands. -/
def ED25519Batch.Add (mem : List (List Signed)) (b : ED25519Batch) (msg : List Nat)
    (auth : ED25519) : List (List Signed) × ED25519Batch × Option Nat :=
  let r := match b.batch with
    | none => NewBatch mem
    | some p => (mem, p)
  let mem1 := batchAdd r.1 r.2 ⟨msg, auth.Signer, auth.Signature⟩
  let counter := b.counter + 1
  let totalCounter := b.totalCounter + 1
  if counter = b.batchSize then
    let last := r.2
    if totalCounter < b.total then
      let n := NewBatch mem1
      (n.1, { b with counter := 0, totalCounter := totalCounter, batch := some n.2 }, some last)
    else
      (mem1, { b with counter := 0, totalCounter := totalCounter, batch := some r.2 }, some last)
  else
    (mem1, { b with counter := counter, totalCounter := totalCounter, batch := some r.2 }, none)

/-- The method `ED25519Batch.Done`: `none` for nil, otherwise the functions
returned, each given by the address of the batch it verifies. -/
def ED25519Batch.Done (b : ED25519Batch) : Option (List Nat) :=
  match b.batch with
  | none => none
  | some p => some [p]

/-- A sequence of calls of `Add`, one for every message with its `ED25519`: the
memory and the verifier afterwards, and what the calls returned, in order. -/
def addAll : List (List Signed) → ED25519Batch → List (List Nat × ED25519) →
    List (List Signed) × ED25519Batch × List (Option Nat)
  | mem, b, [] => (mem, b, [])
  | mem, b, (msg, auth) :: rest =>
    let r := ED25519Batch.Add mem b msg auth
    let s := addAll r.1 r.2.1 rest
    (s.1, s.2.1, r.2.2 :: s.2.2)

/-- The number of calls of `Add` since the last one that returned a function:
the number of `none` at the end of the list of results. -/
def sinceReturn (rets : List (Option Nat)) : Nat :=
  (rets.reverse.takeWhile Option.isNone).length

/-- The triple that a call of `Add` passes to the batch. -/
def signedOf (call : List Nat × ED25519) : Signed :=
  ⟨call.1, call.2.Signer, call.2.Signature⟩

/-- Five signed messages. -/
def exCalls : List (List Nat × ED25519) :=
  [([1], ⟨10, 11⟩), ([2], ⟨20, 21⟩), ([3], ⟨30, 31⟩), ([4], ⟨40, 41⟩), ([5], ⟨50, 51⟩)]

/-- A fresh verifier for batches of two signatures out of four. -/
def exVerifier : ED25519Batch :=
  { batchSize := 2, total := 4, counter := 0, totalCounter := 0, batch := none }

/-- What holds of memory and verifier after calls of `Add` with the results
`rets` for the triples `added`: the counter is the number of calls since the
last one that returned a function, and every triple added is in the current
batch or in a batch that a call returned. -/
def Covered (mem : List (List Signed)) (b : ED25519Batch) (rets : List (Option Nat))
    (added : List Signed) : Prop :=
  b.counter = (sinceReturn rets : Int) ∧
  ((b.batch = none ∧ added = [] ∧ rets = []) ∨
    ∃ cur, b.batch = some cur ∧ cur < mem.length ∧
      ∀ t ∈ added, ∃ p, (p = cur ∨ some p ∈ rets) ∧ t ∈ batchAt mem p)

end Auth

namespace TxBlockManager

/-! ## Lemmas -/

/-! ### Maps, and the scan of `Verfied` -/

theorem mapSet_same {V : Type} (m : Nat → Option V) (k : Nat) (v : V) :
    mapSet m k v k = some v := by simp [mapSet]

theorem mapSet_other {V : Type} (m : Nat → Option V) (k x : Nat) (v : V) (h : x ≠ k) :
    mapSet m k v x = m x := by simp [mapSet, h]

theorem mapDelete_same {V : Type} (m : Nat → Option V) (k : Nat) :
    mapDelete m k k = none := by simp [mapDelete]

theorem mapDelete_other {V : Type} (m : Nat → Option V) (k x : Nat) (h : x ≠ k) :
    mapDelete m k x = m x := by simp [mapDelete, h]

/-- The scan of a bucket all of whose ids have items returns; it claims exactly
the claimable ids of the bucket and touches nothing else. -/
theorem scanBucket_spec (blkID : Nat) :
    ∀ (l : List Nat) (c : TxBlockMap) (acc : List Nat),
      (∀ x ∈ l, c.items x ≠ none) →
      ∃ c1 out, scanBucket blkID l c acc = some (c1, out) ∧
        c1.mem = c.mem ∧ c1.next = c.next ∧ c1.bh = c.bh ∧ c1.heights = c.heights ∧
        (∀ x, x ∈ out ↔ x ∈ acc ∨ (x ∈ l ∧ Claimable c blkID x)) ∧
        (∀ x it, x ∈ l → c.items x = some it → it.blk.Prnt = blkID → it.verifying = false →
          c1.items x = some { it with verifying := true }) ∧
        (∀ x, ¬ (x ∈ l ∧ Claimable c blkID x) → c1.items x = c.items x) ∧
        (acc.Nodup → (∀ x ∈ acc, ¬ Claimable c blkID x) → out.Nodup) := by
  intro l
  induction l with
  | nil =>
    intro c acc _
    exact ⟨c, acc, rfl, rfl, rfl, rfl, rfl, by simp, by simp, by simp, fun h _ => h⟩
  | cons y rest ih =>
    intro c acc hl
    have hy : c.items y ≠ none := hl y (List.mem_cons_self _ _)
    have hrest : ∀ x ∈ rest, c.items x ≠ none := fun x hx => hl x (List.mem_cons_of_mem _ hx)
    obtain ⟨cblk, hcblk⟩ := Option.ne_none_iff_exists'.mp hy
    by_cases hp : cblk.blk.Prnt = blkID
    · by_cases hv : cblk.verifying = false
      · -- the child is claimed
        have hrest1 : ∀ x ∈ rest,
            ({ c with items := mapSet c.items y { cblk with verifying := true } } :
              TxBlockMap).items x ≠ none := by
          intro x hx
          by_cases hxy : x = y
          · simp [hxy, mapSet]
          · simpa [mapSet, hxy] using hrest x hx
        obtain ⟨c1, out, hs, hm, hn, hb, hh, hout, hcl, hoth, hnd⟩ :=
          ih { c with items := mapSet c.items y { cblk with verifying := true } }
            (acc ++ [y]) hrest1
        have hclaim : ∀ x,
            Claimable { c with items := mapSet c.items y { cblk with verifying := true } }
              blkID x ↔ (x ≠ y ∧ Claimable c blkID x) := by
          intro x
          unfold Claimable
          by_cases hxy : x = y
          · subst hxy; simp [mapSet]
          · simp [mapSet, hxy]
        refine ⟨c1, out, ?_, hm, hn, hb, hh, ?_, ?_, ?_, ?_⟩
        · simp [scanBucket, hcblk, hp, CompareAndSwap, hv, hs]
        · intro x
          rw [hout, hclaim]
          by_cases hxy : x = y
          · subst hxy
            simp only [List.mem_append, List.mem_singleton, List.mem_cons, true_or, or_true,
              true_and, true_iff]
            exact Or.inr ⟨cblk, hcblk, hp, hv⟩
          · simp [hxy]
        · intro x it hx hit hpr hvf
          by_cases hxy : x = y
          · subst hxy
            have : it = cblk := by rw [hcblk] at hit; exact (Option.some.inj hit).symm
            subst this
            by_cases hxr : x ∈ rest
            · -- a repeated id: already claimed, left alone afterwards
              rw [hoth x (by rw [hclaim]; simp)]
              simp [mapSet]
            · rw [hoth x (by simp [hxr])]
              simp [mapSet]
          · have hxr : x ∈ rest := by
              rcases List.mem_cons.mp hx with h | h
              · exact absurd h hxy
              · exact h
            exact hcl x it hxr (by simpa [mapSet, hxy] using hit) hpr hvf
        · intro x hx
          have hxy : x ≠ y := by
            intro h
            subst h
            exact hx ⟨List.mem_cons_self _ _, cblk, hcblk, hp, hv⟩
          rw [hoth x (by
            rw [hclaim]
            intro h
            exact hx ⟨List.mem_cons_of_mem _ h.1, h.2.2⟩)]
          simp [mapSet, hxy]
        · intro hacc hno
          apply hnd
          · rw [List.nodup_append]
            refine ⟨hacc, List.nodup_singleton y, ?_⟩
            intro a ha hb
            rw [List.mem_singleton] at hb
            subst hb
            exact hno a ha ⟨cblk, hcblk, hp, hv⟩
          · intro x _
            rw [hclaim]
            intro h
            rcases List.mem_append.mp ‹x ∈ acc ++ [y]› with h1 | h1
            · exact hno x h1 h.2
            · exact h.1 (List.mem_singleton.mp h1)
      · -- the child is already being verified
        have hv1 : cblk.verifying = true := by simpa using hv
        obtain ⟨c1, out, hs, hm, hn, hb, hh, hout, hcl, hoth, hnd⟩ := ih c acc hrest
        have hny : ¬ Claimable c blkID y := by
          rintro ⟨it, hit, _, hvf⟩
          rw [hcblk] at hit
          have : it = cblk := (Option.some.inj hit).symm
          subst this
          exact hv hvf
        refine ⟨c1, out, ?_, hm, hn, hb, hh, ?_, ?_, ?_, hnd⟩
        · simp [scanBucket, hcblk, hp, CompareAndSwap, hv1, hs]
        · intro x
          rw [hout]
          by_cases hxy : x = y
          · subst hxy; simp [hny]
          · simp [hxy]
        · intro x it hx hit hpr hvf
          rcases List.mem_cons.mp hx with h | h
          · subst h
            exact absurd ⟨it, hit, hpr, hvf⟩ hny
          · exact hcl x it h hit hpr hvf
        · intro x hx
          apply hoth
          intro h
          exact hx ⟨List.mem_cons_of_mem _ h.1, h.2⟩
    · -- a competing branch
      obtain ⟨c1, out, hs, hm, hn, hb, hh, hout, hcl, hoth, hnd⟩ := ih c acc hrest
      have hny : ¬ Claimable c blkID y := by
        rintro ⟨it, hit, hpr, _⟩
        rw [hcblk] at hit
        have : it = cblk := (Option.some.inj hit).symm
        subst this
        exact hp hpr
      refine ⟨c1, out, ?_, hm, hn, hb, hh, ?_, ?_, ?_, hnd⟩
      · simp [scanBucket, hcblk, hp, hs]
      · intro x
        rw [hout]
        by_cases hxy : x = y
        · subst hxy; simp [hny]
        · simp [hxy]
      · intro x it hx hit hpr hvf
        rcases List.mem_cons.mp hx with h | h
        · subst h
          exact absurd ⟨it, hit, hpr, hvf⟩ hny
        · exact hcl x it h hit hpr hvf
      · intro x hx
        apply hoth
        intro h
        exact hx ⟨List.mem_cons_of_mem _ h.1, h.2⟩

/-- A scan that returns has found an item for every id of the bucket. -/
theorem scanBucket_returns (blkID : Nat) :
    ∀ (l : List Nat) (c : TxBlockMap) (acc : List Nat) (r : TxBlockMap × List Nat),
      scanBucket blkID l c acc = some r → ∀ x ∈ l, c.items x ≠ none := by
  intro l
  induction l with
  | nil => intro c acc r _ x hx; simp at hx
  | cons y rest ih =>
    intro c acc r hr x hx
    cases hy : c.items y with
    | none => simp [scanBucket, hy] at hr
    | some cblk =>
      rcases List.mem_cons.mp hx with h | h
      · subst h; simp [hy]
      · simp only [scanBucket, hy] at hr
        split at hr
        · exact ih c acc r hr x h
        · split at hr
          · exact ih c acc r hr x h
          · have := ih _ _ r hr x h
            by_cases hxy : x = y
            · subst hxy; simp [hy]
            · simpa [mapSet, hxy] using this

/-- The store after the flag writes of a successful `Verfied`. -/
theorem markItem_true (c : TxBlockMap) (blkID : Nat) (blk : blkItem)
    (h : c.items blkID = some blk) :
    markItem c blkID true =
      some ({ c with items := mapSet c.items blkID ({ blk with verifying := false, verified := true }) },
            { blk with verifying := false, verified := true }) := by
  simp [markItem, h]

theorem markItem_false (c : TxBlockMap) (blkID : Nat) (blk : blkItem)
    (h : c.items blkID = some blk) :
    markItem c blkID false =
      some ({ c with items := mapSet c.items blkID { blk with verifying := false } },
            { blk with verifying := false }) := by
  simp [markItem, h]

theorem Verfied_none (c : TxBlockMap) (blkID : Nat) (success : Bool)
    (h : c.items blkID = none) : Verfied c blkID success = none := by
  simp [Verfied, markItem, h]

theorem Verfied_false (c : TxBlockMap) (blkID : Nat) (blk : blkItem)
    (h : c.items blkID = some blk) :
    Verfied c blkID false =
      some ({ c with items := mapSet c.items blkID { blk with verifying := false } }, []) := by
  simp [Verfied, markItem_false c blkID blk h]

theorem Verfied_true (c : TxBlockMap) (blkID : Nat) (blk : blkItem)
    (h : c.items blkID = some blk) :
    Verfied c blkID true =
      match c.heights ((blk.blk.Hght + 1) % u64) with
      | none => some ({ c with items := mapSet c.items blkID ({ blk with verifying := false, verified := true }) }, [])
      | some p => scanBucket blkID (c.mem p).items
          { c with items := mapSet c.items blkID ({ blk with verifying := false, verified := true }) } [] := by
  simp only [Verfied, markItem_true c blkID blk h]
  cases c.heights ((blk.blk.Hght + 1) % u64) <;> simp

/-- A call of `Verfied` that returns was made on an id of the store. -/
theorem Verfied_some (c c1 : TxBlockMap) (blkID : Nat) (success : Bool) (out : List Nat)
    (h : Verfied c blkID success = some (c1, out)) : ∃ blk, c.items blkID = some blk := by
  cases hb : c.items blkID with
  | none => rw [Verfied_none c blkID success hb] at h; cases h
  | some blk => exact ⟨blk, rfl⟩

/-- What a successful `Verfied` that returns has done, in terms of the store
`cm` it scans (the store after the flag writes on `blkID`). -/
theorem Verfied_true_spec (c c1 : TxBlockMap) (blkID : Nat) (blk : blkItem) (out : List Nat)
    (hb : c.items blkID = some blk) (h : Verfied c blkID true = some (c1, out)) :
    c1.mem = c.mem ∧ c1.next = c.next ∧ c1.bh = c.bh ∧ c1.heights = c.heights ∧
    (∀ x, x ∈ out ↔ ∃ p, c.heights ((blk.blk.Hght + 1) % u64) = some p ∧
        x ∈ (c.mem p).items ∧
        Claimable { c with items := mapSet c.items blkID ({ blk with verifying := false, verified := true }) } blkID x) ∧
    (∀ x it, x ∈ out →
        mapSet c.items blkID { blk with verifying := false, verified := true } x = some it →
        c1.items x = some { it with verifying := true }) ∧
    (∀ x, x ∉ out →
        c1.items x = mapSet c.items blkID { blk with verifying := false, verified := true } x) ∧
    out.Nodup := by
  rw [Verfied_true c blkID blk hb] at h
  cases hp : c.heights ((blk.blk.Hght + 1) % u64) with
  | none =>
    rw [hp] at h
    simp only [Option.some.injEq, Prod.mk.injEq] at h
    obtain ⟨h1, h2⟩ := h
    subst h1; subst h2
    simp
  | some p =>
    rw [hp] at h
    simp only at h
    have hall := scanBucket_returns blkID _ _ _ _ h
    obtain ⟨c2, out2, hs, hm, hn, hbh, hh, hout, hcl, hoth, hnd⟩ :=
      scanBucket_spec blkID (c.mem p).items
        { c with items := mapSet c.items blkID ({ blk with verifying := false, verified := true }) } [] hall
    rw [hs] at h
    simp only [Option.some.injEq, Prod.mk.injEq] at h
    obtain ⟨h1, h2⟩ := h
    subst h1; subst h2
    have hmem : ∀ x, x ∈ out2 ↔ (x ∈ (c.mem p).items ∧
        Claimable { c with items := mapSet c.items blkID ({ blk with verifying := false, verified := true }) } blkID x) := by
      intro x; rw [hout]; simp
    refine ⟨hm, hn, hbh, hh, ?_, ?_, ?_, hnd (List.nodup_nil) (by simp)⟩
    · intro x
      rw [hmem]
      constructor
      · rintro ⟨h1, h2⟩; exact ⟨p, rfl, h1, h2⟩
      · rintro ⟨q, hq, h1, h2⟩
        cases hq
        exact ⟨h1, h2⟩
    · intro x it hx hit
      obtain ⟨hx1, it2, hit2, hpr, hvf⟩ := (hmem x).mp hx
      have : it2 = it := by
        simp only at hit2
        rw [hit] at hit2
        exact (Option.some.inj hit2).symm
      subst this
      exact hcl x it2 hx1 hit2 hpr hvf
    · intro x hx
      exact hoth x (fun hc => hx ((hmem x).mpr hc))

theorem addInsert_items (c : TxBlockMap) (b : TxBlock) :
    (addInsert c b).items = mapSet c.items b.id ⟨b, false, false⟩ := by
  unfold addInsert
  cases c.heights b.Hght <;> rfl

/-- Whether the parent of `b` has an item with `verified` set, in a store where
the fresh item of `b` is already registered. -/
theorem addVerify_eq (c : TxBlockMap) (b : TxBlock) :
    addVerify c b =
      match c.items b.Prnt with
      | none => (c, false)
      | some parent =>
        if parent.verified then
          ({ c with items := mapSet c.items b.id ⟨b, true, false⟩ }, true)
        else (c, false) := by
  unfold addVerify
  cases c.items b.Prnt with
  | none => rfl
  | some parent => cases hv : parent.verified <;> simp [CompareAndSwap, hv]

/-- The flag `should_verify` is set exactly when the parent has a verified
item in the store that already contains the fresh item. -/
theorem addVerify_flag (c : TxBlockMap) (b : TxBlock) :
    (addVerify c b).2 = true ↔ ∃ it, c.items b.Prnt = some it ∧ it.verified = true := by
  rw [addVerify_eq]
  cases c.items b.Prnt with
  | none => simp
  | some parent => cases hv : parent.verified <;> simp [hv]

/-- After `addVerify` the item of `b` carries `should_verify` as its
`verifying` flag, and nothing else has changed. -/
theorem addVerify_store (c : TxBlockMap) (b : TxBlock)
    (hfresh : c.items b.id = some ⟨b, false, false⟩) :
    (addVerify c b).1 =
      { c with items := mapSet c.items b.id ⟨b, (addVerify c b).2, false⟩ } := by
  have hself : mapSet c.items b.id ⟨b, false, false⟩ = c.items := by
    funext x
    by_cases hx : x = b.id
    · subst hx; simp [mapSet, hfresh]
    · simp [mapSet, hx]
  rw [addVerify_eq]
  cases c.items b.Prnt with
  | none => simp [hself]
  | some parent => cases hv : parent.verified <;> simp [hself, hv]

theorem Add_dup (c : TxBlockMap) (b : TxBlock) (p : Nat)
    (hp : c.heights b.Hght = some p) (hin : b.id ∈ (c.mem p).items) :
    Add c b = (c, false, false) := by
  simp [Add, hp, hin]

theorem Add_new (c : TxBlockMap) (b : TxBlock) (hnew : ¬ Present c b) :
    Add c b = ((addVerify (addInsert c b) b).1, true, (addVerify (addInsert c b) b).2) := by
  unfold Add
  cases hp : c.heights b.Hght with
  | none => rfl
  | some p =>
    have : b.id ∉ (c.mem p).items := fun h => hnew ⟨p, hp, h⟩
    simp [this]

theorem Add_present (c : TxBlockMap) (b : TxBlock) (h : Present c b) :
    Add c b = (c, false, false) := by
  obtain ⟨p, hp, hin⟩ := h
  exact Add_dup c b p hp hin

/-- The items after `Add` of a block that is not yet present. -/
theorem Add_new_items (c : TxBlockMap) (b : TxBlock) (hnew : ¬ Present c b) :
    (Add c b).1.items = mapSet c.items b.id ⟨b, (Add c b).2.2, false⟩ := by
  rw [Add_new c b hnew]
  simp only
  rw [addVerify_store (addInsert c b) b (by rw [addInsert_items]; simp [mapSet])]
  simp only [addInsert_items]
  funext x
  by_cases hx : x = b.id <;> simp [mapSet, hx]

theorem Add_new_rest (c : TxBlockMap) (b : TxBlock) (hnew : ¬ Present c b) :
    (Add c b).1.mem = (addInsert c b).mem ∧ (Add c b).1.next = (addInsert c b).next ∧
    (Add c b).1.bh = (addInsert c b).bh ∧ (Add c b).1.heights = (addInsert c b).heights := by
  rw [Add_new c b hnew]
  simp only
  rw [addVerify_store (addInsert c b) b (by rw [addInsert_items]; simp [mapSet])]
  simp

/-- The flag `should_verify` of `Add`, read off the store before the call. -/
theorem Add_flag (c : TxBlockMap) (b : TxBlock) :
    (Add c b).2.2 = true ↔
      ¬ Present c b ∧ b.Prnt ≠ b.id ∧ ∃ it, c.items b.Prnt = some it ∧ it.verified = true := by
  by_cases hnew : Present c b
  · rw [Add_present c b hnew]; simp [hnew]
  · rw [Add_new c b hnew]
    simp only [addVerify_flag, addInsert_items]
    by_cases hx : b.Prnt = b.id
    · simp [mapSet, hx, hnew]
    · simp [mapSet, hx, hnew]

theorem succ_mod_ne (H : Nat) : (H + 1) % u64 ≠ H := by
  unfold u64
  omega

/-- A successful `Verfied` on an id of the store returns when every id of the
bucket one height up has an item. -/
theorem Verfied_returns (c : TxBlockMap) (blkID : Nat) (blk : blkItem)
    (hb : c.items blkID = some blk)
    (hall : ∀ p, c.heights ((blk.blk.Hght + 1) % u64) = some p →
      ∀ x ∈ (c.mem p).items, c.items x ≠ none) :
    ∃ c1 out, Verfied c blkID true = some (c1, out) := by
  rw [Verfied_true c blkID blk hb]
  cases hp : c.heights ((blk.blk.Hght + 1) % u64) with
  | none => exact ⟨_, _, rfl⟩
  | some p =>
    have h1 : ∀ x ∈ (c.mem p).items,
        mapSet c.items blkID ⟨blk.blk, false, true⟩ x ≠ none := by
      intro x hx
      by_cases hxb : x = blkID
      · simp [mapSet, hxb]
      · simpa [mapSet, hxb] using hall p hp x hx
    obtain ⟨c1, out, hs, _⟩ := scanBucket_spec blkID (c.mem p).items
      ⟨c.mem, c.next, c.bh, mapSet c.items blkID ⟨blk.blk, false, true⟩, c.heights⟩ [] h1
    exact ⟨c1, out, hs⟩

/-! ### The heap -/

theorem heapFirst_eq_none (es : List Entry) : heapFirst es = none ↔ es = [] := by
  cases es with
  | nil => simp [heapFirst]
  | cons e rest =>
    simp only [heapFirst]
    cases heapFirst rest with
    | none => simp
    | some m => by_cases h : e.Val ≤ m.Val <;> simp [h]

theorem heapFirst_min :
    ∀ (es : List Entry) (m : Entry), heapFirst es = some m →
      m ∈ es ∧ ∀ e ∈ es, m.Val ≤ e.Val := by
  intro es
  induction es with
  | nil => intro m h; simp [heapFirst] at h
  | cons e rest ih =>
    intro m h
    simp only [heapFirst] at h
    cases hr : heapFirst rest with
    | none =>
      rw [hr] at h
      have hnil := (heapFirst_eq_none rest).mp hr
      simp only [Option.some.injEq] at h
      subst h; subst hnil
      simp
    | some m1 =>
      rw [hr] at h
      obtain ⟨hm1, hle⟩ := ih m1 hr
      by_cases hc : e.Val ≤ m1.Val
      · simp only [hc, if_true, Option.some.injEq] at h
        subst h
        refine ⟨List.mem_cons_self _ _, ?_⟩
        intro x hx
        rcases List.mem_cons.mp hx with h1 | h1
        · rw [h1]
        · exact Nat.le_trans hc (hle x h1)
      · simp only [hc, if_false, Option.some.injEq] at h
        subst h
        refine ⟨List.mem_cons_of_mem _ hm1, ?_⟩
        intro x hx
        rcases List.mem_cons.mp hx with h1 | h1
        · rw [h1]; omega
        · exact hle x h1

theorem nodup_of_map_val (es : List Entry) (h : (es.map Entry.Val).Nodup) : es.Nodup :=
  List.Nodup.of_map _ h

theorem heapPop_mem (es : List Entry) (m : Entry) (hm : heapFirst es = some m)
    (hnd : (es.map Entry.Val).Nodup) (e : Entry) :
    e ∈ heapPop es ↔ e ∈ es ∧ e.Val ≠ m.Val := by
  have hmem := (heapFirst_min es m hm).1
  simp only [heapPop, hm]
  rw [(nodup_of_map_val es hnd).mem_erase_iff]
  constructor
  · rintro ⟨hne, he⟩
    refine ⟨he, fun hv => hne ?_⟩
    exact List.inj_on_of_nodup_map hnd he hmem hv
  · rintro ⟨he, hv⟩
    exact ⟨fun h => hv (by rw [h]), he⟩

theorem heapPop_nodup (es : List Entry) (hnd : (es.map Entry.Val).Nodup) :
    ((heapPop es).map Entry.Val).Nodup := by
  unfold heapPop
  cases heapFirst es with
  | none => exact hnd
  | some m => exact List.Nodup.sublist (List.Sublist.map _ (List.erase_sublist _ _)) hnd

theorem heapPop_length (es : List Entry) (m : Entry) (hm : heapFirst es = some m) :
    (heapPop es).length + 1 = es.length := by
  have hmem := (heapFirst_min es m hm).1
  simp only [heapPop, hm]
  rw [List.length_erase_of_mem hmem]
  have : 0 < es.length := List.length_pos_of_mem hmem
  omega

/-! ### Bucket consistency is kept by every call -/

theorem Inv_new (hgt : Nat → Nat) : Inv hgt NewTxBlockMap where
  item_bucket := by intro id it h; simp [NewTxBlockMap] at h
  bucket_item := by intro k p h; simp [NewTxBlockMap] at h
  bucket_shape := by intro k p h; simp [NewTxBlockMap] at h
  heap_bucket := by intro e h; simp [NewTxBlockMap] at h
  bucket_heap := by intro k p h; simp [NewTxBlockMap] at h
  heap_nodup := by simp [NewTxBlockMap]

/-- In a consistent store an id with an item is present in the bucket of the
height of its block. -/
theorem Inv.present {hgt : Nat → Nat} {c : TxBlockMap} (hI : Inv hgt c) (b : TxBlock)
    (hb : b.Hght = hgt b.id) (it : blkItem) (hit : c.items b.id = some it) :
    Present c b := by
  obtain ⟨_, _, p, hp, hin⟩ := hI.item_bucket b.id it hit
  exact ⟨p, by rw [hb]; exact hp, hin⟩

/-- A store that differs from a consistent one only in the flags of its items
is consistent. -/
theorem Inv.of_same_blocks {hgt : Nat → Nat} {c c1 : TxBlockMap} (hI : Inv hgt c)
    (hm : c1.mem = c.mem) (hn : c1.next = c.next) (hb : c1.bh = c.bh)
    (hh : c1.heights = c.heights)
    (hitems : ∀ x, (c1.items x).map blkItem.blk = (c.items x).map blkItem.blk) :
    Inv hgt c1 where
  item_bucket := by
    intro id it h
    have h1 := hitems id
    rw [h] at h1
    cases hc : c.items id with
    | none => rw [hc] at h1; simp at h1
    | some it0 =>
      rw [hc] at h1
      simp only [Option.map_some', Option.some.injEq] at h1
      have := hI.item_bucket id it0 hc
      rw [hm, hh, h1]
      exact this
  bucket_item := by
    intro k p h x hx
    rw [hh] at h
    rw [hm] at hx
    obtain ⟨h1, h2⟩ := hI.bucket_item k p h x hx
    refine ⟨h1, ?_⟩
    intro hnone
    have h3 := hitems x
    rw [hnone] at h3
    cases hc : c.items x with
    | none => exact h2 hc
    | some it0 => rw [hc] at h3; simp at h3
  bucket_shape := by
    intro k p h
    rw [hh] at h
    rw [hm, hn]
    exact hI.bucket_shape k p h
  heap_bucket := by
    intro e he
    rw [hb] at he
    rw [hh]
    exact hI.heap_bucket e he
  bucket_heap := by
    intro k p h
    rw [hh] at h
    rw [hb]
    exact hI.bucket_heap k p h
  heap_nodup := by rw [hb]; exact hI.heap_nodup

theorem Inv.add {hgt : Nat → Nat} {c : TxBlockMap} (hI : Inv hgt c) (b : TxBlock)
    (hb : b.Hght = hgt b.id) : Inv hgt (Add c b).1 := by
  by_cases hnew : Present c b
  · rw [Add_present c b hnew]; exact hI
  · obtain ⟨hm, hn, hbh, hh⟩ := Add_new_rest c b hnew
    have hitems := Add_new_items c b hnew
    cases hp : c.heights b.Hght with
    | some p =>
      -- the bucket exists: the id joins it
      have hnot : b.id ∉ (c.mem p).items := fun h => hnew ⟨p, hp, h⟩
      have hm1 : (Add c b).1.mem = memSet c.mem p ⟨(c.mem p).h, (c.mem p).items ++ [b.id]⟩ := by
        rw [hm]; unfold addInsert; simp [hp, setAdd, hnot]
      have hn1 : (Add c b).1.next = c.next := by rw [hn]; unfold addInsert; simp [hp]
      have hbh1 : (Add c b).1.bh = c.bh := by rw [hbh]; unfold addInsert; simp [hp]
      have hh1 : (Add c b).1.heights = c.heights := by rw [hh]; unfold addInsert; simp [hp]
      have hshape := hI.bucket_shape b.Hght p hp
      refine ⟨?_, ?_, ?_, ?_, ?_, ?_⟩
      · intro id it hit
        rw [hitems] at hit
        rw [hh1, hm1]
        by_cases hid : id = b.id
        · subst hid
          simp only [mapSet, if_true, Option.some.injEq] at hit
          subst hit
          exact ⟨rfl, hb, p, by rw [← hb]; exact hp, by simp [memSet]⟩
        · simp only [mapSet, hid, if_false] at hit
          obtain ⟨h1, h2, q, hq, hin⟩ := hI.item_bucket id it hit
          refine ⟨h1, h2, q, hq, ?_⟩
          by_cases hqp : q = p
          · subst hqp; simp [memSet, hin]
          · simp [memSet, hqp, hin]
      · intro k q hq x hx
        rw [hh1] at hq
        rw [hm1] at hx
        rw [hitems]
        by_cases hqp : q = p
        · subst hqp
          have hk : k = b.Hght := by
            rw [← (hI.bucket_shape k q hq).2.1, ← hshape.2.1]
          simp only [memSet, if_true, List.mem_append, List.mem_singleton] at hx
          rcases hx with hx | hx
          · obtain ⟨h1, h2⟩ := hI.bucket_item k q hq x hx
            refine ⟨h1, ?_⟩
            by_cases hxb : x = b.id
            · simp [mapSet, hxb]
            · simpa [mapSet, hxb] using h2
          · subst hx
            exact ⟨by rw [hk, hb], by simp [mapSet]⟩
        · simp only [memSet, hqp, if_false] at hx
          obtain ⟨h1, h2⟩ := hI.bucket_item k q hq x hx
          refine ⟨h1, ?_⟩
          by_cases hxb : x = b.id
          · simp [mapSet, hxb]
          · simpa [mapSet, hxb] using h2
      · intro k q hq
        rw [hh1] at hq
        rw [hm1, hn1]
        obtain ⟨h1, h2, h3, h4⟩ := hI.bucket_shape k q hq
        by_cases hqp : q = p
        · subst hqp
          simp only [memSet, if_true]
          refine ⟨h1, h2, ?_, by simp⟩
          rw [List.nodup_append]
          refine ⟨h3, List.nodup_singleton _, ?_⟩
          intro a ha hb1
          rw [List.mem_singleton] at hb1
          subst hb1
          exact hnot ha
        · simp only [memSet, hqp, if_false]
          exact ⟨h1, h2, h3, h4⟩
      · intro e he
        rw [hbh1] at he
        rw [hh1]
        exact hI.heap_bucket e he
      · intro k q hq
        rw [hh1] at hq
        rw [hbh1]
        exact hI.bucket_heap k q hq
      · rw [hbh1]; exact hI.heap_nodup
    | none =>
      -- no bucket at this height: one is allocated at the address `next`
      have hm1 : (Add c b).1.mem = memSet c.mem c.next ⟨b.Hght, [b.id]⟩ := by
        rw [hm]; unfold addInsert; simp [hp]
      have hn1 : (Add c b).1.next = c.next + 1 := by rw [hn]; unfold addInsert; simp [hp]
      have hbh1 : (Add c b).1.bh = c.bh ++ [⟨b.id, b.Hght, c.next⟩] := by
        rw [hbh]; unfold addInsert; simp [hp, heapPush]
      have hh1 : (Add c b).1.heights = mapSet c.heights b.Hght c.next := by
        rw [hh]; unfold addInsert; simp [hp]
      have hold : ∀ k q, c.heights k = some q → k ≠ b.Hght ∧ q ≠ c.next := by
        intro k q hq
        refine ⟨?_, ?_⟩
        · intro hk; rw [hk, hp] at hq; cases hq
        · have := (hI.bucket_shape k q hq).1; omega
      refine ⟨?_, ?_, ?_, ?_, ?_, ?_⟩
      · intro id it hit
        rw [hitems] at hit
        rw [hh1, hm1]
        by_cases hid : id = b.id
        · subst hid
          simp only [mapSet, if_true, Option.some.injEq] at hit
          subst hit
          exact ⟨rfl, hb, c.next, by simp [mapSet, ← hb], by simp [memSet]⟩
        · simp only [mapSet, hid, if_false] at hit
          obtain ⟨h1, h2, q, hq, hin⟩ := hI.item_bucket id it hit
          obtain ⟨hk, hqn⟩ := hold _ q hq
          exact ⟨h1, h2, q, by simp [mapSet, hk, hq], by simp [memSet, hqn, hin]⟩
      · intro k q hq x hx
        rw [hh1] at hq
        rw [hm1] at hx
        rw [hitems]
        by_cases hk : k = b.Hght
        · subst hk
          simp only [mapSet, if_true, Option.some.injEq] at hq
          subst hq
          simp only [memSet, if_true, List.mem_singleton] at hx
          subst hx
          exact ⟨hb.symm, by simp [mapSet]⟩
        · simp only [mapSet, hk, if_false] at hq
          obtain ⟨_, hqn⟩ := hold k q hq
          simp only [memSet, hqn, if_false] at hx
          obtain ⟨h1, h2⟩ := hI.bucket_item k q hq x hx
          refine ⟨h1, ?_⟩
          by_cases hxb : x = b.id
          · simp [mapSet, hxb]
          · simpa [mapSet, hxb] using h2
      · intro k q hq
        rw [hh1] at hq
        rw [hm1, hn1]
        by_cases hk : k = b.Hght
        · subst hk
          simp only [mapSet, if_true, Option.some.injEq] at hq
          subst hq
          simp [memSet]
        · simp only [mapSet, hk, if_false] at hq
          obtain ⟨_, hqn⟩ := hold k q hq
          obtain ⟨h1, h2, h3, h4⟩ := hI.bucket_shape k q hq
          simp only [memSet, hqn, if_false]
          exact ⟨by omega, h2, h3, h4⟩
      · intro e he
        rw [hbh1] at he
        rw [hh1]
        rcases List.mem_append.mp he with h | h
        · have h1 := hI.heap_bucket e h
          obtain ⟨hk, _⟩ := hold _ _ h1
          simp [mapSet, hk, h1]
        · rw [List.mem_singleton] at h
          subst h
          simp [mapSet]
      · intro k q hq
        rw [hh1] at hq
        rw [hbh1]
        by_cases hk : k = b.Hght
        · exact ⟨⟨b.id, b.Hght, c.next⟩, by simp, hk.symm⟩
        · simp only [mapSet, hk, if_false] at hq
          obtain ⟨e, he, hv⟩ := hI.bucket_heap k q hq
          exact ⟨e, List.mem_append_left _ he, hv⟩
      · rw [hbh1, List.map_append, List.nodup_append]
        refine ⟨hI.heap_nodup, by simp, ?_⟩
        intro v hv hv1
        simp only [List.map_cons, List.map_nil, List.mem_singleton] at hv1
        subst hv1
        obtain ⟨e, he, hev⟩ := List.mem_map.mp hv
        have := hI.heap_bucket e he
        rw [hev, hp] at this
        cases this

theorem Inv.verfied {hgt : Nat → Nat} {c c1 : TxBlockMap} (hI : Inv hgt c)
    (blkID : Nat) (success : Bool) (out : List Nat)
    (h : Verfied c blkID success = some (c1, out)) : Inv hgt c1 := by
  obtain ⟨blk, hb⟩ := Verfied_some c c1 blkID success out h
  cases success with
  | false =>
    rw [Verfied_false c blkID blk hb] at h
    simp only [Option.some.injEq, Prod.mk.injEq] at h
    rw [← h.1]
    refine hI.of_same_blocks rfl rfl rfl rfl ?_
    intro x
    by_cases hx : x = blkID
    · subst hx; simp [mapSet, hb]
    · simp [mapSet, hx]
  | true =>
    obtain ⟨hm, hn, hbh, hh, hout, hcl, hoth, _⟩ := Verfied_true_spec c c1 blkID blk out hb h
    refine hI.of_same_blocks hm hn hbh hh ?_
    intro x
    have hmark : (mapSet c.items blkID ⟨blk.blk, false, true⟩ x).map blkItem.blk =
        (c.items x).map blkItem.blk := by
      by_cases hx : x = blkID
      · subst hx; simp [mapSet, hb]
      · simp [mapSet, hx]
    by_cases hx : x ∈ out
    · obtain ⟨_, _, _, it, hit, _⟩ := (hout x).mp hx
      simp only at hit
      rw [hcl x it hx hit, ← hmark, hit]
      rfl
    · rw [hoth x hx, hmark]

/-! ### Eviction -/

theorem evictItems_eq :
    ∀ (l : List Nat) (items : Nat → Option blkItem) (ev : List Nat),
      evictItems l items ev = (fun x => if x ∈ l then none else items x, ev ++ l) := by
  intro l
  induction l with
  | nil => intro items ev; simp [evictItems]
  | cons y rest ih =>
    intro items ev
    simp only [evictItems, ih]
    refine Prod.ext ?_ (by simp)
    funext x
    by_cases hxy : x = y
    · subst hxy; simp [mapDelete]
    · by_cases hxr : x ∈ rest <;> simp [mapDelete, hxy, hxr]

theorem SetMinLoop_succ (fuel : Nat) (c : TxBlockMap) (h : Nat) (ev : List Nat) :
    SetMinLoop (fuel + 1) c h ev =
      match heapFirst c.bh with
      | none => (c, ev)
      | some b =>
        if b.Val ≥ h then (c, ev)
        else SetMinLoop fuel (popped c b) h (ev ++ (c.mem b.Item).items) := by
  show SetMinLoop (fuel + 1) c h ev = _
  rw [SetMinLoop]
  simp only [evictItems_eq]
  cases heapFirst c.bh <;> rfl

/-- In a consistent store the ids of the bucket of the top heap entry are the
ids with an item whose height is the height of that entry. -/
theorem Inv.top_bucket {hgt : Nat → Nat} {c : TxBlockMap} (hI : Inv hgt c) (b : Entry)
    (hb : b ∈ c.bh) (x : Nat) :
    x ∈ (c.mem b.Item).items ↔ c.items x ≠ none ∧ hgt x = b.Val := by
  have hp := hI.heap_bucket b hb
  constructor
  · intro hx
    obtain ⟨h1, h2⟩ := hI.bucket_item b.Val b.Item hp x hx
    exact ⟨h2, h1⟩
  · rintro ⟨h1, h2⟩
    obtain ⟨it, hit⟩ := Option.ne_none_iff_exists'.mp h1
    obtain ⟨_, _, q, hq, hin⟩ := hI.item_bucket x it hit
    rw [h2, hp] at hq
    cases hq
    exact hin

theorem popped_items {hgt : Nat → Nat} {c : TxBlockMap} (hI : Inv hgt c) (b : Entry)
    (hb : b ∈ c.bh) (x : Nat) :
    (popped c b).items x = if hgt x = b.Val then none else c.items x := by
  simp only [popped]
  by_cases hx : x ∈ (c.mem b.Item).items
  · have := ((hI.top_bucket b hb x).mp hx).2
    simp [hx, this]
  · by_cases hv : hgt x = b.Val
    · have : c.items x = none := by
        by_contra hne
        exact hx ((hI.top_bucket b hb x).mpr ⟨hne, hv⟩)
      simp [hx, hv, this]
    · simp [hx, hv]

theorem Inv.pop_round {hgt : Nat → Nat} {c : TxBlockMap} (hI : Inv hgt c) (b : Entry)
    (hf : heapFirst c.bh = some b) : Inv hgt (popped c b) := by
  have hb : b ∈ c.bh := (heapFirst_min c.bh b hf).1
  have hitems := popped_items hI b hb
  have hmem : ∀ e, e ∈ (popped c b).bh ↔ e ∈ c.bh ∧ e.Val ≠ b.Val :=
    heapPop_mem c.bh b hf hI.heap_nodup
  refine ⟨?_, ?_, ?_, ?_, ?_, ?_⟩
  · intro id it hit
    rw [hitems] at hit
    by_cases hv : hgt id = b.Val
    · simp [hv] at hit
    · simp only [hv, if_false] at hit
      obtain ⟨h1, h2, q, hq, hin⟩ := hI.item_bucket id it hit
      exact ⟨h1, h2, q, by simp [popped, mapDelete, hv, hq], hin⟩
  · intro k q hq x hx
    have hk : k ≠ b.Val := by
      intro hk; simp [popped, mapDelete, hk] at hq
    have hq1 : c.heights k = some q := by simpa [popped, mapDelete, hk] using hq
    obtain ⟨h1, h2⟩ := hI.bucket_item k q hq1 x hx
    refine ⟨h1, ?_⟩
    rw [hitems]
    simp [h1, hk, h2]
  · intro k q hq
    have hk : k ≠ b.Val := by
      intro hk; simp [popped, mapDelete, hk] at hq
    have hq1 : c.heights k = some q := by simpa [popped, mapDelete, hk] using hq
    exact hI.bucket_shape k q hq1
  · intro e he
    obtain ⟨he1, hv⟩ := (hmem e).mp he
    simp [popped, mapDelete, hv, hI.heap_bucket e he1]
  · intro k q hq
    have hk : k ≠ b.Val := by
      intro hk; simp [popped, mapDelete, hk] at hq
    have hq1 : c.heights k = some q := by simpa [popped, mapDelete, hk] using hq
    obtain ⟨e, he, hev⟩ := hI.bucket_heap k q hq1
    exact ⟨e, (hmem e).mpr ⟨he, by rw [hev]; exact hk⟩, hev⟩
  · exact heapPop_nodup c.bh hI.heap_nodup

/-- What the loop of `SetMin` does on a consistent store when the fuel covers
the heap: it keeps the store consistent, removes exactly the items, buckets and
heap entries below `h`, and appends the removed ids, once each. -/
theorem SetMinLoop_spec (hgt : Nat → Nat) (h : Nat) :
    ∀ (fuel : Nat) (c : TxBlockMap) (ev : List Nat), Inv hgt c → c.bh.length ≤ fuel →
      Inv hgt (SetMinLoop fuel c h ev).1 ∧
      (SetMinLoop fuel c h ev).1.mem = c.mem ∧
      (SetMinLoop fuel c h ev).1.next = c.next ∧
      (∀ x, (SetMinLoop fuel c h ev).1.items x = if hgt x < h then none else c.items x) ∧
      (∀ k, (SetMinLoop fuel c h ev).1.heights k = if k < h then none else c.heights k) ∧
      (∀ e, e ∈ (SetMinLoop fuel c h ev).1.bh ↔ e ∈ c.bh ∧ h ≤ e.Val) ∧
      ∃ new, (SetMinLoop fuel c h ev).2 = ev ++ new ∧ new.Nodup ∧
        ∀ x, x ∈ new ↔ c.items x ≠ none ∧ hgt x < h := by
  -- a store whose heap has nothing below `h` has nothing below `h` at all
  have hstop : ∀ (c : TxBlockMap) (ev : List Nat), Inv hgt c → (∀ e ∈ c.bh, h ≤ e.Val) →
      ∀ r : TxBlockMap × List Nat, r = (c, ev) →
      Inv hgt r.1 ∧ r.1.mem = c.mem ∧ r.1.next = c.next ∧
      (∀ x, r.1.items x = if hgt x < h then none else c.items x) ∧
      (∀ k, r.1.heights k = if k < h then none else c.heights k) ∧
      (∀ e, e ∈ r.1.bh ↔ e ∈ c.bh ∧ h ≤ e.Val) ∧
      ∃ new, r.2 = ev ++ new ∧ new.Nodup ∧ ∀ x, x ∈ new ↔ c.items x ≠ none ∧ hgt x < h := by
    intro c ev hI hall r hr
    subst hr
    have hbk : ∀ k q, c.heights k = some q → h ≤ k := by
      intro k q hq
      obtain ⟨e, he, hev⟩ := hI.bucket_heap k q hq
      rw [← hev]; exact hall e he
    have hit : ∀ x, c.items x ≠ none → h ≤ hgt x := by
      intro x hx
      obtain ⟨it, hit⟩ := Option.ne_none_iff_exists'.mp hx
      obtain ⟨_, _, q, hq, _⟩ := hI.item_bucket x it hit
      exact hbk _ q hq
    refine ⟨hI, rfl, rfl, ?_, ?_, ?_, [], by simp, List.nodup_nil, ?_⟩
    · intro x
      by_cases hx : hgt x < h
      · have : c.items x = none := by
          by_contra hne
          have := hit x hne
          omega
        simp [hx, this]
      · simp [hx]
    · intro k
      by_cases hk : k < h
      · cases hq : c.heights k with
        | none => simp
        | some q => have := hbk k q hq; omega
      · simp [hk]
    · intro e
      exact ⟨fun he => ⟨he, hall e he⟩, fun he => he.1⟩
    · intro x
      simp only [List.not_mem_nil, false_iff, not_and]
      intro hx
      have := hit x hx
      omega
  intro fuel
  induction fuel with
  | zero =>
    intro c ev hI hlen
    have hnil : c.bh = [] := List.length_eq_zero.mp (Nat.le_zero.mp hlen)
    exact hstop c ev hI (by rw [hnil]; simp) _ rfl
  | succ fuel ih =>
    intro c ev hI hlen
    rw [SetMinLoop_succ]
    cases hf : heapFirst c.bh with
    | none =>
      have hnil := (heapFirst_eq_none c.bh).mp hf
      exact hstop c ev hI (by rw [hnil]; simp) _ rfl
    | some b =>
      obtain ⟨hb, hmin⟩ := heapFirst_min c.bh b hf
      by_cases hge : b.Val ≥ h
      · exact hstop c ev hI (fun e he => Nat.le_trans hge (hmin e he)) _ (by simp [hge])
      · simp only [hge, if_false]
        have hlt : b.Val < h := by omega
        have hI1 := hI.pop_round b hf
        have hlen1 : (popped c b).bh.length ≤ fuel := by
          have := heapPop_length c.bh b hf
          simp only [popped]
          omega
        obtain ⟨hI2, hm, hn, hitems, hheights, hbh, new, hev, hnd, hnew⟩ :=
          ih (popped c b) (ev ++ (c.mem b.Item).items) hI1 hlen1
        have hpi := popped_items hI b hb
        have hshape := hI.bucket_shape b.Val b.Item (hI.heap_bucket b hb)
        refine ⟨hI2, by rw [hm]; rfl, by rw [hn]; rfl, ?_, ?_, ?_,
          (c.mem b.Item).items ++ new, by rw [hev, List.append_assoc], ?_, ?_⟩
        · intro x
          rw [hitems, hpi]
          by_cases hx : hgt x < h
          · simp [hx]
          · have : hgt x ≠ b.Val := by omega
            simp [hx, this]
        · intro k
          rw [hheights]
          by_cases hk : k < h
          · simp [hk]
          · have : k ≠ b.Val := by omega
            simp [hk, popped, mapDelete, this]
        · intro e
          rw [hbh]
          have := heapPop_mem c.bh b hf hI.heap_nodup e
          simp only [popped]
          rw [this]
          constructor
          · rintro ⟨⟨h1, _⟩, h2⟩; exact ⟨h1, h2⟩
          · rintro ⟨h1, h2⟩; exact ⟨⟨h1, by omega⟩, h2⟩
        · rw [List.nodup_append]
          refine ⟨hshape.2.2.1, hnd, ?_⟩
          intro a ha hb2
          have h1 := ((hI.top_bucket b hb a).mp ha).2
          have h2 := ((hnew a).mp hb2).1
          rw [hpi] at h2
          simp [h1] at h2
        · intro x
          rw [List.mem_append, hnew, hI.top_bucket b hb x, hpi]
          by_cases hv : hgt x = b.Val
          · simp [hv, hlt]
          · simp [hv]

theorem Inv.setMin {hgt : Nat → Nat} {c : TxBlockMap} (hI : Inv hgt c) (h : Nat) :
    Inv hgt (SetMin c h).1 :=
  (SetMinLoop_spec hgt h c.bh.length c [] hI (Nat.le_refl _)).1

/-! ### Sequences of calls -/

theorem Inv.step {hgt : Nat → Nat} {c c1 : TxBlockMap} (hI : Inv hgt c) (op : Op)
    (out : List Nat) (hop : ∀ b, op = .add b → b.Hght = hgt b.id)
    (h : step c op = some (c1, out)) : Inv hgt c1 := by
  cases op with
  | add b =>
    simp only [TxBlockManager.step, Option.some.injEq, Prod.mk.injEq] at h
    rw [← h.1]
    exact hI.add b (hop b rfl)
  | verfied blkID success => exact hI.verfied blkID success out h
  | setMin k =>
    simp only [TxBlockManager.step, Option.some.injEq, Prod.mk.injEq] at h
    rw [← h.1]
    exact hI.setMin k

theorem Respects.head {hgt : Nat → Nat} {op : Op} {ops : List Op}
    (h : Respects hgt (op :: ops)) : ∀ b, op = .add b → b.Hght = hgt b.id := by
  intro b hb
  exact h b (by rw [hb]; exact List.mem_cons_self _ _)

theorem Respects.tail {hgt : Nat → Nat} {op : Op} {ops : List Op}
    (h : Respects hgt (op :: ops)) : Respects hgt ops :=
  fun b hb => h b (List.mem_cons_of_mem _ hb)

theorem Respects.left {hgt : Nat → Nat} {l1 l2 : List Op}
    (h : Respects hgt (l1 ++ l2)) : Respects hgt l1 :=
  fun b hb => h b (List.mem_append_left _ hb)

theorem Respects.right {hgt : Nat → Nat} {l1 l2 : List Op}
    (h : Respects hgt (l1 ++ l2)) : Respects hgt l2 :=
  fun b hb => h b (List.mem_append_right _ hb)

theorem runWhile_cons (keep : TxBlockMap → Bool) (c c2 : TxBlockMap) (op : Op)
    (ops : List Op) (h : runWhile keep c (op :: ops) = some c2) :
    ∃ c1 out, TxBlockManager.step c op = some (c1, out) ∧ keep c1 = true ∧
      runWhile keep c1 ops = some c2 := by
  simp only [runWhile] at h
  cases hs : TxBlockManager.step c op with
  | none => rw [hs] at h; cases h
  | some r =>
    obtain ⟨c1, out⟩ := r
    rw [hs] at h
    simp only at h
    by_cases hk : keep c1 = true
    · rw [if_pos hk] at h
      exact ⟨c1, out, rfl, hk, h⟩
    · rw [if_neg hk] at h; cases h

/-- Every store reached by calls that respect `hgt` is consistent. -/
theorem Inv.runWhile {hgt : Nat → Nat} (keep : TxBlockMap → Bool) :
    ∀ (ops : List Op) (c c2 : TxBlockMap), Inv hgt c → Respects hgt ops →
      TxBlockManager.runWhile keep c ops = some c2 → Inv hgt c2 := by
  intro ops
  induction ops with
  | nil =>
    intro c c2 hI _ h
    simp only [TxBlockManager.runWhile, Option.some.injEq] at h
    rw [← h]; exact hI
  | cons op ops ih =>
    intro c c2 hI hres h
    obtain ⟨c1, out, hs, _, hr⟩ := runWhile_cons keep c c2 op ops h
    exact ih c1 c2 (hI.step op out hres.head hs) hres.tail hr

theorem Inv.reach {hgt : Nat → Nat} {ops : List Op} {c : TxBlockMap}
    (hres : Respects hgt ops) (h : run NewTxBlockMap ops = some c) : Inv hgt c :=
  Inv.runWhile _ ops NewTxBlockMap c (Inv_new hgt) hres h

/-! ### One verification in flight -/

/-- A call that hands an id out leaves its `verifying` flag set. -/
theorem handout_inFlight (c c1 : TxBlockMap) (op : Op) (out : List Nat) (x : Nat)
    (h : TxBlockManager.step c op = some (c1, out)) (hx : x ∈ out) : InFlight x c1 := by
  cases op with
  | add b =>
    simp only [TxBlockManager.step, Option.some.injEq, Prod.mk.injEq] at h
    obtain ⟨h1, h2⟩ := h
    by_cases hsv : (Add c b).2.2 = true
    · simp only [hsv, if_true] at h2
      rw [← h2, List.mem_singleton] at hx
      subst hx
      have hnew := ((Add_flag c b).mp hsv).1
      have := Add_new_items c b hnew
      rw [← h1, InFlight, this, hsv]
      exact ⟨⟨b, true, false⟩, by simp [mapSet], rfl⟩
    · simp only [hsv] at h2
      rw [← h2] at hx
      simp at hx
  | verfied blkID success =>
    simp only [TxBlockManager.step] at h
    obtain ⟨blk, hb⟩ := Verfied_some c c1 blkID success out h
    cases success with
    | false =>
      rw [Verfied_false c blkID blk hb] at h
      simp only [Option.some.injEq, Prod.mk.injEq] at h
      rw [← h.2] at hx
      simp at hx
    | true =>
      obtain ⟨_, _, _, _, hout, hcl, _, _⟩ := Verfied_true_spec c c1 blkID blk out hb h
      obtain ⟨_, _, _, it, hit, _⟩ := (hout x).mp hx
      exact ⟨_, hcl x it hx hit, rfl⟩
  | setMin k =>
    simp only [TxBlockManager.step, Option.some.injEq, Prod.mk.injEq] at h
    rw [← h.2] at hx
    simp at hx

/-- In a consistent store `Verfied` never hands out the id it is called on. -/
theorem verfied_not_self {hgt : Nat → Nat} {c c1 : TxBlockMap} (hI : Inv hgt c)
    (x : Nat) (success : Bool) (out : List Nat)
    (h : Verfied c x success = some (c1, out)) : x ∉ out := by
  intro hx
  obtain ⟨blk, hb⟩ := Verfied_some c c1 x success out h
  cases success with
  | false =>
    rw [Verfied_false c x blk hb] at h
    simp only [Option.some.injEq, Prod.mk.injEq] at h
    rw [← h.2] at hx
    simp at hx
  | true =>
    obtain ⟨_, _, _, _, hout, _, _, _⟩ := Verfied_true_spec c c1 x blk out hb h
    obtain ⟨p, hp, hin, _⟩ := (hout x).mp hx
    have h1 := (hI.bucket_item _ p hp x hin).1
    have h2 := (hI.item_bucket x blk hb).2.1
    rw [← h2] at h1
    exact succ_mod_ne _ h1.symm

/-- While an id is being verified, a call other than `Verfied` on that id does
not hand it out, and leaves its flag set if it leaves the id in the store. -/
theorem inFlight_step {hgt : Nat → Nat} {c c1 : TxBlockMap} (hI : Inv hgt c) (x : Nat)
    (hfl : InFlight x c) (op : Op) (out : List Nat)
    (hop : ∀ b, op = .add b → b.Hght = hgt b.id) (hnv : ∀ s, op ≠ .verfied x s)
    (h : TxBlockManager.step c op = some (c1, out)) :
    x ∉ out ∧ (holds x c1 = true → InFlight x c1) := by
  obtain ⟨it, hit, hv⟩ := hfl
  cases op with
  | add b =>
    simp only [TxBlockManager.step, Option.some.injEq, Prod.mk.injEq] at h
    obtain ⟨h1, h2⟩ := h
    by_cases hbx : b.id = x
    · have hpres : Present c b := hI.present b (hop b rfl) it (by rw [hbx]; exact hit)
      have hadd := Add_present c b hpres
      rw [hadd] at h1 h2
      simp only at h1 h2
      subst h1
      rw [← h2]
      exact ⟨by simp, fun _ => ⟨it, hit, hv⟩⟩
    · constructor
      · rw [← h2]
        by_cases hsv : (Add c b).2.2 = true
        · simp only [hsv, if_true, List.mem_singleton]; exact fun h => hbx h.symm
        · simp [hsv]
      · intro _
        refine ⟨it, ?_, hv⟩
        rw [← h1]
        by_cases hnew : Present c b
        · rw [Add_present c b hnew]; exact hit
        · rw [Add_new_items c b hnew]
          simp [mapSet, Ne.symm hbx, hit]
  | verfied blkID success =>
    have hne : blkID ≠ x := fun heq => hnv success (by rw [heq])
    simp only [TxBlockManager.step] at h
    obtain ⟨blk, hb⟩ := Verfied_some c c1 blkID success out h
    cases success with
    | false =>
      rw [Verfied_false c blkID blk hb] at h
      simp only [Option.some.injEq, Prod.mk.injEq] at h
      obtain ⟨h1, h2⟩ := h
      rw [← h2, ← h1]
      exact ⟨by simp, fun _ => ⟨it, by simp [mapSet, Ne.symm hne, hit], hv⟩⟩
    | true =>
      obtain ⟨_, _, _, _, hout, _, hoth, _⟩ := Verfied_true_spec c c1 blkID blk out hb h
      have hx : x ∉ out := by
        intro hx
        obtain ⟨_, _, _, it2, hit2, _, hvf⟩ := (hout x).mp hx
        simp only [mapSet, Ne.symm hne, if_false] at hit2
        rw [hit] at hit2
        cases hit2
        rw [hv] at hvf
        cases hvf
      refine ⟨hx, fun _ => ⟨it, ?_, hv⟩⟩
      rw [hoth x hx]
      simp [mapSet, Ne.symm hne, hit]
  | setMin k =>
    simp only [TxBlockManager.step, Option.some.injEq, Prod.mk.injEq] at h
    obtain ⟨h1, h2⟩ := h
    rw [← h2]
    refine ⟨by simp, ?_⟩
    intro hk
    have hitems := (SetMinLoop_spec hgt k c.bh.length c [] hI (Nat.le_refl _)).2.2.2.1 x
    rw [← h1] at hk
    simp only [holds, SetMin] at hk
    rw [hitems] at hk
    refine ⟨it, ?_, hv⟩
    rw [← h1]
    simp only [SetMin]
    rw [hitems]
    by_cases hlt : hgt x < k
    · simp [hlt] at hk
    · simp [hlt, hit]

/-- An id stays in flight through calls that keep it in the store and are not
`Verfied` on it. -/
theorem inFlight_run {hgt : Nat → Nat} (x : Nat) :
    ∀ (ops : List Op) (c c2 : TxBlockMap), Inv hgt c → InFlight x c → Respects hgt ops →
      (∀ s, Op.verfied x s ∉ ops) → runWhile (holds x) c ops = some c2 →
      Inv hgt c2 ∧ InFlight x c2 := by
  intro ops
  induction ops with
  | nil =>
    intro c c2 hI hfl _ _ h
    simp only [runWhile, Option.some.injEq] at h
    rw [← h]; exact ⟨hI, hfl⟩
  | cons op ops ih =>
    intro c c2 hI hfl hres hnv h
    obtain ⟨c1, out, hs, hk, hr⟩ := runWhile_cons (holds x) c c2 op ops h
    have hnv1 : ∀ s, op ≠ .verfied x s := by
      intro s heq
      exact hnv s (by rw [heq]; exact List.mem_cons_self _ _)
    have h1 := (inFlight_step hI x hfl op out hres.head hnv1 hs).2 hk
    exact ih c1 c2 (hI.step op out hres.head hs) h1 hres.tail
      (fun s hmem => hnv s (List.mem_cons_of_mem _ hmem)) hr

theorem respects_of_respectsB (hgt : Nat → Nat) (ops : List Op)
    (h : respectsB hgt ops = true) : Respects hgt ops := by
  intro b hb
  have := List.all_eq_true.mp h _ hb
  simpa using this

/-! ### The wire form of a range -/

theorem bigEndian64_length (v : Nat) : (bigEndian64 v).length = 8 := rfl

theorem fromBigEndian_bigEndian64 (v : Nat) (hv : v < u64) :
    fromBigEndian (bigEndian64 v) = v := by
  unfold u64 at hv
  simp only [fromBigEndian, bigEndian64, List.foldl_cons, List.foldl_nil]
  omega

theorem Marshal_eq (limit : Nat) (n : NodeChunks) (hlimit : 16 ≤ limit) :
    Marshal limit n = (bigEndian64 n.Min ++ bigEndian64 n.Max, false) := by
  have h1 : ¬ (0 + 8 > limit) := by omega
  have h2 : ¬ (8 + 8 > limit) := by omega
  simp [Marshal, NewWriter, PackUint64, bigEndian64_length, h1, h2]

theorem UnmarshalNodeChunks_eq (a b : Nat) (ha : a < u64) (hb : b < u64) :
    UnmarshalNodeChunks (bigEndian64 a ++ bigEndian64 b) = (⟨a, b⟩, false) := by
  have h2 : ((bigEndian64 a ++ bigEndian64 b).drop 8).take 8 = bigEndian64 b := by
    simp [bigEndian64]
  have h3 : List.take 8 (bigEndian64 a ++ bigEndian64 b) = bigEndian64 a := by
    simp [bigEndian64]
  have h4 : List.take 8 (bigEndian64 b) = bigEndian64 b := by
    simp [bigEndian64]
  simp [UnmarshalNodeChunks, NewReader, UnpackUint64, bigEndian64_length, h2, h3, h4,
    fromBigEndian_bigEndian64 a ha, fromBigEndian_bigEndian64 b hb]

/-- A range cannot be read from 15 bytes. -/
theorem UnmarshalNodeChunks_short (b : List Nat) (hb : b.length = 15) :
    (UnmarshalNodeChunks b).2 = true := by
  simp [UnmarshalNodeChunks, NewReader, UnpackUint64, hb]

/-! ### The fetch path -/

theorem requestChunkNodeID_ok (ToID : List Nat → Nat) (c : Manager) (chunkID rch : Nat)
    (reply : Reply) (msg : List Nat)
    (h : (requestChunkNodeID ToID c chunkID rch reply).2 = .ok msg) :
    reply = .delivered msg ∧ msg ≠ [] ∧ ToID msg = chunkID := by
  unfold requestChunkNodeID at h
  cases reply with
  | sendFailed => simp at h
  | cancelled => simp at h
  | delivered m =>
    simp only at h
    by_cases h0 : m.length = 0
    · simp [h0] at h
    · by_cases h1 : chunkID ≠ ToID m
      · simp [h0, h1] at h
      · simp only [h0, h1, if_false, Except.ok.injEq] at h
        subst h
        refine ⟨rfl, ?_, ?_⟩
        · intro hm; rw [hm] at h0; simp at h0
        · simp only [ne_eq, not_not] at h1; exact h1.symm

/-- The block that the retry loop passes to `store.Add` was decoded from bytes
that are not empty and hash to the requested id. -/
theorem fetchLoop_added (ToID : List Nat → Nat) (U : List Nat → Option TxBlock)
    (P : TxBlock → List Nat → Option TxBlock) (height hint chunkID : Nat)
    (env : Nat → Attempt) :
    ∀ (n i : Nat) (c : Manager) (msg : List Nat) (blk : TxBlock),
      (fetchLoop ToID U P height hint chunkID env n i c).added = some (msg, blk) →
      msg ≠ [] ∧ ToID msg = chunkID ∧ ∃ r, U msg = some r ∧ P r msg = some blk := by
  intro n
  induction n with
  | zero => intro i c msg blk h; simp [fetchLoop] at h
  | succ n ih =>
    intro i c msg blk h
    simp only [fetchLoop] at h
    split at h
    · simp at h
    · split at h
      · exact ih _ _ _ _ h
      · split at h
        · exact ih _ _ _ _ h
        · rename_i c1 m hreq
          have hok := requestChunkNodeID_ok ToID _ chunkID _ _ m (by rw [hreq])
          split at h
          · exact ih _ _ _ _ h
          · rename_i r hr
            split at h
            · exact ih _ _ _ _ h
            · rename_i t ht
              split at h
              · simp only [Option.some.injEq, Prod.mk.injEq] at h
                obtain ⟨h1, h2⟩ := h
                subst h1; subst h2
                exact ⟨hok.2.1, hok.2.2, r, hr, ht⟩
              · simp only [Option.some.injEq, Prod.mk.injEq] at h
                obtain ⟨h1, h2⟩ := h
                subst h1; subst h2
                exact ⟨hok.2.1, hok.2.2, r, hr, ht⟩

/-- What `HandleResponse` does to the table of pending requests. -/
theorem HandleResponse_requests (c : Manager) (receiving : Nat → Bool) (r : Nat)
    (m : List Nat) :
    (HandleResponse c receiving r m).1.requests = mapDelete c.requests r := by
  unfold HandleResponse
  cases hr : c.requests r with
  | none =>
    funext x
    by_cases hx : x = r
    · subst hx; simp [mapDelete, hr]
    · simp [mapDelete, hx]
  | some ch => by_cases h : receiving ch = true <;> simp [h]

/-- A delivery for a request that is not pending does nothing. -/
theorem HandleResponse_not_pending (c : Manager) (receiving : Nat → Bool) (r : Nat)
    (m : List Nat) (h : c.requests r = none) :
    HandleResponse c receiving r m = (c, none, .returned none) := by
  simp [HandleResponse, h]

/-- A delivery changes the table of pending requests only. -/
theorem HandleResponse_rest (c : Manager) (receiving : Nat → Bool) (r : Nat) (m : List Nat) :
    (HandleResponse c receiving r m).1.requestID = c.requestID ∧
    (HandleResponse c receiving r m).1.outstanding = c.outstanding ∧
    (HandleResponse c receiving r m).1.nodeChunks = c.nodeChunks ∧
    (HandleResponse c receiving r m).1.txBlocks = c.txBlocks := by
  unfold HandleResponse
  cases c.requests r with
  | none => exact ⟨rfl, rfl, rfl, rfl⟩
  | some ch => by_cases h : receiving ch = true <;> simp [h]

/-! ### The counter of request ids -/

/-- A call of `requestChunkNodeID` advances the counter by one modulo `2 ^ 32`. -/
theorem requestChunkNodeID_counter (ToID : List Nat → Nat) (c : Manager) (chunkID rch : Nat)
    (reply : Reply) :
    (requestChunkNodeID ToID c chunkID rch reply).1.requestID = (c.requestID + 1) % 2 ^ 32 := by
  unfold requestChunkNodeID
  cases reply with
  | sendFailed => rfl
  | cancelled => rfl
  | delivered msg =>
    simp only
    split
    · rw [(HandleResponse_rest _ _ _ _).1]
    · split
      · rw [(HandleResponse_rest _ _ _ _).1]
      · rw [(HandleResponse_rest _ _ _ _).1]

/-- A call of `requestChunkNodeID` leaves the requests under other ids than the
one it allocates as they are. -/
theorem requestChunkNodeID_other (ToID : List Nat → Nat) (c : Manager) (chunkID rch : Nat)
    (reply : Reply) (x : Nat) (hx : x ≠ c.requestID) :
    (requestChunkNodeID ToID c chunkID rch reply).1.requests x = c.requests x := by
  unfold requestChunkNodeID
  cases reply with
  | sendFailed => simp [mapSet, hx]
  | cancelled => simp [mapSet, hx]
  | delivered msg =>
    have h : ∀ c1 : Manager, c1.requests = mapSet c.requests c.requestID rch →
        (HandleResponse c1 (fun ch => decide (ch = rch)) c.requestID msg).1.requests x
          = c.requests x := by
      intro c1 h1
      rw [HandleResponse_requests, h1]
      simp [mapDelete, mapSet, hx]
    simp only
    split
    · exact h _ rfl
    · split
      · exact h _ rfl
      · exact h _ rfl

/-- What a call of `requestChunkNodeID` leaves under the id it allocates: its
own channel, or nothing when the response was delivered. -/
theorem requestChunkNodeID_own (ToID : List Nat → Nat) (c : Manager) (chunkID rch : Nat)
    (reply : Reply) :
    ((∀ msg, reply ≠ .delivered msg) →
      (requestChunkNodeID ToID c chunkID rch reply).1.requests c.requestID = some rch) ∧
    ((∃ msg, reply = .delivered msg) →
      (requestChunkNodeID ToID c chunkID rch reply).1.requests c.requestID = none) := by
  constructor
  · intro hnd
    cases reply with
    | sendFailed => simp [requestChunkNodeID, mapSet]
    | cancelled => simp [requestChunkNodeID, mapSet]
    | delivered msg => exact absurd rfl (hnd msg)
  · rintro ⟨msg, rfl⟩
    have h : ∀ c1 : Manager,
        (HandleResponse c1 (fun ch => decide (ch = rch)) c.requestID msg).1.requests c.requestID
          = none := by
      intro c1
      rw [HandleResponse_requests]
      simp [mapDelete]
    unfold requestChunkNodeID
    simp only
    split
    · exact h _
    · split
      · exact h _
      · exact h _

/-- A sequence of calls from a counter `n`: the counter afterwards, and a
pending request keeps its channel when none of the calls allocates its id, the
call `i` allocating `(n + i) % 2 ^ 32`. -/
theorem requestAll_spec (ToID : List Nat → Nat) :
    ∀ (calls : List (Nat × Nat × Reply)) (c : Manager), c.requestID < 2 ^ 32 →
      (requestAll ToID c calls).requestID = (c.requestID + calls.length) % 2 ^ 32 ∧
      ∀ x ch, c.requests x = some ch →
        (∀ i, i < calls.length → (c.requestID + i) % 2 ^ 32 ≠ x) →
        (requestAll ToID c calls).requests x = some ch := by
  intro calls
  induction calls with
  | nil =>
    intro c hc
    refine ⟨?_, fun x ch hx _ => hx⟩
    simp only [requestAll, List.length_nil, Nat.add_zero]
    exact (Nat.mod_eq_of_lt hc).symm
  | cons call rest ih =>
    intro c hc
    obtain ⟨chunkID, rch, reply⟩ := call
    have hcount := requestChunkNodeID_counter ToID c chunkID rch reply
    have hlt : (requestChunkNodeID ToID c chunkID rch reply).1.requestID < 2 ^ 32 := by
      rw [hcount]; exact Nat.mod_lt _ (by norm_num)
    obtain ⟨ih1, ih2⟩ := ih _ hlt
    simp only [requestAll, List.length_cons]
    constructor
    · rw [ih1, hcount, Nat.mod_add_mod, Nat.add_assoc, Nat.add_comm 1]
    · intro x ch hx hfree
      have h0 : x ≠ c.requestID := by
        have := hfree 0 (Nat.succ_pos _)
        rw [Nat.add_zero, Nat.mod_eq_of_lt hc] at this
        exact fun h => this h.symm
      apply ih2 x ch
      · rw [requestChunkNodeID_other ToID c chunkID rch reply x h0]
        exact hx
      · intro i hi
        rw [hcount, Nat.mod_add_mod, Nat.add_assoc, Nat.add_comm 1]
        exact hfree (i + 1) (Nat.succ_lt_succ hi)

/-- The calls before the counter comes round to `x` do not allocate `x`. -/
theorem counter_before (n x i : Nat) (hi : i < (x + 2 ^ 32 - n) % 2 ^ 32) :
    (n + i) % 2 ^ 32 ≠ x := by
  norm_num at hi ⊢
  omega

/-- After as many calls the counter is `x`. -/
theorem counter_round (n x : Nat) (hn : n < 2 ^ 32) (hx : x < 2 ^ 32) :
    (n + (x + 2 ^ 32 - n) % 2 ^ 32) % 2 ^ 32 = x := by
  norm_num at hn hx ⊢
  omega

/-! ### Peer selection -/

theorem scanPeers_snd (height : Nat) :
    ∀ (l : List (Nat × NodeChunks)) (r : Nat) (acc : List Nat),
      (scanPeers height l r acc).2 =
        acc ++ (l.filter fun p => decide (height ≥ p.2.Min ∧ height ≤ p.2.Max)).map Prod.fst := by
  intro l
  induction l with
  | nil => intro r acc; simp [scanPeers]
  | cons p rest ih =>
    intro r acc
    obtain ⟨nodeID, chunk⟩ := p
    by_cases hc : height ≥ chunk.Min ∧ height ≤ chunk.Max
    · simp [scanPeers, hc, ih]
    · simp [scanPeers, hc, ih]

theorem scanPeers_fst (height : Nat) :
    ∀ (l : List (Nat × NodeChunks)) (r : Nat) (acc : List Nat),
      (l = [] ∧ (scanPeers height l r acc).1 = r) ∨
      ∃ p ∈ l, (scanPeers height l r acc).1 = p.1 := by
  intro l
  induction l with
  | nil => intro r acc; exact Or.inl ⟨rfl, rfl⟩
  | cons p rest ih =>
    intro r acc
    obtain ⟨nodeID, chunk⟩ := p
    right
    have hstep : ∀ acc1, (∃ q ∈ (nodeID, chunk) :: rest,
        (scanPeers height rest nodeID acc1).1 = q.1) := by
      intro acc1
      rcases ih nodeID acc1 with ⟨_, h⟩ | ⟨q, hq, h⟩
      · exact ⟨(nodeID, chunk), List.mem_cons_self _ _, h⟩
      · exact ⟨q, List.mem_cons_of_mem _ hq, h⟩
    by_cases hc : height ≥ chunk.Min ∧ height ≤ chunk.Max
    · simp only [scanPeers, hc, and_self, if_true]
      exact hstep _
    · simp only [scanPeers, hc, if_false]
      exact hstep _

/-- What goes on around a fetch leaves the peer directory alone. -/
theorem meanwhile_nodeChunks (c : Manager) (chunkID : Nat) (a : Attempt) :
    (meanwhile c chunkID a).nodeChunks = c.nodeChunks := by
  have h : ∀ (l : List (Option Nat)) (m : Manager),
      (l.foldl (fun m ch => registerListener m chunkID ch) m).nodeChunks = m.nodeChunks := by
    intro l
    induction l with
    | nil => intro m; rfl
    | cons ch rest ih =>
      intro m
      simp only [List.foldl_cons]
      rw [ih]
      unfold registerListener
      cases m.outstanding chunkID <;> rfl
  simp only [meanwhile]
  exact h _ _

/-! ### The flags of items under the three calls -/

/-- `SetMin` deletes items and changes none: on every store, an item after the
loop is the item before it. -/
theorem SetMinLoop_items (h : Nat) :
    ∀ (fuel : Nat) (c : TxBlockMap) (ev : List Nat) (x : Nat),
      (SetMinLoop fuel c h ev).1.items x = none ∨
      (SetMinLoop fuel c h ev).1.items x = c.items x := by
  intro fuel
  induction fuel with
  | zero => intro c ev x; exact Or.inr rfl
  | succ fuel ih =>
    intro c ev x
    rw [SetMinLoop_succ]
    cases hf : heapFirst c.bh with
    | none => exact Or.inr rfl
    | some b =>
      by_cases hge : b.Val ≥ h
      · right
        show (if b.Val ≥ h then (c, ev) else _).1.items x = c.items x
        rw [if_pos hge]
      · simp only [if_neg hge]
        rcases ih (popped c b) (ev ++ (c.mem b.Item).items) x with h1 | h1
        · exact Or.inl h1
        · rw [h1]
          simp only [popped]
          by_cases hx : x ∈ (c.mem b.Item).items
          · simp [hx]
          · simp [hx]

/-- A call of `Verfied` that returns leaves buckets, heap and blocks as they
are. -/
theorem Verfied_sameBlocks (c c1 : TxBlockMap) (blkID : Nat) (success : Bool)
    (out : List Nat) (h : Verfied c blkID success = some (c1, out)) : SameBlocks c c1 := by
  obtain ⟨blk, hb⟩ := Verfied_some c c1 blkID success out h
  cases success with
  | false =>
    rw [Verfied_false c blkID blk hb] at h
    simp only [Option.some.injEq, Prod.mk.injEq] at h
    rw [← h.1]
    refine ⟨rfl, rfl, rfl, rfl, ?_⟩
    intro x
    by_cases hx : x = blkID
    · subst hx; simp [mapSet, hb]
    · simp [mapSet, hx]
  | true =>
    obtain ⟨hm, hn, hbh, hh, hout, hcl, hoth, _⟩ := Verfied_true_spec c c1 blkID blk out hb h
    refine ⟨hm, hn, hbh, hh, ?_⟩
    intro x
    have hmark : (mapSet c.items blkID ⟨blk.blk, false, true⟩ x).map blkItem.blk =
        (c.items x).map blkItem.blk := by
      by_cases hx : x = blkID
      · subst hx; simp [mapSet, hb]
      · simp [mapSet, hx]
    by_cases hx : x ∈ out
    · obtain ⟨_, _, _, it, hit, _⟩ := (hout x).mp hx
      simp only at hit
      rw [hcl x it hx hit, ← hmark, hit]
      rfl
    · rw [hoth x hx, hmark]

/-- A call of `Verfied` that returns clears no `verified` flag. -/
theorem Verfied_keeps_verified (c c1 : TxBlockMap) (blkID : Nat) (success : Bool)
    (out : List Nat) (h : Verfied c blkID success = some (c1, out)) (x : Nat) (it : blkItem)
    (hit : c.items x = some it) (hv : it.verified = true) :
    ∃ it1, c1.items x = some it1 ∧ it1.verified = true ∧ it1.blk = it.blk := by
  obtain ⟨blk, hb⟩ := Verfied_some c c1 blkID success out h
  cases success with
  | false =>
    rw [Verfied_false c blkID blk hb] at h
    simp only [Option.some.injEq, Prod.mk.injEq] at h
    rw [← h.1]
    by_cases hx : x = blkID
    · subst hx
      rw [hb] at hit
      cases hit
      exact ⟨⟨it.blk, false, it.verified⟩, by simp [mapSet], hv, rfl⟩
    · exact ⟨it, by simp [mapSet, hx, hit], hv, rfl⟩
  | true =>
    obtain ⟨_, _, _, _, _, hcl, hoth, _⟩ := Verfied_true_spec c c1 blkID blk out hb h
    have hmark : ∃ itm, mapSet c.items blkID ⟨blk.blk, false, true⟩ x = some itm ∧
        itm.verified = true ∧ itm.blk = it.blk := by
      by_cases hx : x = blkID
      · subst hx
        rw [hb] at hit
        cases hit
        exact ⟨⟨it.blk, false, true⟩, by simp [mapSet], rfl, rfl⟩
      · exact ⟨it, by simp [mapSet, hx, hit], hv, rfl⟩
    obtain ⟨itm, hitm, hvm, hbm⟩ := hmark
    by_cases hx : x ∈ out
    · exact ⟨_, hcl x itm hx hitm, hvm, hbm⟩
    · exact ⟨itm, by rw [hoth x hx, hitm], hvm, hbm⟩

/-! ### The cascade -/

theorem SameBlocks.refl (c : TxBlockMap) : SameBlocks c c :=
  ⟨rfl, rfl, rfl, rfl, fun _ => rfl⟩

theorem SameBlocks.trans {c c1 c2 : TxBlockMap} (h1 : SameBlocks c c1)
    (h2 : SameBlocks c1 c2) : SameBlocks c c2 := by
  obtain ⟨a1, a2, a3, a4, a5⟩ := h1
  obtain ⟨b1, b2, b3, b4, b5⟩ := h2
  exact ⟨by rw [b1, a1], by rw [b2, a2], by rw [b3, a3], by rw [b4, a4],
    fun x => by rw [b5, a5]⟩

/-- Items of two stores with the same blocks: where one has an item the other
has one with the same block. -/
theorem SameBlocks.item {c c1 : TxBlockMap} (h : SameBlocks c c1) (x : Nat) (it : blkItem)
    (hit : c.items x = some it) : ∃ it1, c1.items x = some it1 ∧ it1.blk = it.blk := by
  have h1 := h.2.2.2.2 x
  rw [hit] at h1
  cases hc : c1.items x with
  | none => rw [hc] at h1; simp at h1
  | some it1 =>
    rw [hc] at h1
    simp only [Option.map_some', Option.some.injEq] at h1
    exact ⟨it1, rfl, h1⟩

theorem SameBlocks.item_back {c c1 : TxBlockMap} (h : SameBlocks c c1) (x : Nat)
    (it1 : blkItem) (hit : c1.items x = some it1) :
    ∃ it, c.items x = some it ∧ it.blk = it1.blk := by
  have h1 := h.2.2.2.2 x
  rw [hit] at h1
  cases hc : c.items x with
  | none => rw [hc] at h1; simp at h1
  | some it =>
    rw [hc] at h1
    simp only [Option.map_some', Option.some.injEq] at h1
    exact ⟨it, rfl, h1.symm⟩

theorem SameBlocks.atHeight {c c1 : TxBlockMap} (h : SameBlocks c c1) (x H : Nat) :
    AtHeight c x H ↔ AtHeight c1 x H := by
  constructor
  · rintro ⟨it, hit, hh⟩
    obtain ⟨it1, h1, h2⟩ := h.item x it hit
    exact ⟨it1, h1, by rw [h2]; exact hh⟩
  · rintro ⟨it1, hit, hh⟩
    obtain ⟨it, h1, h2⟩ := h.item_back x it1 hit
    exact ⟨it, h1, by rw [h2]; exact hh⟩

theorem SameBlocks.childAbove {c c1 : TxBlockMap} (h : SameBlocks c c1) (hc : ChildAbove c) :
    ChildAbove c1 := by
  intro x it1 itp1 hit hitp
  obtain ⟨it, h1, h2⟩ := h.item_back x it1 hit
  have hitp0 : c1.items it.blk.Prnt = some itp1 := by rw [h2]; exact hitp
  obtain ⟨itp, h3, h4⟩ := h.item_back _ itp1 hitp0
  have := hc x it itp h1 h3
  rw [← h2, ← h4]
  exact this

theorem SameBlocks.sound {c c1 : TxBlockMap} (h : SameBlocks c c1)
    (hs : ∀ k, BucketSound c k) : ∀ k, BucketSound c1 k := by
  intro k p hp x hx
  rw [h.2.2.2.1] at hp
  rw [h.1] at hx
  obtain ⟨it, hit, hh⟩ := hs k p hp x hx
  obtain ⟨it1, h1, h2⟩ := h.item x it hit
  exact ⟨it1, h1, by rw [h2]; exact hh⟩

/-- On an id of the store `Verify` returns, and returns `nil`. -/
theorem Verify_in_store {S E : Type} (ChildState : TxBlock → Nat → Except E S)
    (blkVerify : TxBlock → S → Option E) (c : TxBlockMap) (blkID : Nat) (it : blkItem)
    (hit : c.items blkID = some it) : Verify ChildState blkVerify c blkID = some none := by
  have hg : Get c blkID = some it.blk := by simp [Get, hit]
  unfold Verify
  simp only [hg]
  cases ChildState it.blk (it.blk.Txs.length * 2) with
  | error e => rfl
  | ok s =>
    simp only
    cases blkVerify it.blk s <;> rfl

/-- In a store whose buckets list only ids with items and where children are
one above their parents, a successful `Verfied` on an id at height `H` returns,
and the ids it hands out are at height `H + 1`. -/
theorem Verfied_above {c : TxBlockMap} (hs : ∀ k, BucketSound c k)
    (hc : ChildAbove c) (blkID H : Nat) (hat : AtHeight c blkID H) :
    ∃ c1 out, Verfied c blkID true = some (c1, out) ∧ SameBlocks c c1 ∧
      ∀ x ∈ out, AtHeight c x (H + 1) := by
  obtain ⟨blk, hb, hH⟩ := hat
  have hall : ∀ p, c.heights ((blk.blk.Hght + 1) % u64) = some p →
      ∀ x ∈ (c.mem p).items, c.items x ≠ none :=
    fun p hp x hx => by
      obtain ⟨it, hit, _⟩ := hs _ p hp x hx
      simp [hit]
  obtain ⟨c1, out, hv⟩ := Verfied_returns c blkID blk hb hall
  refine ⟨c1, out, hv, Verfied_sameBlocks c c1 blkID true out hv, ?_⟩
  intro x hx
  obtain ⟨_, _, _, _, hout, _, _, _⟩ := Verfied_true_spec c c1 blkID blk out hb hv
  obtain ⟨_, _, _, it, hit, hpr, _⟩ := (hout x).mp hx
  simp only at hit
  have hself : blk.blk.Prnt ≠ blkID := by
    intro h
    have := hc blkID blk blk hb (by rw [h]; exact hb)
    omega
  have hne : x ≠ blkID := by
    intro h
    subst h
    simp only [mapSet, if_true, Option.some.injEq] at hit
    rw [← hit] at hpr
    exact hself hpr
  simp only [mapSet, hne, if_false] at hit
  have := hc x it blk hit (by rw [hpr]; exact hb)
  exact ⟨it, hit, by rw [this, hH]⟩

/-- One round of `VerifyAll` on a frontier of ids at height `H` returns, keeps
buckets, heap and blocks, and yields a frontier of ids at height `H + 1`. -/
theorem verifyRound_above {S E : Type} (ChildState : TxBlock → Nat → Except E S)
    (blkVerify : TxBlock → S → Option E) (H : Nat) :
    ∀ (next : List Nat) (c : TxBlockMap) (acc : List Nat),
      (∀ k, BucketSound c k) → ChildAbove c →
      (∀ x ∈ next, AtHeight c x H) → (∀ x ∈ acc, AtHeight c x (H + 1)) →
      ∃ c1 out, verifyRound ChildState blkVerify next c acc = some (c1, out) ∧
        SameBlocks c c1 ∧ ∀ x ∈ out, AtHeight c x (H + 1) := by
  intro next
  induction next with
  | nil =>
    intro c acc _ _ _ hacc
    exact ⟨c, acc, rfl, SameBlocks.refl c, hacc⟩
  | cons y rest ih =>
    intro c acc hI hc hnext hacc
    have hy := hnext y (List.mem_cons_self _ _)
    obtain ⟨ity, hity, _⟩ := hy
    obtain ⟨c1, o, hv, hsb, ho⟩ := Verfied_above hI hc y H (hnext y (List.mem_cons_self _ _))
    have hrest : ∀ x ∈ rest, AtHeight c1 x H :=
      fun x hx => (hsb.atHeight x H).mp (hnext x (List.mem_cons_of_mem _ hx))
    have hacc1 : ∀ x ∈ acc ++ o, AtHeight c1 x (H + 1) := by
      intro x hx
      rcases List.mem_append.mp hx with h | h
      · exact (hsb.atHeight x _).mp (hacc x h)
      · exact (hsb.atHeight x _).mp (ho x h)
    obtain ⟨c2, out, hr, hsb2, hout⟩ :=
      ih c1 (acc ++ o) (hsb.sound hI) (hsb.childAbove hc) hrest hacc1
    refine ⟨c2, out, ?_, hsb.trans hsb2, fun x hx => (hsb.atHeight x _).mpr (hout x hx)⟩
    simp only [verifyRound, Verify_in_store ChildState blkVerify c y ity hity,
      Option.isNone_none, hv, hr]

/-- The cascade from a frontier at height `H` in a store whose buckets list
only ids with items, whose children are one above their parents and whose
blocks are below height `B`, with `B <= H + d`: it runs `j <= d` rounds, the
frontier of round `i < j` is not empty and at height `H + i`, the frontier
after round `j` is empty, and the loop finishes there exactly when it has fuel
for `j` rounds. -/
theorem rounds_terminate {S E : Type} (ChildState : TxBlock → Nat → Except E S)
    (blkVerify : TxBlock → S → Option E) (B : Nat) :
    ∀ (d H : Nat) (c : TxBlockMap) (F : List Nat), (∀ k, BucketSound c k) → ChildAbove c →
      (∀ x it, c.items x = some it → it.blk.Hght < B) → (∀ x ∈ F, AtHeight c x H) →
      B ≤ H + d →
      ∃ j cj, j ≤ d ∧ roundsFrom ChildState blkVerify j c F = some (cj, []) ∧
        SameBlocks c cj ∧
        (∀ i, i < j → ∃ ci Fi, roundsFrom ChildState blkVerify i c F = some (ci, Fi) ∧
          Fi ≠ [] ∧ ∀ x ∈ Fi, AtHeight c x (H + i)) ∧
        (∀ fuel, j ≤ fuel → VerifyAllLoop ChildState blkVerify fuel c F = .finished cj) ∧
        ∀ fuel, fuel < j → VerifyAllLoop ChildState blkVerify fuel c F = .outOfFuel := by
  intro d
  induction d with
  | zero =>
    intro H c F _ _ hfin hF hB
    have hnil : F = [] := by
      cases F with
      | nil => rfl
      | cons x rest =>
        exfalso
        obtain ⟨it, hit, hh⟩ := hF x (List.mem_cons_self _ _)
        have := hfin x it hit
        omega
    subst hnil
    refine ⟨0, c, Nat.le_refl _, rfl, SameBlocks.refl c,
      fun i hi => absurd hi (Nat.not_lt_zero i), ?_, fun fuel hf => absurd hf (Nat.not_lt_zero _)⟩
    intro fuel _
    cases fuel <;> simp [VerifyAllLoop]
  | succ d ih =>
    intro H c F hs hc hfin hF hB
    cases hFe : F with
    | nil =>
      refine ⟨0, c, Nat.zero_le _, rfl, SameBlocks.refl c,
        fun i hi => absurd hi (Nat.not_lt_zero i), ?_,
        fun fuel hf => absurd hf (Nat.not_lt_zero _)⟩
      intro fuel _
      cases fuel <;> simp [VerifyAllLoop]
    | cons y rest =>
      have hne : F ≠ [] := by rw [hFe]; simp
      have hlen : F.length > 0 := List.length_pos.mpr hne
      rw [← hFe]
      obtain ⟨c1, F1, hr, hsb, hF1⟩ :=
        verifyRound_above ChildState blkVerify H F c [] hs hc hF (by simp)
      have hfin1 : ∀ x it, c1.items x = some it → it.blk.Hght < B := by
        intro x it1 hit
        obtain ⟨it, h1, h2⟩ := hsb.item_back x it1 hit
        rw [← h2]
        exact hfin x it h1
      have hF1' : ∀ x ∈ F1, AtHeight c1 x (H + 1) :=
        fun x hx => (hsb.atHeight x _).mp (hF1 x hx)
      obtain ⟨j, cj, hj, hrounds, hsbj, hfront, hloop, hshort⟩ :=
        ih (H + 1) c1 F1 (hsb.sound hs) (hsb.childAbove hc) hfin1 hF1' (by omega)
      refine ⟨j + 1, cj, by omega, ?_, hsb.trans hsbj, ?_, ?_, ?_⟩
      · simp only [roundsFrom, hr, hrounds]
      · intro i hi
        cases i with
        | zero => exact ⟨c, F, rfl, hne, by simpa using hF⟩
        | succ i =>
          obtain ⟨ci, Fi, h1, h2, h3⟩ := hfront i (by omega)
          refine ⟨ci, Fi, by simp only [roundsFrom, hr, h1], h2, ?_⟩
          intro x hx
          have := (hsb.atHeight x _).mpr (h3 x hx)
          rw [show H + (i + 1) = H + 1 + i by omega]
          exact this
      · intro fuel hfuel
        cases fuel with
        | zero => omega
        | succ fuel =>
          simp only [VerifyAllLoop, hlen, if_true, hr]
          exact hloop fuel (by omega)
      · intro fuel hfuel
        cases fuel with
        | zero => simp [VerifyAllLoop, hlen]
        | succ fuel =>
          simp only [VerifyAllLoop, hlen, if_true, hr]
          exact hshort fuel (by omega)

/-- A consistent store lists only ids with items in its buckets. -/
theorem Inv.buckets_sound {hgt : Nat → Nat} {c : TxBlockMap} (hI : Inv hgt c) :
    ∀ k, BucketSound c k := by
  intro k p hp x hx
  obtain ⟨h1, h2⟩ := hI.bucket_item k p hp x hx
  obtain ⟨it, hit⟩ := Option.ne_none_iff_exists'.mp h2
  exact ⟨it, hit, by rw [(hI.item_bucket x it hit).2.1, h1]⟩

/-- Every item of a store reached by calls holds, under its own id, a block
that was in the store at the start or that one of the calls added. -/
theorem runWhile_blocks (keep : TxBlockMap → Bool) :
    ∀ (ops : List Op) (L : List TxBlock) (c0 c : TxBlockMap),
      (∀ x it, c0.items x = some it → it.blk ∈ L ∧ it.blk.id = x) →
      runWhile keep c0 ops = some c →
      ∀ x it, c.items x = some it → it.blk ∈ L ++ addedBlocks ops ∧ it.blk.id = x := by
  intro ops
  induction ops with
  | nil =>
    intro L c0 c h0 hrun x it hit
    simp only [runWhile, Option.some.injEq] at hrun
    subst hrun
    simpa [addedBlocks] using h0 x it hit
  | cons op ops ih =>
    intro L c0 c h0 hrun x it hit
    obtain ⟨c1, out, hs, _, hr⟩ := runWhile_cons keep c0 c op ops hrun
    cases op with
    | add b =>
      simp only [step, Option.some.injEq, Prod.mk.injEq] at hs
      have h1 : ∀ y ity, c1.items y = some ity → ity.blk ∈ L ++ [b] ∧ ity.blk.id = y := by
        intro y ity hy
        rw [← hs.1] at hy
        by_cases hnew : Present c0 b
        · rw [Add_present c0 b hnew] at hy
          obtain ⟨h2, h3⟩ := h0 y ity hy
          exact ⟨List.mem_append_left _ h2, h3⟩
        · rw [Add_new_items c0 b hnew] at hy
          by_cases hyb : y = b.id
          · subst hyb
            simp only [mapSet, if_true, Option.some.injEq] at hy
            subst hy
            exact ⟨by simp, rfl⟩
          · simp only [mapSet, hyb, if_false] at hy
            obtain ⟨h2, h3⟩ := h0 y ity hy
            exact ⟨List.mem_append_left _ h2, h3⟩
      have := ih (L ++ [b]) c1 c h1 hr x it hit
      simpa [addedBlocks] using this
    | verfied blkID success =>
      simp only [step] at hs
      have hsb := Verfied_sameBlocks c0 c1 blkID success out hs
      have h1 : ∀ y ity, c1.items y = some ity → ity.blk ∈ L ∧ ity.blk.id = y := by
        intro y ity hy
        obtain ⟨it0, h2, h3⟩ := hsb.item_back y ity hy
        rw [← h3]
        exact h0 y it0 h2
      have := ih L c1 c h1 hr x it hit
      simpa [addedBlocks] using this
    | setMin k =>
      simp only [step, Option.some.injEq, Prod.mk.injEq] at hs
      have h1 : ∀ y ity, c1.items y = some ity → ity.blk ∈ L ∧ ity.blk.id = y := by
        intro y ity hy
        rw [← hs.1] at hy
        rcases SetMinLoop_items k c0.bh.length c0 [] y with h2 | h2
        · simp only [SetMin] at hy
          rw [h2] at hy
          cases hy
        · simp only [SetMin] at hy
          rw [h2] at hy
          exact h0 y ity hy
      have := ih L c1 c h1 hr x it hit
      simpa [addedBlocks] using this

/-- Every item of a store reached from the empty store holds, under its own
id, a block that one of the calls added. -/
theorem run_blocks (ops : List Op) (c : TxBlockMap) (hrun : run NewTxBlockMap ops = some c)
    (x : Nat) (it : blkItem) (hit : c.items x = some it) :
    it.blk ∈ addedBlocks ops ∧ it.blk.id = x := by
  have := runWhile_blocks _ ops [] NewTxBlockMap c
    (by intro y ity hy; simp [NewTxBlockMap] at hy) hrun x it hit
  simpa using this

/-- The blocks of the example chain. -/
theorem exChain_blocks (x : Nat) (it : blkItem) (hit : exChain.items x = some it) :
    (it.blk = exP ∨ it.blk = exX ∨ it.blk = exY) ∧ it.blk.id = x := by
  have := run_blocks [.add exP, .verfied 1 true, .add exX, .add exY] exChain rfl x it hit
  simpa [addedBlocks] using this

/-! ### Nothing to verify in a store without flags -/

theorem NoFlags_new : NoFlags NewTxBlockMap := by
  intro x it h
  simp [NewTxBlockMap] at h

/-- In a store without flags `Add` hands nothing out and sets no flag. -/
theorem NoFlags.add_quiet {c : TxBlockMap} (h : NoFlags c) (b : TxBlock) :
    (Add c b).2.2 = false ∧ NoFlags (Add c b).1 := by
  have hsv : (Add c b).2.2 = false := by
    cases hv : (Add c b).2.2 with
    | false => rfl
    | true =>
      obtain ⟨_, _, it, hit, hver⟩ := (Add_flag c b).mp hv
      rw [(h b.Prnt it hit).2] at hver
      cases hver
  refine ⟨hsv, ?_⟩
  intro x it hit
  by_cases hnew : Present c b
  · rw [Add_present c b hnew] at hit
    exact h x it hit
  · rw [Add_new_items c b hnew, hsv] at hit
    by_cases hx : x = b.id
    · subst hx
      simp only [mapSet, if_true, Option.some.injEq] at hit
      subst hit
      exact ⟨rfl, rfl⟩
    · simp only [mapSet, hx, if_false] at hit
      exact h x it hit

/-- `SetMin` sets no flag. -/
theorem NoFlags.setMin_quiet {c : TxBlockMap} (h : NoFlags c) (k : Nat) :
    NoFlags (SetMin c k).1 := by
  intro x it hit
  rcases SetMinLoop_items k c.bh.length c [] x with h1 | h1
  · simp only [SetMin] at hit
    rw [h1] at hit
    cases hit
  · simp only [SetMin] at hit
    rw [h1] at hit
    exact h x it hit

/-- A disciplined call on a store without flags, while nothing has been
handed out: it is not a call of `Verfied`, it returns, it hands nothing out and
it sets no flag. -/
theorem NoFlags.step_quiet {c : TxBlockMap} (h : NoFlags c) (op : Op)
    (hop : ∀ blkID success, op = .verfied blkID success → blkID ∈ ([] : List Nat)) :
    (∀ blkID success, op ≠ .verfied blkID success) ∧
    (∀ b, op = .add b → (Add c b).2.2 = false) ∧
    ∃ c1, TxBlockManager.step c op = some (c1, []) ∧ NoFlags c1 := by
  cases op with
  | add b =>
    obtain ⟨hsv, hnf⟩ := h.add_quiet b
    refine ⟨fun _ _ hc => (by cases hc), ?_, (Add c b).1, ?_, hnf⟩
    · intro b1 hb1
      cases hb1
      exact hsv
    · simp [TxBlockManager.step, hsv]
  | verfied blkID success =>
    exact absurd (hop blkID success rfl) (List.not_mem_nil _)
  | setMin k =>
    exact ⟨fun _ _ hc => (by cases hc), fun _ hc => (by cases hc), (SetMin c k).1,
      by simp [TxBlockManager.step], h.setMin_quiet k⟩

/-- A disciplined sequence of calls on a store without flags, while nothing has
been handed out, runs to the end without a fault and leaves a store without
flags; each of its calls is met in a store without flags, is not a call of
`Verfied`, hands nothing out and sets no flag. -/
theorem NoFlags.run_quiet :
    ∀ (ops : List Op) (c : TxBlockMap), NoFlags c → Disciplined c [] ops →
      (∃ c2, TxBlockManager.run c ops = some c2 ∧ NoFlags c2) ∧
      ∀ pre op post, ops = pre ++ op :: post →
        ∃ c0 c1, TxBlockManager.run c pre = some c0 ∧ NoFlags c0 ∧
          TxBlockManager.step c0 op = some (c1, []) ∧ NoFlags c1 ∧
          (∀ blkID success, op ≠ .verfied blkID success) ∧
          ∀ b, op = .add b → (Add c0 b).2.2 = false := by
  intro ops
  induction ops with
  | nil =>
    intro c h _
    refine ⟨⟨c, rfl, h⟩, ?_⟩
    intro pre op post hsplit
    exact absurd hsplit (by simp)
  | cons op0 ops ih =>
    intro c h hd
    obtain ⟨hop, hrest⟩ := hd
    obtain ⟨hnv, hadd, c1, hs, hnf⟩ := h.step_quiet op0 hop
    rw [hs] at hrest
    simp only [List.append_nil] at hrest
    obtain ⟨⟨c2, hrun, hnf2⟩, hcalls⟩ := ih c1 hnf hrest
    have hrun1 : ∀ (l : List Op) (r : Option TxBlockMap), TxBlockManager.run c1 l = r →
        TxBlockManager.run c (op0 :: l) = r := by
      intro l r hr
      simp only [TxBlockManager.run, runWhile, hs, if_true]
      exact hr
    refine ⟨⟨c2, hrun1 ops _ hrun, hnf2⟩, ?_⟩
    intro pre op post hsplit
    cases pre with
    | nil =>
      simp only [List.nil_append, List.cons.injEq] at hsplit
      obtain ⟨h1, _⟩ := hsplit
      subst h1
      exact ⟨c, c1, rfl, h, hs, hnf, hnv, hadd⟩
    | cons p pre =>
      simp only [List.cons_append, List.cons.injEq] at hsplit
      obtain ⟨h1, h2⟩ := hsplit
      subst h1
      obtain ⟨c0, c3, hr0, hn0, hs0, hn3, hnv0, hadd0⟩ := hcalls pre op post h2
      exact ⟨c0, c3, hrun1 pre _ hr0, hn0, hs0, hn3, hnv0, hadd0⟩

end TxBlockManager

namespace Auth

/-! ### Batches of signatures -/

theorem batchAdd_length :
    ∀ (mem : List (List Signed)) (p : Nat) (t : Signed), (batchAdd mem p t).length = mem.length := by
  intro mem
  induction mem with
  | nil => intro p t; rfl
  | cons b rest ih =>
    intro p t
    cases p with
    | zero => rfl
    | succ p => simp [batchAdd, ih]

theorem batchAt_batchAdd_same :
    ∀ (mem : List (List Signed)) (p : Nat) (t : Signed), p < mem.length →
      batchAt (batchAdd mem p t) p = batchAt mem p ++ [t] := by
  intro mem
  induction mem with
  | nil => intro p t h; simp at h
  | cons b rest ih =>
    intro p t h
    cases p with
    | zero => simp [batchAdd, batchAt]
    | succ p =>
      have := ih p t (by simpa using h)
      simpa [batchAdd, batchAt] using this

theorem batchAt_batchAdd_other :
    ∀ (mem : List (List Signed)) (p q : Nat) (t : Signed), q ≠ p →
      batchAt (batchAdd mem p t) q = batchAt mem q := by
  intro mem
  induction mem with
  | nil => intro p q t _; rfl
  | cons b rest ih =>
    intro p q t h
    cases p with
    | zero =>
      cases q with
      | zero => exact absurd rfl h
      | succ q => simp [batchAdd, batchAt]
    | succ p =>
      cases q with
      | zero => simp [batchAdd, batchAt]
      | succ q =>
        have := ih p q t (by omega)
        simpa [batchAdd, batchAt] using this

/-- A call of `Add` on a batch removes no triple from any batch. -/
theorem batchAdd_keeps (mem : List (List Signed)) (p q : Nat) (t s : Signed)
    (h : s ∈ batchAt mem q) : s ∈ batchAt (batchAdd mem p t) q := by
  by_cases hq : q = p
  · subst hq
    by_cases hl : q < mem.length
    · rw [batchAt_batchAdd_same mem q t hl]
      exact List.mem_append_left _ h
    · have : batchAt mem q = [] := by
        unfold batchAt
        exact List.getD_eq_default _ _ (Nat.le_of_not_lt hl)
      rw [this] at h
      simp at h
  · rw [batchAt_batchAdd_other mem p q t hq]
    exact h

/-- Allocating a batch changes no batch. -/
theorem batchAt_NewBatch (mem : List (List Signed)) (q : Nat) :
    batchAt (NewBatch mem).1 q = batchAt mem q := by
  simp only [NewBatch, batchAt]
  by_cases hq : q < mem.length
  · rw [List.getD_eq_getElem _ _ (by simp; omega), List.getD_eq_getElem _ _ hq]
    exact List.getElem_append_left hq
  · rw [List.getD_eq_default _ _ (Nat.le_of_not_lt hq)]
    by_cases hq1 : q = mem.length
    · subst hq1
      simp
    · rw [List.getD_eq_default _ _ (by simp; omega)]

theorem sinceReturn_none (rets : List (Option Nat)) :
    sinceReturn (rets ++ [none]) = sinceReturn rets + 1 := by
  simp [sinceReturn, List.takeWhile]

theorem sinceReturn_some (rets : List (Option Nat)) (p : Nat) :
    sinceReturn (rets ++ [some p]) = 0 := by
  simp [sinceReturn, List.takeWhile]

/-- A call of `Add` on a verifier without a batch is a call on the verifier
with a batch just allocated. -/
theorem Add_without_batch (mem : List (List Signed)) (b : ED25519Batch) (msg : List Nat)
    (auth : ED25519) (hb : b.batch = none) :
    ED25519Batch.Add mem b msg auth =
      ED25519Batch.Add (NewBatch mem).1 { b with batch := some (NewBatch mem).2 } msg auth := by
  unfold ED25519Batch.Add
  simp only [hb]

/-- One call of `Add` on a verifier with a current batch. -/
theorem Covered.add_current {mem : List (List Signed)} {b : ED25519Batch}
    {rets : List (Option Nat)} {added : List Signed} (cur : Nat)
    (hcount : b.counter = (sinceReturn rets : Int)) (hb : b.batch = some cur)
    (hlt : cur < mem.length)
    (hall : ∀ t ∈ added, ∃ p, (p = cur ∨ some p ∈ rets) ∧ t ∈ batchAt mem p)
    (msg : List Nat) (auth : ED25519) :
    Covered (ED25519Batch.Add mem b msg auth).1 (ED25519Batch.Add mem b msg auth).2.1
      (rets ++ [(ED25519Batch.Add mem b msg auth).2.2])
      (added ++ [⟨msg, auth.Signer, auth.Signature⟩]) ∧
    (ED25519Batch.Add mem b msg auth).2.1.batchSize = b.batchSize ∧
    (ED25519Batch.Add mem b msg auth).2.1.batch ≠ none ∧
    ((ED25519Batch.Add mem b msg auth).2.2.isSome = true ↔
      (sinceReturn rets : Int) + 1 = b.batchSize) := by
  have hlt1 : cur < (batchAdd mem cur ⟨msg, auth.Signer, auth.Signature⟩).length := by
    rw [batchAdd_length]; exact hlt
  have hnew : (⟨msg, auth.Signer, auth.Signature⟩ : Signed) ∈
      batchAt (batchAdd mem cur ⟨msg, auth.Signer, auth.Signature⟩) cur := by
    rw [batchAt_batchAdd_same mem cur _ hlt]
    simp
  have hold : ∀ t ∈ added, ∃ p, (p = cur ∨ some p ∈ rets) ∧
      t ∈ batchAt (batchAdd mem cur ⟨msg, auth.Signer, auth.Signature⟩) p := by
    intro t ht
    obtain ⟨p, hp, hin⟩ := hall t ht
    exact ⟨p, hp, batchAdd_keeps mem cur p _ t hin⟩
  unfold ED25519Batch.Add
  simp only [hb]
  by_cases hfull : b.counter + 1 = b.batchSize
  · simp only [hfull, if_true]
    have hiff : (sinceReturn rets : Int) + 1 = b.batchSize := by rw [← hcount]; exact hfull
    by_cases hmore : b.totalCounter + 1 < b.total
    · simp only [hmore, if_true]
      refine ⟨⟨by simp [sinceReturn_some], Or.inr ⟨_, rfl, by simp [NewBatch], ?_⟩⟩,
        trivial, by simp, by simp [hiff]⟩
      intro t ht
      rcases List.mem_append.mp ht with h1 | h1
      · obtain ⟨p, hp, hin⟩ := hold t h1
        refine ⟨p, Or.inr ?_, by rw [batchAt_NewBatch]; exact hin⟩
        rcases hp with hp | hp
        · simp [hp]
        · simp [hp]
      · rw [List.mem_singleton] at h1
        subst h1
        exact ⟨cur, Or.inr (by simp), by rw [batchAt_NewBatch]; exact hnew⟩
    · simp only [hmore, if_false]
      refine ⟨⟨by simp [sinceReturn_some], Or.inr ⟨cur, rfl, hlt1, ?_⟩⟩,
        trivial, by simp, by simp [hiff]⟩
      intro t ht
      rcases List.mem_append.mp ht with h1 | h1
      · obtain ⟨p, hp, hin⟩ := hold t h1
        refine ⟨p, ?_, hin⟩
        rcases hp with hp | hp
        · exact Or.inl hp
        · exact Or.inr (by simp [hp])
      · rw [List.mem_singleton] at h1
        subst h1
        exact ⟨cur, Or.inl rfl, hnew⟩
  · simp only [hfull, if_false]
    have hiff : ¬ (sinceReturn rets : Int) + 1 = b.batchSize := by rw [← hcount]; exact hfull
    refine ⟨⟨by simp [sinceReturn_none, hcount], Or.inr ⟨cur, rfl, hlt1, ?_⟩⟩,
      trivial, by simp, by simp [hiff]⟩
    intro t ht
    rcases List.mem_append.mp ht with h1 | h1
    · obtain ⟨p, hp, hin⟩ := hold t h1
      refine ⟨p, ?_, hin⟩
      rcases hp with hp | hp
      · exact Or.inl hp
      · exact Or.inr (by simp [hp])
    · rw [List.mem_singleton] at h1
      subst h1
      exact ⟨cur, Or.inl rfl, hnew⟩

/-- One call of `Add`: it keeps `Covered`, keeps the batch size, leaves a
current batch, and returns a function exactly when the counter reaches the
batch size. -/
theorem Covered.add_call {mem : List (List Signed)} {b : ED25519Batch}
    {rets : List (Option Nat)} {added : List Signed} (h : Covered mem b rets added)
    (msg : List Nat) (auth : ED25519) :
    Covered (ED25519Batch.Add mem b msg auth).1 (ED25519Batch.Add mem b msg auth).2.1
      (rets ++ [(ED25519Batch.Add mem b msg auth).2.2])
      (added ++ [⟨msg, auth.Signer, auth.Signature⟩]) ∧
    (ED25519Batch.Add mem b msg auth).2.1.batchSize = b.batchSize ∧
    (ED25519Batch.Add mem b msg auth).2.1.batch ≠ none ∧
    ((ED25519Batch.Add mem b msg auth).2.2.isSome = true ↔
      (sinceReturn rets : Int) + 1 = b.batchSize) := by
  obtain ⟨hcount, hcov⟩ := h
  rcases hcov with ⟨hn, ha, _⟩ | ⟨cur, hc, hlt, hall⟩
  · rw [Add_without_batch mem b msg auth hn]
    have hnone : ∀ t ∈ added, ∃ p, (p = (NewBatch mem).2 ∨ some p ∈ rets) ∧
        t ∈ batchAt (NewBatch mem).1 p := by
      intro t ht
      rw [ha] at ht
      simp at ht
    exact @Covered.add_current (NewBatch mem).1 { b with batch := some (NewBatch mem).2 }
      rets added (NewBatch mem).2 hcount rfl (by simp [NewBatch]) hnone msg auth
  · exact Covered.add_current cur hcount hc hlt hall msg auth

/-- A sequence of calls of `Add` keeps `Covered` and the batch size. -/
theorem Covered.add_calls :
    ∀ (calls : List (List Nat × ED25519)) (mem : List (List Signed)) (b : ED25519Batch)
      (rets : List (Option Nat)) (added : List Signed), Covered mem b rets added →
      Covered (Auth.addAll mem b calls).1 (Auth.addAll mem b calls).2.1
        (rets ++ (Auth.addAll mem b calls).2.2) (added ++ calls.map signedOf) ∧
      (Auth.addAll mem b calls).2.1.batchSize = b.batchSize ∧
      (calls ≠ [] → (Auth.addAll mem b calls).2.1.batch ≠ none) := by
  intro calls
  induction calls with
  | nil =>
    intro mem b rets added h
    simpa [Auth.addAll] using h
  | cons call rest ih =>
    intro mem b rets added h
    obtain ⟨msg, auth⟩ := call
    obtain ⟨h1, h2, h3, _⟩ := h.add_call msg auth
    obtain ⟨h4, h5, h6⟩ := ih _ _ _ _ h1
    simp only [Auth.addAll, List.map_cons]
    refine ⟨?_, by rw [h5, h2], ?_⟩
    · have e1 : rets ++ (ED25519Batch.Add mem b msg auth).2.2 ::
          (Auth.addAll (ED25519Batch.Add mem b msg auth).1
            (ED25519Batch.Add mem b msg auth).2.1 rest).2.2 =
          rets ++ [(ED25519Batch.Add mem b msg auth).2.2] ++
            (Auth.addAll (ED25519Batch.Add mem b msg auth).1
              (ED25519Batch.Add mem b msg auth).2.1 rest).2.2 := by simp
      have e2 : added ++ signedOf (msg, auth) :: List.map signedOf rest =
          added ++ [⟨msg, auth.Signer, auth.Signature⟩] ++ List.map signedOf rest := by
        simp [signedOf]
      rw [e1, e2]
      exact h4
    · intro _
      by_cases hr : rest = []
      · subst hr
        simpa [Auth.addAll] using h3
      · exact h6 hr

end Auth

namespace TxBlockManager

/-! ## The claims -/

/-- C1.  Parent before child: when `Add` returns `should_verify` for a block,
the item of the block's parent is in the store, before and after the call, with
`verified` set; and every id in the list that `Verfied(p, success)` returns
comes from a call with `success = true`, belongs to a block whose parent is
`p`, and the item of `p` has `verified` set when the call returns. -/
theorem parent_before_child (c : TxBlockMap) :
    (∀ b, (Add c b).2.2 = true →
      ∃ it, c.items b.Prnt = some it ∧ (Add c b).1.items b.Prnt = some it ∧
        it.verified = true) ∧
    (∀ p success c1 out x, Verfied c p success = some (c1, out) → x ∈ out →
      success = true ∧
      ∃ itx itp, c1.items x = some itx ∧ itx.blk.Prnt = p ∧
        c1.items p = some itp ∧ itp.verified = true) := by
  constructor
  · intro b hsv
    obtain ⟨hnew, hne, it, hit, hv⟩ := (Add_flag c b).mp hsv
    refine ⟨it, hit, ?_, hv⟩
    rw [Add_new_items c b hnew]
    simp [mapSet, hne, hit]
  · intro p success c1 out x h hx
    obtain ⟨blk, hb⟩ := Verfied_some c c1 p success out h
    cases success with
    | false =>
      rw [Verfied_false c p blk hb] at h
      simp only [Option.some.injEq, Prod.mk.injEq] at h
      rw [← h.2] at hx
      simp at hx
    | true =>
      obtain ⟨_, _, _, _, hout, hcl, hoth, _⟩ := Verfied_true_spec c c1 p blk out hb h
      refine ⟨rfl, ?_⟩
      obtain ⟨q, _, _, itx, hitx, hpr, _⟩ := (hout x).mp hx
      have hx1 := hcl x itx hx hitx
      have hp1 : ∃ itp, c1.items p = some itp ∧ itp.verified = true := by
        by_cases hpo : p ∈ out
        · have := hcl p ({ blk with verifying := false, verified := true }) hpo
            (by simp [mapSet])
          exact ⟨_, this, rfl⟩
        · have := hoth p hpo
          simp only [mapSet, if_true] at this
          exact ⟨_, this, rfl⟩
      obtain ⟨itp, hitp, hvp⟩ := hp1
      exact ⟨_, itp, hx1, hpr, hitp, hvp⟩

/-- The first part of `parent_before_child` on the block `exX`, added after its
parent `exP` has been verified. -/
theorem parent_before_child_witness :
    (Add (storeAfter [.add exP, .verfied 1 true]) exX).2.2 = true ∧
    ∃ it, (storeAfter [.add exP, .verfied 1 true]).items exX.Prnt = some it ∧
      (Add (storeAfter [.add exP, .verfied 1 true]) exX).1.items exX.Prnt = some it ∧
      it.verified = true :=
  ⟨by decide,
   (parent_before_child (storeAfter [.add exP, .verfied 1 true])).1 exX (by decide)⟩

/-- C2.  At most one verification in flight.  (1) When `Add` returns
`should_verify`, the item it has just created had `verifying = false` before
the compare-and-swap and has `verifying = true` afterwards.  (2) Every id in
the list `Verfied` returns had `verifying = false` in the store that is
scanned (the store before the call, except for the flags of the id the call
was made on), and has `verifying = true` when the call returns.  (3) That
list contains no id twice.  (4) In a sequence of calls from the empty store
whose blocks have the height their id determines, if a call hands out `x`,
the calls `mid` follow and keep `x` in the store, and the next call hands
out `x` again, then `mid` contains a call `Verfied(x, _)`. -/
theorem one_in_flight (c : TxBlockMap) :
    (∀ b, (Add c b).2.2 = true →
      (addInsert c b).items b.id = some ⟨b, false, false⟩ ∧
      (Add c b).1.items b.id = some ⟨b, true, false⟩) ∧
    (∀ p success c1 out x, Verfied c p success = some (c1, out) → x ∈ out →
      ∃ cm blk it, markItem c p success = some (cm, blk) ∧
        cm.items x = some it ∧ it.verifying = false ∧
        c1.items x = some ⟨it.blk, true, it.verified⟩ ∧
        (x ≠ p → c.items x = some it)) ∧
    (∀ p success c1 out, Verfied c p success = some (c1, out) → out.Nodup) ∧
    (∀ (hgt : Nat → Nat) (pre mid : List Op) (op1 op2 : Op)
        (c0 c1 c2 c3 : TxBlockMap) (out1 out2 : List Nat) (x : Nat),
      Respects hgt (pre ++ op1 :: (mid ++ [op2])) →
      run NewTxBlockMap pre = some c0 →
      step c0 op1 = some (c1, out1) → x ∈ out1 →
      runWhile (holds x) c1 mid = some c2 →
      step c2 op2 = some (c3, out2) → x ∈ out2 →
      ∃ s, Op.verfied x s ∈ mid) := by
  refine ⟨?_, ?_, ?_, ?_⟩
  · intro b hsv
    have hnew := ((Add_flag c b).mp hsv).1
    refine ⟨by rw [addInsert_items]; simp [mapSet], ?_⟩
    rw [Add_new_items c b hnew, hsv]
    simp [mapSet]
  · intro p success c1 out x h hx
    obtain ⟨blk, hb⟩ := Verfied_some c c1 p success out h
    cases success with
    | false =>
      rw [Verfied_false c p blk hb] at h
      simp only [Option.some.injEq, Prod.mk.injEq] at h
      rw [← h.2] at hx
      simp at hx
    | true =>
      obtain ⟨_, _, _, _, hout, hcl, _, _⟩ := Verfied_true_spec c c1 p blk out hb h
      obtain ⟨_, _, _, it, hit, _, hvf⟩ := (hout x).mp hx
      refine ⟨_, _, it, markItem_true c p blk hb, hit, hvf, hcl x it hx hit, ?_⟩
      intro hne
      simpa [mapSet, hne] using hit
  · intro p success c1 out h
    obtain ⟨blk, hb⟩ := Verfied_some c c1 p success out h
    cases success with
    | false =>
      rw [Verfied_false c p blk hb] at h
      simp only [Option.some.injEq, Prod.mk.injEq] at h
      rw [← h.2]
      exact List.nodup_nil
    | true => exact (Verfied_true_spec c c1 p blk out hb h).2.2.2.2.2.2.2
  · intro hgt pre mid op1 op2 c0 c1 c2 c3 out1 out2 x hres hpre hs1 hx1 hmid hs2 hx2
    by_contra hno
    have hno1 : ∀ s, Op.verfied x s ∉ mid := fun s hs => hno ⟨s, hs⟩
    have hres1 : Respects hgt (op1 :: (mid ++ [op2])) := hres.right
    have hI0 : Inv hgt c0 := Inv.reach hres.left hpre
    have hI1 : Inv hgt c1 := hI0.step op1 out1 hres1.head hs1
    have hfl1 : InFlight x c1 := handout_inFlight c0 c1 op1 out1 x hs1 hx1
    obtain ⟨hI2, hfl2⟩ := inFlight_run x mid c1 c2 hI1 hfl1 hres1.tail.left hno1 hmid
    have hop2 : ∀ b, op2 = .add b → b.Hght = hgt b.id := by
      intro b hb
      exact hres1.tail.right b (by rw [hb]; simp)
    by_cases hv : ∃ s, op2 = .verfied x s
    · obtain ⟨s, hs⟩ := hv
      subst hs
      exact verfied_not_self hI2 x s out2 hs2 hx2
    · have hnv : ∀ s, op2 ≠ .verfied x s := fun s hs => hv ⟨s, hs⟩
      exact (inFlight_step hI2 x hfl2 op2 out2 hop2 hnv hs2).1 hx2

/-- The last part of `one_in_flight` on the calls `Add(exP)`, `Verfied(1, true)`,
`Add(exX)`, `Verfied(2, false)`, `Verfied(1, true)`: the id 2 is handed out by
the third and by the fifth call. -/
theorem one_in_flight_witness :
    ∃ s, Op.verfied 2 s ∈ [Op.verfied 2 false] :=
  (one_in_flight NewTxBlockMap).2.2.2 exHgt [.add exP, .verfied 1 true] [.verfied 2 false]
    (.add exX) (.verfied 1 true)
    (storeAfter [.add exP, .verfied 1 true])
    (storeAfter [.add exP, .verfied 1 true, .add exX])
    (storeAfter [.add exP, .verfied 1 true, .add exX, .verfied 2 false])
    (storeAfter [.add exP, .verfied 1 true, .add exX, .verfied 2 false, .verfied 1 true])
    [2] [2] 2
    (respects_of_respectsB _ _ (by decide))
    rfl rfl (by decide) rfl rfl (by decide)

/-- C3.  The code does not do what the claim says.  `Verify` returns `nil` on
every path, also when `ChildState` or the block's `Verify` return an error, so
`VerifyAll` never calls `Verfied(id, false)`.  Take the store in which `exP` is
verified, its child `exX` has been handed out by `Add`, and `exY`, the child of
`exX`, is waiting, and a verify step that always fails: the round of
`VerifyAll` on the id of `exX` marks `exX` verified and puts `exY` on the next
frontier. -/
theorem failed_verification_cascades :
    (∀ (S E : Type) (ChildState : TxBlock → Nat → Except E S)
        (blkVerify : TxBlock → S → Option E) (c : TxBlockMap) (blkID : Nat) (r : Option E),
      Verify ChildState blkVerify c blkID = some r → r = none) ∧
    (Add (storeAfter [.add exP, .verfied 1 true]) exX).2 = (true, true) ∧
    (verifyRound (fun _ _ => Except.ok ()) (fun _ _ => some ()) [2]
        (storeAfter [.add exP, .verfied 1 true, .add exX, .add exY]) []).map
      (fun r => (r.2, (r.1.items 2).map blkItem.verified,
        (r.1.items 2).map blkItem.verifying)) = some ([3], some true, some false) := by
  refine ⟨?_, ?_, ?_⟩
  · intro S E ChildState blkVerify c blkID r h
    unfold Verify at h
    simp only at h
    cases hg : Get c blkID with
    | none => rw [hg] at h; simp at h
    | some blk =>
      rw [hg] at h
      simp only at h
      cases hc : ChildState blk (blk.Txs.length * 2) with
      | error e => rw [hc] at h; simp at h; exact h.symm
      | ok s =>
        rw [hc] at h
        simp only at h
        cases hv : blkVerify blk s with
        | none => rw [hv] at h; simp at h; exact h.symm
        | some e => rw [hv] at h; simp at h; exact h.symm
  · decide
  · decide

/-- C4.  `Add` of a block that is not yet in the bucket of its height returns
`added = true`; `should_verify` is true exactly when the parent has an item
with `verified` set in the store in which `Add` looks it up (the fresh item
already registered), which is the store before the call unless the block is its
own parent and its id already has an item.  Afterwards the item of the block is
fresh with `verified = false` and `verifying = should_verify`, every other
item is unchanged, the id is in the bucket of its height, and a bucket and a
heap entry have been created exactly when there was no bucket at that
height. -/
theorem add_new_block (c : TxBlockMap) (b : TxBlock) (hnew : ¬ Present c b) :
    (Add c b).2.1 = true ∧
    ((Add c b).2.2 = true ↔
      ∃ it, (addInsert c b).items b.Prnt = some it ∧ it.verified = true) ∧
    (b.Prnt ≠ b.id ∨ c.items b.id = none →
      ((Add c b).2.2 = true ↔ ∃ it, c.items b.Prnt = some it ∧ it.verified = true)) ∧
    (Add c b).1.items b.id = some ⟨b, (Add c b).2.2, false⟩ ∧
    (∀ x, x ≠ b.id → (Add c b).1.items x = c.items x) ∧
    (∃ p, (Add c b).1.heights b.Hght = some p ∧ b.id ∈ ((Add c b).1.mem p).items) ∧
    (∀ k, k ≠ b.Hght → (Add c b).1.heights k = c.heights k) ∧
    (c.heights b.Hght = none →
      (Add c b).1.bh = heapPush c.bh ⟨b.id, b.Hght, c.next⟩ ∧
      (Add c b).1.bh.length = c.bh.length + 1 ∧
      (Add c b).1.heights b.Hght = some c.next ∧
      (Add c b).1.mem c.next = ⟨b.Hght, [b.id]⟩) ∧
    (∀ p, c.heights b.Hght = some p →
      (Add c b).1.bh = c.bh ∧ (Add c b).1.heights = c.heights ∧
      (Add c b).1.mem p = ⟨(c.mem p).h, (c.mem p).items ++ [b.id]⟩) := by
  obtain ⟨hm, _, hb, hh⟩ := Add_new_rest c b hnew
  have hitems := Add_new_items c b hnew
  refine ⟨?_, ?_, ?_, ?_, ?_, ?_, ?_, ?_, ?_⟩
  · rw [Add_new c b hnew]
  · rw [Add_new c b hnew]; exact addVerify_flag _ _
  · intro hside
    rw [Add_flag]
    constructor
    · rintro ⟨_, _, h⟩; exact h
    · rintro ⟨it, hit, hv⟩
      refine ⟨hnew, ?_, it, hit, hv⟩
      intro heq
      rcases hside with h | h
      · exact h heq
      · rw [heq, h] at hit; cases hit
  · rw [hitems]; simp [mapSet]
  · intro x hx; rw [hitems]; simp [mapSet, hx]
  · rw [hh, hm]
    unfold addInsert
    cases hp : c.heights b.Hght with
    | none => exact ⟨c.next, by simp [mapSet], by simp [memSet]⟩
    | some p =>
      refine ⟨p, by simp [hp], ?_⟩
      simp only [memSet, setAdd, if_true]
      split <;> simp [*]
  · intro k hk
    rw [hh]
    unfold addInsert
    cases hp : c.heights b.Hght with
    | none => simp [mapSet, hk]
    | some p => rfl
  · intro hnone
    rw [hb, hh, hm]
    unfold addInsert
    simp [hnone, mapSet, memSet, heapPush]
  · intro p hp
    have hnot : b.id ∉ (c.mem p).items := fun h => hnew ⟨p, hp, h⟩
    rw [hb, hh, hm]
    unfold addInsert
    simp [hp, memSet, setAdd, hnot]

/-- The block `exX` is new in the store that holds its verified parent; `Add`
returns `(true, true)`. -/
theorem add_new_block_witness :
    ¬ Present (storeAfter [.add exP, .verfied 1 true]) exX ∧
    (Add (storeAfter [.add exP, .verfied 1 true]) exX).2 = (true, true) ∧
    (Add (storeAfter [.add exP, .verfied 1 true]) exX).1.items 2
      = some ⟨exX, (Add (storeAfter [.add exP, .verfied 1 true]) exX).2.2, false⟩ := by
  have hnew : ¬ Present (storeAfter [.add exP, .verfied 1 true]) exX := by
    rintro ⟨p, hp, _⟩
    have hnone : (storeAfter [.add exP, .verfied 1 true]).heights exX.Hght = none := by
      decide
    rw [hnone] at hp
    cases hp
  exact ⟨hnew, by decide,
    (add_new_block (storeAfter [.add exP, .verfied 1 true]) exX hnew).2.2.2.1⟩

/-- C5.  For an id of the store with a block of height `H`, in a store whose
bucket at height `H + 1` (in `uint64` arithmetic) lists only ids that have an
item of that height, `Verfied(id, true)` returns; it sets `verified` and clears
`verifying` on the item of `id`; the list it returns holds, once each, exactly
the ids of the bucket at height `H + 1` whose parent is `id` and whose
`verifying` flag was false before the call; it sets `verifying` on exactly
those ids and leaves every other item, buckets and heap as they were. -/
theorem cascade_set (c : TxBlockMap) (id : Nat) (blk : blkItem)
    (hid : c.items id = some blk)
    (hsound : BucketSound c ((blk.blk.Hght + 1) % u64)) :
    ∃ c1 out, Verfied c id true = some (c1, out) ∧
      c1.items id = some { blk with verifying := false, verified := true } ∧
      (∀ x, x ∈ out ↔ ∃ p it, c.heights ((blk.blk.Hght + 1) % u64) = some p ∧
          x ∈ (c.mem p).items ∧ c.items x = some it ∧ it.blk.Prnt = id ∧
          it.verifying = false) ∧
      out.Nodup ∧
      (∀ x it, x ∈ out → c.items x = some it →
          c1.items x = some { it with verifying := true }) ∧
      (∀ x, x ∉ out → x ≠ id → c1.items x = c.items x) ∧
      (∀ x it, c.items x = some it → x ≠ id →
          it.blk.Prnt ≠ id ∨ it.verifying = true → c1.items x = some it) ∧
      c1.mem = c.mem ∧ c1.heights = c.heights ∧ c1.bh = c.bh ∧ c1.next = c.next := by
  have hall : ∀ p, c.heights ((blk.blk.Hght + 1) % u64) = some p →
      ∀ x ∈ (c.mem p).items, c.items x ≠ none := by
    intro p hp x hx
    obtain ⟨it, hit, _⟩ := hsound p hp x hx
    simp [hit]
  obtain ⟨c1, out, hv⟩ := Verfied_returns c id blk hid hall
  obtain ⟨hm, hn, hbh, hh, hout, hcl, hoth, hnd⟩ := Verfied_true_spec c c1 id blk out hid hv
  -- the id itself is not in the bucket one height up
  have hne : ∀ p, c.heights ((blk.blk.Hght + 1) % u64) = some p →
      ∀ x ∈ (c.mem p).items, x ≠ id := by
    intro p hp x hx hxid
    obtain ⟨it, hit, hht⟩ := hsound p hp x hx
    rw [hxid, hid] at hit
    cases hit
    exact succ_mod_ne _ hht.symm
  have hout1 : ∀ x, x ∈ out ↔ ∃ p it, c.heights ((blk.blk.Hght + 1) % u64) = some p ∧
      x ∈ (c.mem p).items ∧ c.items x = some it ∧ it.blk.Prnt = id ∧
      it.verifying = false := by
    intro x
    rw [hout]
    constructor
    · rintro ⟨p, hp, hx, it, hit, hpr, hvf⟩
      have hxid := hne p hp x hx
      simp only [mapSet, hxid, if_false] at hit
      exact ⟨p, it, hp, hx, hit, hpr, hvf⟩
    · rintro ⟨p, it, hp, hx, hit, hpr, hvf⟩
      have hxid := hne p hp x hx
      exact ⟨p, hp, hx, it, by simp [mapSet, hxid, hit], hpr, hvf⟩
  have hidout : id ∉ out := by
    intro h
    obtain ⟨p, _, hp, hx, _⟩ := (hout1 id).mp h
    exact hne p hp id hx rfl
  have hrest : ∀ x, x ∉ out → x ≠ id → c1.items x = c.items x := by
    intro x hx hxid
    rw [hoth x hx]
    simp [mapSet, hxid]
  refine ⟨c1, out, hv, ?_, hout1, hnd, ?_, hrest, ?_, hm, hh, hbh, hn⟩
  · rw [hoth id hidout]; simp [mapSet]
  · intro x it hx hit
    have hxid : x ≠ id := fun h => hidout (h ▸ hx)
    exact hcl x it hx (by simp [mapSet, hxid, hit])
  · intro x it hit hxid hor
    rw [hrest x ?_ hxid, hit]
    intro hx
    obtain ⟨p, it2, _, _, hit2, hpr, hvf⟩ := (hout1 x).mp hx
    rw [hit] at hit2
    cases hit2
    rcases hor with h | h
    · exact h hpr
    · rw [hvf] at h; cases h

/-- The store that holds `exP` and its child `exX`, and `Verfied(1, true)` on it. -/
theorem cascade_set_witness :
    BucketSound (storeAfter [.add exP, .add exX]) ((exP.Hght + 1) % u64) ∧
    ∃ c1 out, Verfied (storeAfter [.add exP, .add exX]) 1 true = some (c1, out) ∧
      c1.items 1 = some ⟨exP, false, true⟩ ∧
      (∀ x, x ∈ out ↔ ∃ p it,
          (storeAfter [.add exP, .add exX]).heights ((exP.Hght + 1) % u64) = some p ∧
          x ∈ ((storeAfter [.add exP, .add exX]).mem p).items ∧
          (storeAfter [.add exP, .add exX]).items x = some it ∧ it.blk.Prnt = 1 ∧
          it.verifying = false) := by
  have hsound : BucketSound (storeAfter [.add exP, .add exX]) ((exP.Hght + 1) % u64) := by
    intro p hp x hx
    have h1 : (storeAfter [.add exP, .add exX]).heights ((exP.Hght + 1) % u64) = some 1 := by
      decide
    rw [h1] at hp
    cases hp
    have h2 : ((storeAfter [.add exP, .add exX]).mem 1).items = [2] := by decide
    rw [h2, List.mem_singleton] at hx
    subst hx
    exact ⟨⟨exX, false, false⟩, by decide, by decide⟩
  obtain ⟨c1, out, h1, h2, h3, _⟩ :=
    cascade_set (storeAfter [.add exP, .add exX]) 1 ⟨exP, false, false⟩ (by decide) hsound
  exact ⟨hsound, c1, out, h1, h2, h3⟩

/-- C6.  Eviction monotonicity.  In a store reached from the empty store by
calls of `Add`, `Verfied` and `SetMin` whose blocks have the height their id
determines, after `SetMin(h)` no item, bucket or heap entry below `h` is
left; every item, bucket and heap entry at height `h` or above is still
there, the items with block and flags unchanged; and the list returned holds
each id that had an item below `h` exactly once, and no other id. -/
theorem eviction_monotone (hgt : Nat → Nat) (ops : List Op) (c : TxBlockMap) (h : Nat)
    (hres : Respects hgt ops) (hrun : run NewTxBlockMap ops = some c) :
    (∀ id it, (SetMin c h).1.items id = some it → h ≤ it.blk.Hght) ∧
    (∀ k p, (SetMin c h).1.heights k = some p → h ≤ k) ∧
    (∀ e ∈ (SetMin c h).1.bh, h ≤ e.Val) ∧
    (∀ id it, c.items id = some it → h ≤ it.blk.Hght →
      (SetMin c h).1.items id = some it) ∧
    (∀ k p, c.heights k = some p → h ≤ k →
      (SetMin c h).1.heights k = some p ∧ (SetMin c h).1.mem p = c.mem p) ∧
    (∀ e ∈ c.bh, h ≤ e.Val → e ∈ (SetMin c h).1.bh) ∧
    (SetMin c h).2.Nodup ∧
    (∀ id, id ∈ (SetMin c h).2 ↔ ∃ it, c.items id = some it ∧ it.blk.Hght < h) := by
  have hI : Inv hgt c := Inv.reach hres hrun
  obtain ⟨_, hm, _, hitems, hheights, hbh, new, hev, hnd, hnew⟩ :=
    SetMinLoop_spec hgt h c.bh.length c [] hI (Nat.le_refl _)
  have hh : ∀ id it, c.items id = some it → it.blk.Hght = hgt id :=
    fun id it hit => (hI.item_bucket id it hit).2.1
  simp only [List.nil_append] at hev
  refine ⟨?_, ?_, ?_, ?_, ?_, ?_, ?_, ?_⟩
  · intro id it hit
    simp only [SetMin] at hit
    rw [hitems] at hit
    by_cases hlt : hgt id < h
    · simp [hlt] at hit
    · simp only [hlt, if_false] at hit
      rw [hh id it hit]; omega
  · intro k p hk
    simp only [SetMin] at hk
    rw [hheights] at hk
    by_cases hlt : k < h
    · simp [hlt] at hk
    · omega
  · intro e he
    exact ((hbh e).mp he).2
  · intro id it hit hge
    simp only [SetMin]
    rw [hitems]
    have : ¬ hgt id < h := by rw [← hh id it hit]; omega
    simp [this, hit]
  · intro k p hk hge
    simp only [SetMin]
    rw [hheights, hm]
    have : ¬ k < h := by omega
    simp [this, hk]
  · intro e he hge
    exact (hbh e).mpr ⟨he, hge⟩
  · simp only [SetMin]; rw [hev]; exact hnd
  · intro id
    simp only [SetMin]
    rw [hev, hnew]
    constructor
    · rintro ⟨h1, h2⟩
      obtain ⟨it, hit⟩ := Option.ne_none_iff_exists'.mp h1
      exact ⟨it, hit, by rw [hh id it hit]; exact h2⟩
    · rintro ⟨it, hit, hlt⟩
      exact ⟨by simp [hit], by rw [← hh id it hit]; exact hlt⟩

/-- Eviction below height 5 in the store that holds `exP` (height 4) and `exX`
(height 5). -/
theorem eviction_monotone_witness :
    Respects exHgt [.add exP, .verfied 1 true, .add exX] ∧
    run NewTxBlockMap [.add exP, .verfied 1 true, .add exX]
      = some (storeAfter [.add exP, .verfied 1 true, .add exX]) ∧
    (SetMin (storeAfter [.add exP, .verfied 1 true, .add exX]) 5).2.Nodup ∧
    (∀ id, id ∈ (SetMin (storeAfter [.add exP, .verfied 1 true, .add exX]) 5).2 ↔
      ∃ it, (storeAfter [.add exP, .verfied 1 true, .add exX]).items id = some it ∧
        it.blk.Hght < 5) :=
  ⟨respects_of_respectsB _ _ (by decide), rfl,
   (eviction_monotone exHgt [.add exP, .verfied 1 true, .add exX]
      (storeAfter [.add exP, .verfied 1 true, .add exX]) 5
      (respects_of_respectsB _ _ (by decide)) rfl).2.2.2.2.2.2⟩

/-- C7.  Bucket consistency.  In a store reached from `NewTxBlockMap` by calls
of `Add`, `Verfied` and `SetMin` whose blocks have the height their id
determines: an id with an item is in the bucket at the height of its block
and in no bucket at another height; every id of a bucket has an item, of that
height; a bucket exists at a height exactly when some item has that height;
the heap has exactly one entry for every bucket, pointing to it, and no other
entry; and the first entry of the heap is a bucket height that no bucket
height is below, the heap being empty exactly when there is no bucket. -/
theorem bucket_consistency (hgt : Nat → Nat) (ops : List Op) (c : TxBlockMap)
    (hres : Respects hgt ops) (hrun : run NewTxBlockMap ops = some c) :
    (∀ id it, c.items id = some it →
      ∃ p, c.heights it.blk.Hght = some p ∧ id ∈ (c.mem p).items ∧
        ∀ k q, c.heights k = some q → id ∈ (c.mem q).items → k = it.blk.Hght) ∧
    (∀ k p id, c.heights k = some p → id ∈ (c.mem p).items →
      ∃ it, c.items id = some it ∧ it.blk.Hght = k) ∧
    (∀ k, c.heights k ≠ none ↔ ∃ id it, c.items id = some it ∧ it.blk.Hght = k) ∧
    ((c.bh.map Entry.Val).Nodup ∧
      (∀ e ∈ c.bh, c.heights e.Val = some e.Item) ∧
      (∀ k p, c.heights k = some p → ∃ e ∈ c.bh, e.Val = k ∧ e.Item = p)) ∧
    ((heapFirst c.bh = none ↔ ∀ k, c.heights k = none) ∧
      ∀ m, heapFirst c.bh = some m →
        c.heights m.Val ≠ none ∧ ∀ k, c.heights k ≠ none → m.Val ≤ k) := by
  have hI : Inv hgt c := Inv.reach hres hrun
  have hbi : ∀ k p id, c.heights k = some p → id ∈ (c.mem p).items →
      ∃ it, c.items id = some it ∧ it.blk.Hght = k := by
    intro k p id hk hin
    obtain ⟨h1, h2⟩ := hI.bucket_item k p hk id hin
    obtain ⟨it, hit⟩ := Option.ne_none_iff_exists'.mp h2
    exact ⟨it, hit, by rw [(hI.item_bucket id it hit).2.1, h1]⟩
  have hheap : ∀ k p, c.heights k = some p → ∃ e ∈ c.bh, e.Val = k ∧ e.Item = p := by
    intro k p hk
    obtain ⟨e, he, hev⟩ := hI.bucket_heap k p hk
    have := hI.heap_bucket e he
    rw [hev, hk] at this
    exact ⟨e, he, hev, (Option.some.inj this).symm⟩
  refine ⟨?_, hbi, ?_, ⟨hI.heap_nodup, hI.heap_bucket, hheap⟩, ?_, ?_⟩
  · intro id it hit
    obtain ⟨_, h2, p, hp, hin⟩ := hI.item_bucket id it hit
    refine ⟨p, by rw [h2]; exact hp, hin, ?_⟩
    intro k q hq hinq
    rw [h2]
    exact ((hI.bucket_item k q hq id hinq).1).symm
  · intro k
    constructor
    · intro hk
      obtain ⟨p, hp⟩ := Option.ne_none_iff_exists'.mp hk
      obtain ⟨_, _, _, hne⟩ := hI.bucket_shape k p hp
      obtain ⟨id, hid⟩ := List.exists_mem_of_ne_nil _ hne
      obtain ⟨it, hit, hh⟩ := hbi k p id hp hid
      exact ⟨id, it, hit, hh⟩
    · rintro ⟨id, it, hit, hh⟩
      obtain ⟨_, h2, p, hp, _⟩ := hI.item_bucket id it hit
      rw [← hh, h2, hp]
      simp
  · rw [heapFirst_eq_none]
    constructor
    · intro hnil k
      cases hk : c.heights k with
      | none => rfl
      | some p =>
        obtain ⟨e, he, _⟩ := hI.bucket_heap k p hk
        rw [hnil] at he
        simp at he
    · intro hall
      cases hb : c.bh with
      | nil => rfl
      | cons e rest =>
        have := hI.heap_bucket e (by rw [hb]; exact List.mem_cons_self _ _)
        rw [hall] at this
        cases this
  · intro m hm
    obtain ⟨hmem, hmin⟩ := heapFirst_min c.bh m hm
    refine ⟨by rw [hI.heap_bucket m hmem]; simp, ?_⟩
    intro k hk
    obtain ⟨p, hp⟩ := Option.ne_none_iff_exists'.mp hk
    obtain ⟨e, he, hev⟩ := hI.bucket_heap k p hp
    rw [← hev]
    exact hmin e he

/-- Buckets and items after `Add(exP)`, `Verfied(1, true)`, `Add(exX)`,
`SetMin(5)`. -/
theorem bucket_consistency_witness :
    Respects exHgt [.add exP, .verfied 1 true, .add exX, .setMin 5] ∧
    run NewTxBlockMap [.add exP, .verfied 1 true, .add exX, .setMin 5]
      = some (storeAfter [.add exP, .verfied 1 true, .add exX, .setMin 5]) ∧
    ∀ k, (storeAfter [.add exP, .verfied 1 true, .add exX, .setMin 5]).heights k ≠ none ↔
      ∃ id it, (storeAfter [.add exP, .verfied 1 true, .add exX, .setMin 5]).items id
        = some it ∧ it.blk.Hght = k :=
  ⟨respects_of_respectsB _ _ (by decide), rfl,
   (bucket_consistency exHgt [.add exP, .verfied 1 true, .add exX, .setMin 5]
      (storeAfter [.add exP, .verfied 1 true, .add exX, .setMin 5])
      (respects_of_respectsB _ _ (by decide)) rfl).2.2.1⟩

/-- C8.  The code does not do what the claim says on the path where
`store.Add` reports the fetched block as already present.  A fetch of id 2
whose block another path adds to the store while the request is under way
returns without any send, and leaves its listener in the table `outstanding`;
the two sibling paths (block in the store before the call, block accepted by
`store.Add`) send the block to the listener and clear the table entry. -/
theorem already_present_not_notified :
    ((exFetch NewTxBlockMap [exX]).sent = [] ∧
      (exFetch NewTxBlockMap [exX]).mgr.outstanding 2 = some [some 100] ∧
      (exFetch NewTxBlockMap [exX]).added = some ([7], exX) ∧
      Get (exFetch NewTxBlockMap [exX]).mgr.txBlocks 2 = some exX) ∧
    ((exFetch (storeAfter [.add exX]) []).sent = [(100, ⟨some exX, none⟩)] ∧
      (exFetch (storeAfter [.add exX]) []).mgr.outstanding 2 = none) ∧
    ((exFetch NewTxBlockMap []).sent = [(100, ⟨some exX, none⟩)] ∧
      (exFetch NewTxBlockMap []).mgr.outstanding 2 = none) := by
  decide

/-- C9.  Response hash check.  `requestChunkNodeID` returns bytes without error
only if they were delivered as the response, are not empty and hash to the
requested id, and it does return such bytes; an empty response gives the
error "not found" and a response with another hash gives "invalid chunk".
Hence the block that `RequestChunk` passes to `store.Add`, if it passes one,
was decoded from bytes that hash to the requested id. -/
theorem response_hash_check (ToID : List Nat → Nat) (c : Manager) (chunkID rch : Nat) :
    (∀ reply msg, (requestChunkNodeID ToID c chunkID rch reply).2 = .ok msg →
      reply = .delivered msg ∧ msg ≠ [] ∧ ToID msg = chunkID) ∧
    (∀ msg, msg ≠ [] → ToID msg = chunkID →
      (requestChunkNodeID ToID c chunkID rch (.delivered msg)).2 = .ok msg) ∧
    (requestChunkNodeID ToID c chunkID rch (.delivered [])).2 = .error .notFound ∧
    (∀ msg, msg ≠ [] → ToID msg ≠ chunkID →
      (requestChunkNodeID ToID c chunkID rch (.delivered msg)).2 = .error .invalidChunk) ∧
    (∀ (UnmarshalTxBlock : List Nat → Option TxBlock)
        (ParseTxBlock : TxBlock → List Nat → Option TxBlock)
        (height hint : Nat) (ch : Option Nat) (env : Nat → Attempt)
        (msg : List Nat) (blk : TxBlock),
      (RequestChunk ToID UnmarshalTxBlock ParseTxBlock c height hint chunkID ch env).added
          = some (msg, blk) →
      msg ≠ [] ∧ ToID msg = chunkID ∧
        ∃ r, UnmarshalTxBlock msg = some r ∧ ParseTxBlock r msg = some blk) := by
  refine ⟨fun reply msg h => requestChunkNodeID_ok ToID c chunkID rch reply msg h,
    ?_, ?_, ?_, ?_⟩
  · intro msg hne hid
    have h0 : msg.length ≠ 0 := by
      intro h; exact hne (List.length_eq_zero.mp h)
    simp [requestChunkNodeID, h0, hid]
  · simp [requestChunkNodeID]
  · intro msg hne hid
    have h0 : msg.length ≠ 0 := by
      intro h; exact hne (List.length_eq_zero.mp h)
    have h1 : chunkID ≠ ToID msg := fun h => hid h.symm
    simp [requestChunkNodeID, h0, h1]
  · intro U P height hint ch env msg blk h
    unfold RequestChunk at h
    simp only at h
    split at h
    · simp at h
    · split at h
      · simp at h
      · exact fetchLoop_added ToID U P height hint chunkID env _ _ _ msg blk h

/-- Bytes that hash to the requested id are returned. -/
theorem response_hash_check_witness :
    (requestChunkNodeID (fun _ => 2) (exManager NewTxBlockMap) 2 50 (.delivered [7])).2
      = .ok [7] :=
  (response_hash_check (fun _ => 2) (exManager NewTxBlockMap) 2 50).2.1 [7]
    (by decide) rfl

/-- C10.  The code does not do what the claim says.  For watermarks in the
`uint64` range (and a size ceiling of at least 16 bytes) the message that `Run`
and `HandleConnect` compose is the 16 bytes of `min` and `max` with no tag byte
in front, and `HandleAppGossip` records no range when it receives it; it does
record the range `min`, `max` when the tag byte 0 is put in front. -/
theorem advertisement_without_tag (limit min max : Nat) (hlimit : 16 ≤ limit)
    (hmin : min < u64) (hmax : max < u64) (nodeChunks : List (Nat × NodeChunks))
    (nodeID : Nat) :
    runMessage limit min max [] = some (bigEndian64 min ++ bigEndian64 max) ∧
    connectMessage limit min max = some (bigEndian64 min ++ bigEndian64 max) ∧
    (HandleAppGossip nodeChunks nodeID (bigEndian64 min ++ bigEndian64 max)).1 = nodeChunks ∧
    (HandleAppGossip nodeChunks nodeID (bigEndian64 min ++ bigEndian64 max)).2
      ≠ .rangeRecorded ∧
    HandleAppGossip nodeChunks nodeID (0 :: (bigEndian64 min ++ bigEndian64 max)) =
      (peerSet nodeChunks nodeID ⟨min, max⟩, .rangeRecorded) := by
  have hm := Marshal_eq limit ⟨min, max⟩ hlimit
  simp only at hm
  have hshort : ∀ t rest, bigEndian64 min ++ bigEndian64 max = t :: rest →
      (UnmarshalNodeChunks rest).2 = true := by
    intro t rest h
    apply UnmarshalNodeChunks_short
    have := congrArg List.length h
    simp [bigEndian64_length] at this
    omega
  have hsplit : ∃ t rest, bigEndian64 min ++ bigEndian64 max = t :: rest :=
    ⟨_, _, rfl⟩
  obtain ⟨t, rest, hmsg⟩ := hsplit
  have hs := hshort t rest hmsg
  refine ⟨by simp [runMessage, hm], by simp [connectMessage, hm], ?_, ?_, ?_⟩
  · rw [hmsg]
    simp only [HandleAppGossip]
    split
    · simp [hs]
    · split <;> rfl
  · rw [hmsg]
    simp only [HandleAppGossip]
    split
    · simp [hs]
    · split <;> simp
  · simp [HandleAppGossip, UnmarshalNodeChunks_eq min max hmin hmax]

/-- The watermarks 3 and 8. -/
theorem advertisement_without_tag_witness :
    (HandleAppGossip [] 9 (bigEndian64 3 ++ bigEndian64 8)).1 = [] ∧
    HandleAppGossip [] 9 (0 :: (bigEndian64 3 ++ bigEndian64 8)) =
      (peerSet [] 9 ⟨3, 8⟩, .rangeRecorded) :=
  ⟨(advertisement_without_tag 16 3 8 (by decide) (by decide) (by decide) [] 9).2.2.1,
   (advertisement_without_tag 16 3 8 (by decide) (by decide) (by decide) [] 9).2.2.2.2⟩

/-- C11.  Range codec round trip.  For `Min` and `Max` in the `uint64` range,
and a size ceiling `consts.NetworkSizeLimit` of at least 16 bytes, `Marshal`
returns no error and exactly 16 bytes, the 8 big-endian bytes of `Min` followed
by those of `Max`, and `UnmarshalNodeChunks` of these bytes returns the same
value and no error; both fields may be zero. -/
theorem range_round_trip (limit : Nat) (n : NodeChunks) (hlimit : 16 ≤ limit)
    (hMin : n.Min < u64) (hMax : n.Max < u64) :
    (Marshal limit n).2 = false ∧
    (Marshal limit n).1 = bigEndian64 n.Min ++ bigEndian64 n.Max ∧
    (Marshal limit n).1.length = 16 ∧
    UnmarshalNodeChunks (Marshal limit n).1 = (n, false) := by
  rw [Marshal_eq limit n hlimit]
  refine ⟨rfl, rfl, by simp [bigEndian64_length], ?_⟩
  exact UnmarshalNodeChunks_eq n.Min n.Max hMin hMax

/-- The round trip of the range whose two fields are zero. -/
theorem range_round_trip_witness :
    (Marshal 16 ⟨0, 0⟩).2 = false ∧
    (Marshal 16 ⟨0, 0⟩).1.length = 16 ∧
    UnmarshalNodeChunks (Marshal 16 ⟨0, 0⟩).1 = (⟨0, 0⟩, false) :=
  ⟨(range_round_trip 16 ⟨0, 0⟩ (by decide) (by decide) (by decide)).1,
   (range_round_trip 16 ⟨0, 0⟩ (by decide) (by decide) (by decide)).2.2.1,
   (range_round_trip 16 ⟨0, 0⟩ (by decide) (by decide) (by decide)).2.2.2⟩

/-- C12.  Peer selection of `RequestChunk` on attempt `i`, for every value of
the random draw, when no peer with a recorded range has the empty node id.  A
hint that is not empty is used when `i <= 1`.  Otherwise: if some recorded
range covers the height, the peer chosen is one with a covering range; if none
covers it but ranges are recorded, the peer chosen is one with a recorded
range; if no range is recorded, no peer is chosen, and the retry loop then goes
on to attempt `i + 1` without sending a request or a result. -/
theorem peer_selection (nodeChunks : List (Nat × NodeChunks)) (height hint i draw : Nat)
    (hreal : ∀ p ∈ nodeChunks, p.1 ≠ EmptyNodeID) :
    (hint ≠ EmptyNodeID → i ≤ 1 → selectPeer nodeChunks height hint i draw = some hint) ∧
    (¬ (hint ≠ EmptyNodeID ∧ i ≤ 1) →
      ((∃ p ∈ nodeChunks, p.2.Min ≤ height ∧ height ≤ p.2.Max) →
        ∃ p ∈ nodeChunks, p.2.Min ≤ height ∧ height ≤ p.2.Max ∧
          selectPeer nodeChunks height hint i draw = some p.1) ∧
      ((¬ ∃ p ∈ nodeChunks, p.2.Min ≤ height ∧ height ≤ p.2.Max) → nodeChunks ≠ [] →
        ∃ p ∈ nodeChunks, selectPeer nodeChunks height hint i draw = some p.1) ∧
      (nodeChunks = [] → selectPeer nodeChunks height hint i draw = none)) ∧
    (∀ (ToID : List Nat → Nat) (UnmarshalTxBlock : List Nat → Option TxBlock)
        (ParseTxBlock : TxBlock → List Nat → Option TxBlock) (chunkID : Nat)
        (env : Nat → Attempt) (n : Nat) (c : Manager),
      c.nodeChunks = nodeChunks → (env i).cancelled = false →
      selectPeer nodeChunks height hint i (env i).draw = none →
      fetchLoop ToID UnmarshalTxBlock ParseTxBlock height hint chunkID env (n + 1) i c =
        fetchLoop ToID UnmarshalTxBlock ParseTxBlock height hint chunkID env n (i + 1)
          (meanwhile c chunkID (env i)) ∧
      (meanwhile c chunkID (env i)).requestID = c.requestID) := by
  have hsnd := scanPeers_snd height nodeChunks EmptyNodeID []
  simp only [List.nil_append] at hsnd
  have hcov : ∀ x, x ∈ (scanPeers height nodeChunks EmptyNodeID []).2 ↔
      ∃ p ∈ nodeChunks, p.2.Min ≤ height ∧ height ≤ p.2.Max ∧ p.1 = x := by
    intro x
    rw [hsnd]
    simp only [List.mem_map, List.mem_filter, decide_eq_true_eq, ge_iff_le]
    constructor
    · rintro ⟨p, ⟨hp, h1, h2⟩, hx⟩; exact ⟨p, hp, h1, h2, hx⟩
    · rintro ⟨p, hp, h1, h2, hx⟩; exact ⟨p, ⟨hp, h1, h2⟩, hx⟩
  have hlast : nodeChunks ≠ [] →
      ∃ p ∈ nodeChunks, (scanPeers height nodeChunks EmptyNodeID []).1 = p.1 := by
    intro hne
    rcases scanPeers_fst height nodeChunks EmptyNodeID [] with ⟨h, _⟩ | h
    · exact absurd h hne
    · exact h
  refine ⟨?_, ?_, ?_⟩
  · intro h1 h2
    simp [selectPeer, h1, h2]
  · intro hno
    refine ⟨?_, ?_, ?_⟩
    · rintro ⟨p, hp, hmin, hmax⟩
      have hne : nodeChunks ≠ [] := List.ne_nil_of_mem hp
      obtain ⟨q, hq, hlastq⟩ := hlast hne
      have hnonempty : (scanPeers height nodeChunks EmptyNodeID []).2.length > 0 :=
        List.length_pos_of_mem ((hcov p.1).mpr ⟨p, hp, hmin, hmax, rfl⟩)
      have hidx : draw % (scanPeers height nodeChunks EmptyNodeID []).2.length <
          (scanPeers height nodeChunks EmptyNodeID []).2.length := Nat.mod_lt _ hnonempty
      have hget : (scanPeers height nodeChunks EmptyNodeID []).2.getD
          (draw % (scanPeers height nodeChunks EmptyNodeID []).2.length)
          (scanPeers height nodeChunks EmptyNodeID []).1 ∈
          (scanPeers height nodeChunks EmptyNodeID []).2 := by
        rw [List.getD_eq_getElem _ _ hidx]
        exact List.getElem_mem _
      obtain ⟨r, hr, hrmin, hrmax, hrx⟩ := (hcov _).mp hget
      refine ⟨r, hr, hrmin, hrmax, ?_⟩
      have hq0 : (scanPeers height nodeChunks EmptyNodeID []).1 ≠ EmptyNodeID := by
        rw [hlastq]; exact hreal q hq
      simp only [selectPeer, hno, if_false, hq0, hnonempty, if_true, hrx]
    · intro hnone hne
      obtain ⟨q, hq, hlastq⟩ := hlast hne
      have hq0 : (scanPeers height nodeChunks EmptyNodeID []).1 ≠ EmptyNodeID := by
        rw [hlastq]; exact hreal q hq
      have hempty : (scanPeers height nodeChunks EmptyNodeID []).2 = [] := by
        cases hl : (scanPeers height nodeChunks EmptyNodeID []).2 with
        | nil => rfl
        | cons x xs =>
          exfalso
          obtain ⟨p, hp, h1, h2, _⟩ := (hcov x).mp (by rw [hl]; exact List.mem_cons_self _ _)
          exact hnone ⟨p, hp, h1, h2⟩
      refine ⟨q, hq, ?_⟩
      have hq1 : q.1 ≠ EmptyNodeID := hreal q hq
      simp only [selectPeer, hno, if_false, hempty, List.length_nil, gt_iff_lt,
        Nat.lt_irrefl, hlastq, hq1]
    · intro hnil
      subst hnil
      simp [selectPeer, hno, scanPeers]
  · intro ToID U P chunkID env n c hc hcancel hsel
    have hm := meanwhile_nodeChunks c chunkID (env i)
    refine ⟨?_, ?_⟩
    · rw [fetchLoop]
      simp only [hcancel, hm, hc, hsel]
      simp
    · have h : ∀ (l : List (Option Nat)) (m : Manager),
          (l.foldl (fun m ch => registerListener m chunkID ch) m).requestID = m.requestID := by
        intro l
        induction l with
        | nil => intro m; rfl
        | cons ch rest ih =>
          intro m
          simp only [List.foldl_cons]
          rw [ih]
          unfold registerListener
          cases m.outstanding chunkID <;> rfl
      simp only [meanwhile]
      exact h _ _

/-- The peers `exPeers` and a block at height 5, on the third attempt: the
peer chosen is peer 9, whose range covers 5. -/
theorem peer_selection_witness :
    ∃ p ∈ exPeers, p.2.Min ≤ 5 ∧ 5 ≤ p.2.Max ∧ selectPeer exPeers 5 7 2 13 = some p.1 :=
  ((peer_selection exPeers 5 7 2 13 (by decide)).2.1 (by decide)).1
    ⟨(9, ⟨0, 10⟩), by decide, by decide, by decide⟩

/-- C13.  A duplicate `Add` is rejected and changes nothing: for a block whose
id is already in the bucket at its height, `Add` returns `(false, false)` and
the store afterwards is the store before, items with their flags, buckets and
heap. -/
theorem duplicate_add_rejected (c : TxBlockMap) (b : TxBlock) (hdup : Present c b) :
    (Add c b).2 = (false, false) ∧ (Add c b).1 = c ∧
    (Add c b).1.items = c.items ∧ (Add c b).1.heights = c.heights ∧
    (Add c b).1.mem = c.mem ∧ (Add c b).1.bh = c.bh := by
  rw [Add_present c b hdup]
  exact ⟨rfl, rfl, rfl, rfl, rfl, rfl⟩

/-- The block `exX`, handed out by its first `Add`, added a second time. -/
theorem duplicate_add_rejected_witness :
    Present (storeAfter [.add exP, .verfied 1 true, .add exX]) exX ∧
    (Add (storeAfter [.add exP, .verfied 1 true, .add exX]) exX).2 = (false, false) ∧
    (Add (storeAfter [.add exP, .verfied 1 true, .add exX]) exX).1.items 2
      = some ⟨exX, true, false⟩ :=
  ⟨⟨1, by decide, by decide⟩,
   (duplicate_add_rejected (storeAfter [.add exP, .verfied 1 true, .add exX]) exX
      ⟨1, by decide, by decide⟩).1,
   by decide⟩

/-- C14.  The flag `verified` is a latch.  Take an item of the store with
`verified` set.  After `Add(b)` the item is unchanged, provided its id is in
the bucket at the height of its block and `b`, if it has the same id, has the
same height.  After a call `Verfied(id, success)` that returns, the item is
still there with the same block and `verified` set, and the call does return
for every id of the store whose bucket one height up lists only ids with
items.  After `SetMin(h)` the item, if it is still in the store, is
unchanged. -/
theorem verified_is_latch (c : TxBlockMap) (x : Nat) (it : blkItem)
    (hit : c.items x = some it) (hv : it.verified = true) :
    (∀ b, InBucket c x it.blk.Hght → (b.id = x → b.Hght = it.blk.Hght) →
      (Add c b).1.items x = some it) ∧
    (∀ id success c1 out, Verfied c id success = some (c1, out) →
      ∃ it1, c1.items x = some it1 ∧ it1.verified = true ∧ it1.blk = it.blk) ∧
    (∀ id blk success, c.items id = some blk →
      BucketSound c ((blk.blk.Hght + 1) % u64) →
      ∃ c1 out, Verfied c id success = some (c1, out)) ∧
    (∀ h it1, (SetMin c h).1.items x = some it1 → it1 = it) := by
  refine ⟨?_, ?_, ?_, ?_⟩
  · intro b hin hsame
    by_cases hnew : Present c b
    · rw [Add_present c b hnew]; exact hit
    · rw [Add_new_items c b hnew]
      have hne : x ≠ b.id := by
        intro hx
        apply hnew
        obtain ⟨p, hp, hxp⟩ := hin
        rw [← hsame hx.symm] at hp
        exact ⟨p, hp, by rw [← hx]; exact hxp⟩
      simp [mapSet, hne, hit]
  · intro id success c1 out h
    exact Verfied_keeps_verified c c1 id success out h x it hit hv
  · intro id blk success hb hsound
    cases success with
    | false => exact ⟨_, _, Verfied_false c id blk hb⟩
    | true =>
      apply Verfied_returns c id blk hb
      intro p hp y hy
      obtain ⟨ity, hity, _⟩ := hsound p hp y hy
      simp [hity]
  · intro h it1 h1
    rcases SetMinLoop_items h c.bh.length c [] x with h2 | h2
    · simp only [SetMin] at h1
      rw [h2] at h1
      cases h1
    · simp only [SetMin] at h1
      rw [h2, hit] at h1
      exact (Option.some.inj h1).symm

/-- The verified item of `exP` after a second `Add` of `exP`, after `Add` of
its child and after `Verfied` on it. -/
theorem verified_is_latch_witness :
    (storeAfter [.add exP, .verfied 1 true]).items 1 = some ⟨exP, false, true⟩ ∧
    (Add (storeAfter [.add exP, .verfied 1 true]) exX).1.items 1 = some ⟨exP, false, true⟩ ∧
    ∀ h it1, (SetMin (storeAfter [.add exP, .verfied 1 true]) h).1.items 1 = some it1 →
      it1 = ⟨exP, false, true⟩ :=
  ⟨by decide,
   (verified_is_latch (storeAfter [.add exP, .verfied 1 true]) 1 ⟨exP, false, true⟩
      (by decide) rfl).1 exX ⟨0, by decide, by decide⟩ (by decide),
   (verified_is_latch (storeAfter [.add exP, .verfied 1 true]) 1 ⟨exP, false, true⟩
      (by decide) rfl).2.2.2⟩

/-- C15, as the claim states it, fails: the block `exG` of height 0 is not in
the empty store, and `Add` returns `(true, false)` for it. -/
theorem genesis_not_implicit :
    ¬ (∀ (c : TxBlockMap) (b : TxBlock), b.Hght = 0 → ¬ Present c b →
        (Add c b).2 = (true, true)) := by
  intro h
  have h1 : ¬ Present NewTxBlockMap exG := by
    rintro ⟨p, hp, _⟩
    simp [NewTxBlockMap] at hp
  have h2 := h NewTxBlockMap exG rfl h1
  revert h2
  decide

/-- C15, amended.  For a block at height 0 that is not yet in the bucket of its
height `Add` returns `added = true`, and `should_verify` is true exactly when
the block is not its own parent and its parent has an item with `verified` set
in the store, as at every other height: no parent is implied at height 0. -/
theorem genesis_like_any_height (c : TxBlockMap) (b : TxBlock) (_h0 : b.Hght = 0)
    (hnew : ¬ Present c b) :
    (Add c b).2.1 = true ∧
    ((Add c b).2.2 = true ↔
      b.Prnt ≠ b.id ∧ ∃ it, c.items b.Prnt = some it ∧ it.verified = true) ∧
    (c.items b.Prnt = none → (Add c b).2 = (true, false)) := by
  have hadd : (Add c b).2.1 = true := by rw [Add_new c b hnew]
  have hflag := Add_flag c b
  refine ⟨hadd, ?_, ?_⟩
  · rw [hflag]
    constructor
    · rintro ⟨_, h1, h2⟩; exact ⟨h1, h2⟩
    · rintro ⟨h1, h2⟩; exact ⟨hnew, h1, h2⟩
  · intro hnone
    have hsv : (Add c b).2.2 = false := by
      cases hv : (Add c b).2.2 with
      | false => rfl
      | true =>
        obtain ⟨_, _, it, hit, _⟩ := hflag.mp hv
        rw [hnone] at hit
        cases hit
    exact Prod.ext hadd hsv

/-- The block `exG` of height 0 added to the empty store. -/
theorem genesis_like_any_height_witness :
    exG.Hght = 0 ∧ ¬ Present NewTxBlockMap exG ∧ (Add NewTxBlockMap exG).2 = (true, false) := by
  have h1 : ¬ Present NewTxBlockMap exG := by
    rintro ⟨p, hp, _⟩
    simp [NewTxBlockMap] at hp
  exact ⟨rfl, h1, (genesis_like_any_height NewTxBlockMap exG rfl h1).2.2 rfl⟩

/-- C16.  The code does not do what the claim says.  `Verify` looks the block
up a second time under its own id and calls `ChildState` on it, never on the
item of `block.parent_id`: for every id with a block in the store the first
call goes to that block itself (with capacity `len(block.txs) * 2`), what
`Verify` does is the same in any two stores that hold the same block under the
id, and it faults exactly when the id has no block, whether or not the parent
is there.  In the store holding `exP` and its child `exX`, `Verify` of `exX` calls
`ChildState` on `exX`, although its parent `exP` is there. -/
theorem verify_uses_block_as_parent :
    (∀ (S E : Type) (ChildState : TxBlock → Nat → Except E S) (c : TxBlockMap)
        (blkID : Nat) (blk : TxBlock), Get c blkID = some blk →
      ∃ rest, VerifyCalls ChildState c blkID
        = some (.childState blk (blk.Txs.length * 2) :: rest)) ∧
    (∀ (S E : Type) (ChildState : TxBlock → Nat → Except E S) (c c1 : TxBlockMap)
        (blkID : Nat), Get c blkID = Get c1 blkID →
      VerifyCalls ChildState c blkID = VerifyCalls ChildState c1 blkID) ∧
    (∀ (S E : Type) (ChildState : TxBlock → Nat → Except E S)
        (blkVerify : TxBlock → S → Option E) (c : TxBlockMap) (blkID : Nat),
      (Verify ChildState blkVerify c blkID = none ↔ Get c blkID = none) ∧
      (VerifyCalls ChildState c blkID = none ↔ Get c blkID = none)) ∧
    (Get (storeAfter [.add exP, .verfied 1 true, .add exX]) exX.Prnt = some exP ∧
      VerifyCalls (fun _ _ => (Except.ok () : Except Unit Unit))
          (storeAfter [.add exP, .verfied 1 true, .add exX]) 2
        = some [.childState exX 0, .verify exX ()]) := by
  refine ⟨?_, ?_, ?_, ?_⟩
  · intro S E ChildState c blkID blk hg
    unfold VerifyCalls
    simp only [hg]
    cases ChildState blk (blk.Txs.length * 2) with
    | error e => exact ⟨_, rfl⟩
    | ok s => exact ⟨_, rfl⟩
  · intro S E ChildState c c1 blkID hg
    unfold VerifyCalls
    rw [hg]
  · intro S E ChildState blkVerify c blkID
    unfold Verify VerifyCalls
    cases hg : Get c blkID with
    | none => simp
    | some blk =>
      simp only
      constructor
      · cases ChildState blk (blk.Txs.length * 2) with
        | error e => simp
        | ok s => cases hv : blkVerify blk s <;> simp [hv]
      · cases ChildState blk (blk.Txs.length * 2) <;> simp
  · decide

/-- C17.  The code does not do what the claim says.  With `r` pending on
channel `ch`, `HandleResponse(_, r, m)` removes `r` from the table and leaves
every other pending request as it is; it then sends exactly `m` on `ch` and
returns nil when a goroutine receives from `ch`, and when none does it sends
nothing and never returns.  With `r` not pending it sends nothing, changes
nothing and returns nil, so that a second delivery for `r` sends nothing.
`HandleRequestFailed(r)` is `HandleResponse(_, r, m)` with `m` empty.  The
state without a receiver is reached: a call of `requestChunkNodeID` whose
context ends while it waits, or whose send to the peer fails, returns with its
request 0 pending on its channel 50, from which nothing receives any more;
`HandleResponse` and `HandleRequestFailed` for the request 0 then stay in
their send. -/
theorem delivery_blocks_without_receiver (c : Manager) (receiving : Nat → Bool) (r : Nat)
    (m : List Nat) :
    (∀ ch, c.requests r = some ch →
      (HandleResponse c receiving r m).1.requests r = none ∧
      (∀ x, x ≠ r → (HandleResponse c receiving r m).1.requests x = c.requests x) ∧
      (HandleResponse c receiving r m).1.requestID = c.requestID ∧
      (HandleResponse c receiving r m).1.outstanding = c.outstanding ∧
      (HandleResponse c receiving r m).1.nodeChunks = c.nodeChunks ∧
      (receiving ch = true →
        (HandleResponse c receiving r m).2 = (some (ch, m), .returned none)) ∧
      (receiving ch = false → (HandleResponse c receiving r m).2 = (none, .blocked))) ∧
    (c.requests r = none → HandleResponse c receiving r m = (c, none, .returned none)) ∧
    (∀ receiving1 m1,
      (HandleResponse (HandleResponse c receiving r m).1 receiving1 r m1).2
        = (none, .returned none)) ∧
    HandleRequestFailed c receiving r = HandleResponse c receiving r [] ∧
    ((requestChunkNodeID (fun _ => 0) (exManager NewTxBlockMap) 2 50 .cancelled).1.requests 0
        = some 50 ∧
      (HandleResponse
        (requestChunkNodeID (fun _ => 0) (exManager NewTxBlockMap) 2 50 .cancelled).1
        (fun _ => false) 0 m).2 = (none, .blocked) ∧
      (HandleRequestFailed
        (requestChunkNodeID (fun _ => 0) (exManager NewTxBlockMap) 2 50 .cancelled).1
        (fun _ => false) 0).2 = (none, .blocked) ∧
      (HandleResponse
        (requestChunkNodeID (fun _ => 0) (exManager NewTxBlockMap) 2 50 .sendFailed).1
        (fun _ => false) 0 m).2 = (none, .blocked)) := by
  refine ⟨?_, ?_, ?_, ?_, ?_⟩
  · intro ch hch
    have hreq := HandleResponse_requests c receiving r m
    have hrest := HandleResponse_rest c receiving r m
    refine ⟨by rw [hreq]; simp [mapDelete], ?_, hrest.1, hrest.2.1, hrest.2.2.1, ?_, ?_⟩
    · intro x hx
      rw [hreq]
      simp [mapDelete, hx]
    · intro hrec
      simp [HandleResponse, hch, hrec]
    · intro hrec
      simp [HandleResponse, hch, hrec]
  · intro hnone
    exact HandleResponse_not_pending c receiving r m hnone
  · intro receiving1 m1
    have hgone : (HandleResponse c receiving r m).1.requests r = none := by
      rw [HandleResponse_requests]; simp [mapDelete]
    rw [HandleResponse_not_pending _ receiving1 r m1 hgone]
  · unfold HandleRequestFailed HandleResponse
    cases c.requests r <;> rfl
  · refine ⟨by decide, ?_, by decide, ?_⟩
    · simp [HandleResponse, requestChunkNodeID, exManager, mapSet]
    · simp [HandleResponse, requestChunkNodeID, exManager, mapSet]

/-- C18.  The code does not do what the claim says.  When the send to the
peer fails, and when the context ends while the call waits, `requestChunkNodeID`
returns with the id it allocated still in the table of pending requests, bound
to the channel of the call; the id is gone from the table only on the path
where the response was delivered. -/
theorem request_entry_outlives_request (ToID : List Nat → Nat) (c : Manager)
    (chunkID rch : Nat) :
    (requestChunkNodeID ToID c chunkID rch .sendFailed).1.requests c.requestID = some rch ∧
    (requestChunkNodeID ToID c chunkID rch .cancelled).1.requests c.requestID = some rch ∧
    (∀ msg,
      (requestChunkNodeID ToID c chunkID rch (.delivered msg)).1.requests c.requestID
        = none) := by
  refine ⟨by simp [requestChunkNodeID, mapSet], by simp [requestChunkNodeID, mapSet], ?_⟩
  intro msg
  exact (requestChunkNodeID_own ToID c chunkID rch (.delivered msg)).2 ⟨msg, rfl⟩

/-- C19, as the claim states it, fails.  In the manager `exWrapped` the request
0 is pending on channel 7 and the counter is `2 ^ 32 - 1`.  The next call
allocates `2 ^ 32 - 1` and wraps the counter to 0; the call after it allocates
0 and binds it to its own channel 51 in place of channel 7. -/
theorem request_id_reused :
    exWrapped.requests 0 = some 7 ∧
    (requestChunkNodeID (fun _ => 0) exWrapped 2 50 .cancelled).1.requestID = 0 ∧
    (requestChunkNodeID (fun _ => 0) exWrapped 2 50 .cancelled).1.requests 0 = some 7 ∧
    (requestChunkNodeID (fun _ => 0)
      (requestChunkNodeID (fun _ => 0) exWrapped 2 50 .cancelled).1 2 51 .cancelled).1.requests 0
        = some 51 := by
  decide

/-- C19, amended.  `requestChunkNodeID` allocates the current value of the
counter and advances the counter by one modulo `2 ^ 32`, without looking at the
table: the id is bound to the channel of the call until the response is
delivered, and is gone from the table then.  Every pending request with another
id keeps its channel, and a request pending under the current value of the
counter loses its channel to the call, so that nothing is replaced exactly when
no request is pending under that value.  Over a sequence of calls from a counter `n` below `2 ^ 32` the counter
ends at `(n + k) % 2 ^ 32` after `k` calls; a request pending under an id `x`
keeps its channel through the next `(x + 2 ^ 32 - n) % 2 ^ 32` calls, after
exactly that many the counter is `x`, and the call that follows allocates `x`
again.  For the request that a call has just allocated and left pending these
are the next `2 ^ 32 - 1` calls. -/
theorem request_id_is_counter (ToID : List Nat → Nat) (c : Manager) (chunkID rch : Nat)
    (reply : Reply) :
    (requestChunkNodeID ToID c chunkID rch reply).1.requestID = (c.requestID + 1) % 2 ^ 32 ∧
    (∀ x, x ≠ c.requestID →
      (requestChunkNodeID ToID c chunkID rch reply).1.requests x = c.requests x) ∧
    ((∀ msg, reply ≠ .delivered msg) →
      (requestChunkNodeID ToID c chunkID rch reply).1.requests c.requestID = some rch) ∧
    (c.requests c.requestID = none →
      ∀ x ch, c.requests x = some ch →
        (requestChunkNodeID ToID c chunkID rch reply).1.requests x = some ch) ∧
    (∀ ch, c.requests c.requestID = some ch → ch ≠ rch →
      (requestChunkNodeID ToID c chunkID rch reply).1.requests c.requestID ≠ some ch) ∧
    ((∃ msg, reply = .delivered msg) →
      (requestChunkNodeID ToID c chunkID rch reply).1.requests c.requestID = none) ∧
    (c.requestID < 2 ^ 32 → ∀ calls : List (Nat × Nat × Reply),
      (requestAll ToID c calls).requestID = (c.requestID + calls.length) % 2 ^ 32 ∧
      (∀ x ch, x < 2 ^ 32 → c.requests x = some ch →
        (calls.length ≤ (x + 2 ^ 32 - c.requestID) % 2 ^ 32 →
          (requestAll ToID c calls).requests x = some ch) ∧
        (calls.length = (x + 2 ^ 32 - c.requestID) % 2 ^ 32 →
          (requestAll ToID c calls).requestID = x)) ∧
      ((∀ msg, reply ≠ .delivered msg) → calls.length ≤ 2 ^ 32 - 1 →
        (requestAll ToID (requestChunkNodeID ToID c chunkID rch reply).1 calls).requests
          c.requestID = some rch)) := by
  have hoth := requestChunkNodeID_other ToID c chunkID rch reply
  have hown := requestChunkNodeID_own ToID c chunkID rch reply
  have hcount := requestChunkNodeID_counter ToID c chunkID rch reply
  refine ⟨hcount, hoth, hown.1, ?_, ?_, hown.2, ?_⟩
  · intro hfree x ch hx
    have hne : x ≠ c.requestID := by
      intro h; rw [h, hfree] at hx; cases hx
    rw [hoth x hne, hx]
  · intro ch _ hne
    cases reply with
    | sendFailed =>
      rw [hown.1 (fun msg h => by cases h)]
      exact fun h => hne (Option.some.inj h).symm
    | cancelled =>
      rw [hown.1 (fun msg h => by cases h)]
      exact fun h => hne (Option.some.inj h).symm
    | delivered msg =>
      rw [hown.2 ⟨msg, rfl⟩]
      exact fun h => by cases h
  · intro hc calls
    obtain ⟨h1, h2⟩ := requestAll_spec ToID calls c hc
    refine ⟨h1, ?_, ?_⟩
    · intro x ch hx hpend
      constructor
      · intro hlen
        exact h2 x ch hpend (fun i hi => counter_before c.requestID x i (by omega))
      · intro hlen
        rw [h1, hlen]
        exact counter_round c.requestID x hc hx
    · intro hnd hlen
      have hlt : (requestChunkNodeID ToID c chunkID rch reply).1.requestID < 2 ^ 32 := by
        rw [hcount]; exact Nat.mod_lt _ (by norm_num)
      refine (requestAll_spec ToID calls _ hlt).2 c.requestID rch (hown.1 hnd) ?_
      intro i hi
      rw [hcount]
      have hi1 : i < 2 ^ 32 - 1 := by omega
      norm_num at hc hi1 ⊢
      omega

/-- A call on a manager with the request 3 pending on channel 7 and the counter
at 4: the request 3 keeps its channel. -/
theorem request_id_is_counter_witness :
    (requestChunkNodeID (fun _ => 0)
        { requestID := 4, requests := mapSet (fun _ => none) 3 7, txBlocks := NewTxBlockMap,
          nodeChunks := [], outstanding := fun _ => none } 2 50 .cancelled).1.requests 3
      = some 7 :=
  (request_id_is_counter (fun _ => 0)
      { requestID := 4, requests := mapSet (fun _ => none) 3 7, txBlocks := NewTxBlockMap,
        nodeChunks := [], outstanding := fun _ => none } 2 50 .cancelled).2.2.2.1
    (by decide) 3 7 (by decide)

/-- C20.  The cascade terminates and moves strictly upward.  Take a store whose
buckets list only ids with items of their height, in which the height of a
block is the height of its parent plus one whenever the parent is in the
store, and whose blocks are all below a height `B` (the store is finite).
`VerifyAll` on an id of the store with a block of height `H` then runs `K`
rounds, `1 <= K <= B - H`: the frontier of round `k < K` is not empty and all
its ids have height `H + k`, the frontier after round `K` is empty, and the
loop finishes, with the store it has reached, exactly when it is given fuel for
`K` rounds. -/
theorem cascade_terminates {S E : Type} (ChildState : TxBlock → Nat → Except E S)
    (blkVerify : TxBlock → S → Option E) (c : TxBlockMap) (start B : Nat) (it0 : blkItem)
    (hs : ∀ k, BucketSound c k) (hc : ChildAbove c)
    (hfin : ∀ x it, c.items x = some it → it.blk.Hght < B)
    (hstart : c.items start = some it0) :
    ∃ K cK, 1 ≤ K ∧ K ≤ B - it0.blk.Hght ∧
      roundsFrom ChildState blkVerify K c [start] = some (cK, []) ∧
      SameBlocks c cK ∧
      (∀ k, k < K → ∃ ck Fk, roundsFrom ChildState blkVerify k c [start] = some (ck, Fk) ∧
        Fk ≠ [] ∧ ∀ x ∈ Fk, AtHeight c x (it0.blk.Hght + k)) ∧
      (∀ fuel, K ≤ fuel → VerifyAll ChildState blkVerify fuel c start = .finished cK) ∧
      ∀ fuel, fuel < K → VerifyAll ChildState blkVerify fuel c start = .outOfFuel := by
  have hlt := hfin start it0 hstart
  have hF : ∀ x ∈ [start], AtHeight c x it0.blk.Hght := by
    intro x hx
    rw [List.mem_singleton] at hx
    subst hx
    exact ⟨it0, hstart, rfl⟩
  obtain ⟨j, cj, hj, hrounds, hsb, hfront, hloop, hshort⟩ :=
    rounds_terminate ChildState blkVerify B (B - it0.blk.Hght) it0.blk.Hght c [start]
      hs hc hfin hF (by omega)
  have hpos : 1 ≤ j := by
    cases j with
    | zero =>
      simp only [roundsFrom, Option.some.injEq, Prod.mk.injEq] at hrounds
      exact absurd hrounds.2 (by simp)
    | succ j => omega
  exact ⟨j, cj, hpos, hj, hrounds, hsb, hfront, hloop, hshort⟩

/-- The example chain has bucket-sound buckets, children one above their
parents and blocks below height 7; the cascade from `exX` runs on it. -/
theorem cascade_terminates_witness :
    ∃ K cK, 1 ≤ K ∧ K ≤ 7 - 5 ∧
      roundsFrom (fun _ _ => (Except.ok () : Except Unit Unit)) (fun _ _ => none) K exChain [2]
        = some (cK, []) ∧
      (∀ k, k < K → ∃ ck Fk,
        roundsFrom (fun _ _ => (Except.ok () : Except Unit Unit)) (fun _ _ => none) k exChain [2]
          = some (ck, Fk) ∧ Fk ≠ [] ∧ ∀ x ∈ Fk, AtHeight exChain x (5 + k)) ∧
      ∀ fuel, K ≤ fuel →
        VerifyAll (fun _ _ => (Except.ok () : Except Unit Unit)) (fun _ _ => none) fuel exChain 2
          = .finished cK := by
  have hI : Inv exHgt exChain :=
    Inv.reach (respects_of_respectsB exHgt [.add exP, .verfied 1 true, .add exX, .add exY]
      (by decide)) rfl
  have hc : ChildAbove exChain := by
    intro x it itp h1 h2
    obtain ⟨hb, _⟩ := exChain_blocks x it h1
    obtain ⟨hp, hid⟩ := exChain_blocks _ itp h2
    rcases hb with hb | hb | hb <;> rcases hp with hp | hp | hp <;>
      rw [hb, hp] at hid <;> rw [hb, hp] <;> revert hid <;> decide
  have hfin : ∀ x it, exChain.items x = some it → it.blk.Hght < 7 := by
    intro x it h1
    obtain ⟨hb, _⟩ := exChain_blocks x it h1
    rcases hb with hb | hb | hb <;> rw [hb] <;> decide
  obtain ⟨K, cK, h1, h2, h3, _, h5, h6, _⟩ :=
    cascade_terminates (fun _ _ => (Except.ok () : Except Unit Unit)) (fun _ _ => none)
      exChain 2 7 ⟨exX, true, false⟩ hI.buckets_sound hc hfin (by decide)
  exact ⟨K, cK, h1, h2, h3, h5, h6⟩

/-- C21.  Nothing is ever claimable from an empty store.  Take a sequence of
calls of `Add`, `SetMin` and `Verfied` from `NewTxBlockMap` in which every call
`Verfied(id, _)` is on an id that an earlier call handed out.  The sequence
runs to the end; every call in it is met in a store in which no item has
`verifying` or `verified` set and leaves such a store; it hands nothing out,
so that `Add` returns `should_verify = false`; and it is never a call of
`Verfied`, so that there is no result of `Verfied` that is not empty. -/
theorem nothing_claimable (ops : List Op) (hd : Disciplined NewTxBlockMap [] ops) :
    (∃ c, run NewTxBlockMap ops = some c ∧ NoFlags c) ∧
    ∀ pre op post, ops = pre ++ op :: post →
      ∃ c0 c1, run NewTxBlockMap pre = some c0 ∧ NoFlags c0 ∧
        step c0 op = some (c1, []) ∧ NoFlags c1 ∧
        (∀ blkID success, op ≠ .verfied blkID success) ∧
        ∀ b, op = .add b → (Add c0 b).2.2 = false :=
  NoFlags.run_quiet ops NewTxBlockMap NoFlags_new hd

/-- The calls `Add(exP)`, `Add(exX)`, `SetMin(5)`, `Add(exY)`: the last call
returns `should_verify = false`. -/
theorem nothing_claimable_witness :
    Disciplined NewTxBlockMap [] [.add exP, .add exX, .setMin 5, .add exY] ∧
    ∃ c0 c1, run NewTxBlockMap [.add exP, .add exX, .setMin 5] = some c0 ∧ NoFlags c0 ∧
      step c0 (.add exY) = some (c1, []) ∧ NoFlags c1 ∧
      (∀ blkID success, Op.add exY ≠ .verfied blkID success) ∧
      ∀ b, Op.add exY = .add b → (Add c0 b).2.2 = false := by
  have hd : Disciplined NewTxBlockMap [] [.add exP, .add exX, .setMin 5, .add exY] := by
    refine ⟨fun _ _ h => (by cases h), ?_⟩
    refine ⟨fun _ _ h => (by cases h), ?_⟩
    refine ⟨fun _ _ h => (by cases h), ?_⟩
    refine ⟨fun _ _ h => (by cases h), ?_⟩
    trivial
  exact ⟨hd, (nothing_claimable _ hd).2 [.add exP, .add exX, .setMin 5] (.add exY) [] rfl⟩

/-- C22.  `Verfied` is defined exactly on the ids of the store.  In a store all
of whose buckets list only ids that have an item of their height, `Verfied(id,
success)` returns for every id with an item and both values of `success`; in
any store it faults, on the item it does not find, for every id without an
item.  The id 2 of `exX` is such an id after `SetMin(6)` has evicted it,
although `Add` had handed it out. -/
theorem verfied_defined_on_stored (c : TxBlockMap) (id : Nat) (success : Bool) :
    ((∀ k, BucketSound c k) → (∃ blk, c.items id = some blk) →
      ∃ c1 out, Verfied c id success = some (c1, out)) ∧
    (c.items id = none → Verfied c id success = none) ∧
    (Verfied c id success = none → (∀ k, BucketSound c k) → c.items id = none) ∧
    ((Add (storeAfter [.add exP, .verfied 1 true]) exX).2.2 = true ∧
      (storeAfter [.add exP, .verfied 1 true, .add exX, .setMin 6]).items 2 = none ∧
      Verfied (storeAfter [.add exP, .verfied 1 true, .add exX, .setMin 6]) 2 success
        = none) := by
  have hret : (∀ k, BucketSound c k) → (∃ blk, c.items id = some blk) →
      ∃ c1 out, Verfied c id success = some (c1, out) := by
    rintro hs ⟨blk, hb⟩
    cases success with
    | false => exact ⟨_, _, Verfied_false c id blk hb⟩
    | true =>
      apply Verfied_returns c id blk hb
      intro p hp y hy
      obtain ⟨ity, hity, _⟩ := hs _ p hp y hy
      simp [hity]
  refine ⟨hret, Verfied_none c id success, ?_, by decide, by decide, ?_⟩
  · intro hnone hs
    cases hb : c.items id with
    | none => rfl
    | some blk =>
      obtain ⟨c1, out, h⟩ := hret hs ⟨blk, hb⟩
      rw [hnone] at h
      cases h
  · exact Verfied_none _ 2 success (by decide)

/-- The store after `Add(exP)`, `Add(exX)` has sound buckets, and `Verfied`
returns on the id of `exP`. -/
theorem verfied_defined_on_stored_witness :
    (∀ k, BucketSound (storeAfter [.add exP, .add exX]) k) ∧
    ∃ c1 out, Verfied (storeAfter [.add exP, .add exX]) 1 true = some (c1, out) := by
  have hI : Inv exHgt (storeAfter [.add exP, .add exX]) :=
    Inv.reach (respects_of_respectsB exHgt [.add exP, .add exX] (by decide)) rfl
  exact ⟨hI.buckets_sound,
    (verfied_defined_on_stored (storeAfter [.add exP, .add exX]) 1 true).1
      hI.buckets_sound ⟨⟨exP, false, false⟩, by decide⟩⟩

end TxBlockManager

namespace Auth

/-- C23.  Batch verification covers every signature.  Take a fresh verifier
(counter zero, no batch, as `GetBatchVerifier` returns it) with any batch size,
and any sequence of calls of `Add`.  If the sequence is not empty, `Done`
returns one function, that of the current batch, and the triple of every call
is in the current batch or in a batch whose function one of the calls of `Add`
returned.  A further call of `Add` returns a function exactly when the number
of calls since the last one that returned a function, this call included, is
the batch size.  `Done` returns nil exactly when `Add` was never called.
`GetBatchVerifier` returns, when it does not divide by zero, a fresh verifier
whose batch size is at least `MinBatchSize`. -/
theorem batch_covers_all (mem : List (List Signed)) (b : ED25519Batch)
    (calls : List (List Nat × ED25519)) (hcounter : b.counter = 0) (hbatch : b.batch = none) :
    (calls ≠ [] →
      ∃ cur, ED25519Batch.Done (addAll mem b calls).2.1 = some [cur] ∧
        ∀ call ∈ calls, ∃ p, (p = cur ∨ some p ∈ (addAll mem b calls).2.2) ∧
          signedOf call ∈ batchAt (addAll mem b calls).1 p) ∧
    (∀ msg auth,
      (ED25519Batch.Add (addAll mem b calls).1 (addAll mem b calls).2.1 msg auth).2.2.isSome
          = true ↔
        (sinceReturn (addAll mem b calls).2.2 : Int) + 1 = b.batchSize) ∧
    (ED25519Batch.Done (addAll mem b calls).2.1 = none ↔ calls = []) ∧
    (∀ MinBatchSize cores count v, GetBatchVerifier MinBatchSize cores count = some v →
      v.counter = 0 ∧ v.batch = none ∧ MinBatchSize ≤ v.batchSize ∧ v.total = count) := by
  have h0 : Covered mem b [] [] := ⟨by simp [sinceReturn, hcounter], Or.inl ⟨hbatch, rfl, rfl⟩⟩
  obtain ⟨hcov, hsize, hbatch1⟩ := Covered.add_calls calls mem b [] [] h0
  simp only [List.nil_append] at hcov
  refine ⟨?_, ?_, ?_, ?_⟩
  · intro hne
    obtain ⟨_, hc⟩ := hcov
    rcases hc with ⟨hn, _, _⟩ | ⟨cur, hc, _, hall⟩
    · exact absurd hn (hbatch1 hne)
    · refine ⟨cur, by simp [ED25519Batch.Done, hc], ?_⟩
      intro call hcall
      exact hall (signedOf call) (List.mem_map_of_mem _ hcall)
  · intro msg auth
    rw [(hcov.add_call msg auth).2.2.2, hsize]
  · constructor
    · intro hd
      by_contra hne
      have := hbatch1 hne
      cases hb : (addAll mem b calls).2.1.batch with
      | none => exact this hb
      | some p => simp [ED25519Batch.Done, hb] at hd
    · intro hnil
      subst hnil
      simp [addAll, ED25519Batch.Done, hbatch]
  · intro MinBatchSize cores count v hv
    unfold GetBatchVerifier at hv
    by_cases hc : cores = 0
    · simp [hc] at hv
    · simp only [hc, if_false, Option.some.injEq] at hv
      subst hv
      exact ⟨rfl, rfl, le_max_right _ _, rfl⟩

/-- The five calls `exCalls` on the fresh verifier `exVerifier`. -/
theorem batch_covers_all_witness :
    exVerifier.counter = 0 ∧ exVerifier.batch = none ∧
    ∃ cur, ED25519Batch.Done (addAll [] exVerifier exCalls).2.1 = some [cur] ∧
      ∀ call ∈ exCalls, ∃ p, (p = cur ∨ some p ∈ (addAll [] exVerifier exCalls).2.2) ∧
        signedOf call ∈ batchAt (addAll [] exVerifier exCalls).1 p :=
  ⟨rfl, rfl, (batch_covers_all [] exVerifier exCalls rfl rfl).1 (by decide)⟩

end Auth
